import Mathlib

/-!
# Striped-lock hash table benchmark (`parallel_spin.c`)

A shallow embedding of the C program and the properties its specification states.

* C `int`/`long` values are `Int`; signed overflow of the loop counter, a division by zero,
  an array access outside its bounds and an access through `NULL` are `Outcome.undefined`.
* `panic(msg)` is `Outcome.exit 1 msg`.
* A bucket chain (`bucket_entry` linked through `next`) is a `List bucket_entry`, head first;
  `table` is the list of the `NUM_BUCKETS` chains.
* The macros `NUM_BUCKETS` and `NUM_KEYS` are the parameters `B` and `N` of the definitions;
  the values of the source are `NUM_BUCKETS = 5` and `NUM_KEYS = 100000`.
* `insert` takes and releases `spinlock[i]` around its four writes, so the writes of one call
  are one atomic transition of the shared table. The put phase is the interleaving of such
  transitions that a schedule chooses; all workers exist from the start, which allows every
  interleaving the sequential `pthread_create` loop allows.
* The get workers only read the table, so each `get_phase(tid)` is a function of the table.
* What the environment decides (`argv`, `atoi`, `random`, the results of `malloc`, the
  scheduler) is the `World` given to `main`; `pthread_create` is taken to succeed.
* The atomic transition is justified by a finer model, `insert_step`: `insert` statement by
  statement on `table` and the lock flags `spinlock`, with `pthread_spin_lock` an atomic
  test-and-set, and `conc_step` interleaving the statements of concurrent calls.
  `retrieve_step` is `retrieve` statement by statement on the same state.
* The list of a chain is justified by a memory model, `insert_mem` and `retrieve_mem`, in
  which entries are allocated cells linked through `next` pointers.
-/

namespace ParallelSpin

/-! ## Constants and results -/

/-- Source: `#define NUM_BUCKETS 5`. -/
def NUM_BUCKETS : Nat := 5

/-- Source: `#define NUM_KEYS 100000`. -/
def NUM_KEYS : Nat := 100000

/-- Largest value of a C `int` (32 bits). -/
def INT_MAX : Int := 2147483647

/-- Smallest value of a C `int` (32 bits). -/
def INT_MIN : Int := -2147483648

/-- Result of running a piece of the program. -/
inductive Outcome (α : Type) where
  /-- Normal completion with a value. -/
  | ok (a : α)
  /-- The process ended through `exit(code)` after printing `msg`. -/
  | exit (code : Nat) (msg : String)
  /-- Undefined behaviour of C was reached. -/
  | undefined
  /-- The bounded run ended before the code did (fuel or schedule exhausted). -/
  | unfinished
  deriving DecidableEq, Repr

/-- Sequencing: the first abnormal result ends the run. -/
def Outcome.bind {α β : Type} (o : Outcome α) (f : α → Outcome β) : Outcome β :=
  match o with
  | .ok a => f a
  | .exit code msg => .exit code msg
  | .undefined => .undefined
  | .unfinished => .unfinished

/-- Source: `void panic(char *msg) { printf("%s\n", msg); exit(1); }`. -/
def panic {α : Type} (msg : String) : Outcome α := .exit 1 msg

/-! ## The table -/

/-- Source: `struct _bucket_entry { int key; int val; struct _bucket_entry *next; }`;
the `next` link is the tail of the list the entry heads. -/
structure bucket_entry where
  key : Int
  val : Int
  deriving DecidableEq, Repr

/-- A chain of entries, read from the head. -/
abbrev Chain := List bucket_entry

/-- Source: `bucket_entry *table[NUM_BUCKETS]`. -/
abbrev Table := List Chain

/-- The zero-initialised global `table`: every head is `NULL`. -/
def empty_table (B : Nat) : Table := List.replicate B []

/-- Source: `key % NUM_BUCKETS` on `int` (remainder of the division truncated toward zero). -/
def bucket_index (B : Nat) (key : Int) : Int := Int.tmod key (B : Int)

/-- Read of `a[i]` for an `int` index: outside the array it is undefined behaviour. -/
def array_read {α : Type} (a : List α) (i : Int) : Outcome α :=
  if i < 0 then .undefined
  else match a[i.toNat]? with
    | some x => .ok x
    | none => .undefined

/-- Source: `insert(int key, int val)`. `malloc_ok` tells whether `malloc` returned a
non-`NULL` entry; the writes between `pthread_spin_lock` and `pthread_spin_unlock` are one step. -/
def insert (B : Nat) (malloc_ok : Bool) (table : Table) (key val : Int) : Outcome Table :=
  if B = 0 then .undefined
  else
    let i := bucket_index B key
    if malloc_ok = false then panic "No memory to allocate bucket!"
    else
      (array_read table i).bind fun head =>
        .ok (table.set i.toNat ({ key := key, val := val } :: head))

/-- The scan of `retrieve`: `for (b = head; b != NULL; b = b->next) if (b->key == key) return b;`
and `return NULL` (`none`) at the end of the chain. -/
def scan (key : Int) : Chain → Option bucket_entry
  | [] => none
  | b :: next => if b.key = key then some b else scan key next

/-- Source: `retrieve(int key)`; `none` is the `NULL` result. No lock is taken. -/
def retrieve (B : Nat) (table : Table) (key : Int) : Outcome (Option bucket_entry) :=
  if B = 0 then .undefined
  else
    (array_read table (bucket_index B key)).bind fun head => .ok (scan key head)

/-- A sequence of successful-allocation calls `insert(key, val)`, in order. -/
def insert_seq (B : Nat) : Table → List (Int × Int) → Outcome Table
  | table, [] => .ok table
  | table, op :: ops => (insert B true table op.1 op.2).bind fun t => insert_seq B t ops

/-! ## The strided loop of the workers -/

/-- One pass of `for (key = tid; key < NUM_KEYS; key += num_threads) body`, entered at the loop
test with counter `key`: the new accumulator and the next counter, or `none` when the loop is
left. The update `key += num_threads` is `int` arithmetic. -/
def strided_iter {σ : Type} (N : Nat) (num_threads : Int) (body : Int → σ → Outcome σ)
    (key : Int) (acc : σ) : Outcome (σ × Option Int) :=
  if key < (N : Int) then
    (body key acc).bind fun acc1 =>
      if key + num_threads > INT_MAX ∨ key + num_threads < INT_MIN then .undefined
      else .ok (acc1, some (key + num_threads))
  else .ok (acc, none)

/-- The whole loop, run for at most `fuel` loop tests. -/
def strided_loop {σ : Type} (N : Nat) (num_threads : Int) (body : Int → σ → Outcome σ) :
    Nat → Int → σ → Outcome σ
  | 0, _, _ => .unfinished
  | fuel + 1, key, acc =>
    (strided_iter N num_threads body key acc).bind fun r =>
      match r.2 with
      | some key1 => strided_loop N num_threads body fuel key1 r.1
      | none => .ok r.1

/-- The loop indices worker `tid` visits, in order (the loop with a body that records `key`). -/
def visited (N : Nat) (num_threads : Int) (tid : Int) : Outcome (List Int) :=
  strided_loop N num_threads (fun key acc => .ok (acc ++ [key])) (N + 1) tid []

/-- Body of the loop of `put_phase`: `insert(keys[key], tid)`. -/
def put_body (B : Nat) (keys : List Int) (tid : Int) (malloc_ok : Bool)
    (key : Int) (table : Table) : Outcome Table :=
  (array_read keys key).bind fun k => insert B malloc_ok table k tid

/-- Body of the loop of `get_phase`: `if (retrieve(keys[key]) == NULL) lost++;`. -/
def get_body (B : Nat) (keys : List Int) (table : Table) (key : Int) (lost : Int) : Outcome Int :=
  (array_read keys key).bind fun k =>
    (retrieve B table k).bind fun r =>
      .ok (if r = none then lost + 1 else lost)

/-- Source: `get_phase(tid)`; the value is the miss count handed to `pthread_exit`. -/
def get_phase (B N : Nat) (num_threads : Int) (keys : List Int) (table : Table) (tid : Int) :
    Outcome Int :=
  strided_loop N num_threads (get_body B keys table) (N + 1) tid 0

/-- Source: `put_phase(tid)` run without interference, every allocation succeeding: the table
when the worker reaches `pthread_exit`. -/
def put_phase (B N : Nat) (num_threads : Int) (keys : List Int) (table : Table) (tid : Int) :
    Outcome Table :=
  strided_loop N num_threads (put_body B keys tid true) (N + 1) tid table

/-! ## The put phase: interleaved workers -/

/-- Shared table and, per worker, the loop counter it is about to test (`none`: the worker
has reached `pthread_exit`). -/
structure PutState where
  table : Table
  threads : List (Option Int)
  deriving DecidableEq, Repr

/-- State after the `pthread_create` loop of the put phase: worker `i` starts with `key = i`. -/
def put_init (B : Nat) (T : Nat) : PutState :=
  { table := empty_table B, threads := (List.range T).map fun (i : Nat) => some (i : Int) }

/-- One scheduler choice: worker `tid` runs one pass of the loop of `put_phase` (test, `insert`,
counter update). A choice of a worker that does not exist or has exited changes nothing. -/
def put_phase_step (B N : Nat) (num_threads : Int) (keys : List Int) (s : PutState)
    (tid : Nat) (malloc_ok : Bool) : Outcome PutState :=
  match s.threads[tid]? with
  | some (some key) =>
    (strided_iter N num_threads (put_body B keys (tid : Int) malloc_ok) key s.table).bind fun r =>
      .ok { table := r.1, threads := s.threads.set tid r.2 }
  | _ => .ok s

/-- Run a schedule: each item names the worker that moves and the result of its `malloc`.
The state returned is the one reached when the run stopped; the status is `ok` when the whole
schedule was run. -/
def put_run (B N : Nat) (num_threads : Int) (keys : List Int) :
    PutState → List (Nat × Bool) → PutState × Outcome Unit
  | s, [] => (s, .ok ())
  | s, c :: rest =>
    match put_phase_step B N num_threads keys s c.1 c.2 with
    | .ok s1 => put_run B N num_threads keys s1 rest
    | .exit code msg => (s, .exit code msg)
    | .undefined => (s, .undefined)
    | .unfinished => (s, .unfinished)

/-- Every worker has reached `pthread_exit`: the joins of the barrier all return. -/
def all_exited (s : PutState) : Bool := s.threads.all fun th => th.isNone

/-! ## The driver -/

/-- Source: the loop of `main` that joins the get workers,
`for (i = 0; i < num_threads; i++) { pthread_join(threads[i], &lost_keys[i]);`
`total_lost += lost_keys[i]; }`, with `total_lost` entering as `acc` and `i` counting the
workers already joined. -/
def collect_lost (B N : Nat) (num_threads : Int) (keys : List Int) (table : Table) :
    Nat → Int → Int → Outcome Int
  | 0, _, acc => .ok acc
  | n + 1, i, acc =>
    (get_phase B N num_threads keys table i).bind fun lost =>
      collect_lost B N num_threads keys table n (i + 1) (acc + lost)

/-- The `total_lost` of `main` once every get worker is joined. -/
def total_lost (B N : Nat) (num_threads : Int) (keys : List Int) (table : Table) : Outcome Int :=
  collect_lost B N num_threads keys table num_threads.toNat 0 0

/-- What the environment decides for one run of `main`. -/
structure World where
  /-- The command line, `argv[0]` included (`argc` is its length). -/
  argv : List String
  /-- The C library function `atoi`. -/
  atoi : String → Int
  /-- The value stored by the `i`-th `keys[i] = random()`. -/
  random : Nat → Int
  /-- Whether `malloc` of the `threads` array succeeds. -/
  malloc_threads : Bool
  /-- Whether `malloc` of the `lost_keys` array succeeds. -/
  malloc_lost_keys : Bool
  /-- Scheduler choices of the put phase, each with the result of the `malloc` of `insert`. -/
  schedule : List (Nat × Bool)

/-- Thread operations of `main`, in program order. -/
inductive Event where
  | spin_init (i : Nat)
  | create_put (i : Nat)
  | join_put (i : Nat)
  | create_get (i : Nat)
  | join_get (i : Nat)
  deriving DecidableEq, Repr

/-- A run of `main`: the thread operations performed, the table when it stopped, how it
ended (`ok c` is `return c`), and the success count of the last `printf` when reached. -/
structure Run where
  events : List Event
  table : Table
  status : Outcome Int
  successes : Option Int

/-- Source: `argc`. -/
def argc (w : World) : Int := (w.argv.length : Int)

/-- The second half of `main`: the get phase and the aggregation, from the joined put phase. -/
def main_get (B N : Nat) (w : World) (num_threads : Int) (keys : List Int)
    (events : List Event) (table : Table) : Run :=
  let T := num_threads.toNat
  let ev := events ++ (List.range T).map Event.create_get
  if w.malloc_lost_keys = false then
    { events := ev, table := table, status := .undefined, successes := none }
  else
    match total_lost B N num_threads keys table with
    | .ok lost =>
      { events := ev ++ (List.range T).map Event.join_get, table := table, status := .ok 0,
        successes := some ((N : Int) - lost) }
    | .exit code msg => { events := ev, table := table, status := .exit code msg, successes := none }
    | .undefined => { events := ev, table := table, status := .undefined, successes := none }
    | .unfinished => { events := ev, table := table, status := .unfinished, successes := none }

/-- Source: `main(argc, argv)`. -/
def main (B N : Nat) (w : World) : Run :=
  let ev0 := (List.range B).map Event.spin_init
  if argc w ≠ 2 then
    { events := ev0, table := empty_table B,
      status := panic "usage: ./parallel_hashtable <num_threads>", successes := none }
  else
    let num_threads := w.atoi (w.argv.getD 1 "")
    if num_threads ≤ 0 then
      { events := ev0, table := empty_table B,
        status := panic "must enter a valid number of threads to run", successes := none }
    else
      let keys := (List.range N).map w.random
      if w.malloc_threads = false then
        { events := ev0, table := empty_table B,
          status := panic "out of memory allocating thread handles", successes := none }
      else
        let T := num_threads.toNat
        let ev1 := ev0 ++ (List.range T).map Event.create_put
        let r := put_run B N num_threads keys (put_init B T) w.schedule
        match r.2 with
        | .ok _ =>
          if all_exited r.1 then
            main_get B N w num_threads keys (ev1 ++ (List.range T).map Event.join_put) r.1.table
          else { events := ev1, table := r.1.table, status := .unfinished, successes := none }
        | .exit code msg =>
          { events := ev1, table := r.1.table, status := .exit code msg, successes := none }
        | .undefined =>
          { events := ev1, table := r.1.table, status := .undefined, successes := none }
        | .unfinished =>
          { events := ev1, table := r.1.table, status := .unfinished, successes := none }


/-! ## Specification-side notions -/

/-- The entries a sequence of calls `insert(key, val)` adds to bucket `i`: the pairs whose key
has bucket index `i`, the newest first. -/
def bucket_log (B : Nat) (i : Nat) (ops : List (Int × Int)) : Chain :=
  ((ops.filter fun op => bucket_index B op.1 = (i : Int)).map fun op =>
    ({ key := op.1, val := op.2 } : bucket_entry)).reverse

/-- Bucket invariant: every entry on the chain of `table[i]` has bucket index `i`. -/
def bucket_inv (B : Nat) (table : Table) : Prop :=
  ∀ (i : Nat) (chain : Chain), table[i]? = some chain → ∀ e ∈ chain, bucket_index B e.key = (i : Int)

/-- The index set of worker `i` as the specification gives it, `{i, i+T, i+2T, …} ∩ [0, N)`,
in increasing order. -/
def partition (N T i : Nat) : List Nat :=
  (List.range ((N - i + T - 1) / T)).map fun q => i + q * T

/-- Whether `retrieve(keys[j])` is `NULL` on `table`. -/
def missing (B : Nat) (keys : List Int) (table : Table) (j : Nat) : Bool :=
  decide ((array_read keys (j : Int)).bind (retrieve B table) = .ok none)

/-- Whether `retrieve(keys[j])` is an entry of `table`. -/
def found (B : Nat) (keys : List Int) (table : Table) (j : Nat) : Bool :=
  match (array_read keys (j : Int)).bind (retrieve B table) with
  | .ok (some _) => true
  | _ => false

/-- The call `insert(keys[j], tid)` that the put phase issues for index `j`: the key and the
id `j mod T` of the worker whose loop visits `j`. -/
def submitted (keys : List Int) (T : Nat) (j : Nat) : Int × Int :=
  (keys.getD j 0, ((j % T : Nat) : Int))

/-- Worker `j mod T` has moved past index `j`: it has exited or its counter is beyond `j`. -/
def passed (s : PutState) (T : Nat) (j : Nat) : Prop :=
  match s.threads[j % T]? with
  | some none => True
  | some (some key) => (j : Int) < key
  | none => False

/-- What holds of a put-phase state reached after the workers have, together, executed the
inserts for the indices of `log` (in time order). -/
structure PutInv (B N T : Nat) (keys : List Int) (s : PutState) (log : List Nat) : Prop where
  threads_length : s.threads.length = T
  table_eq : insert_seq B (empty_table B) (log.map (submitted keys T)) = .ok s.table
  log_nodup : log.Nodup
  mem_log : ∀ j : Nat, j ∈ log ↔ j < N ∧ passed s T j
  counter : ∀ (tid : Nat) (key : Int), s.threads[tid]? = some (some key) →
    0 ≤ key ∧ key.toNat % T = tid
  in_range : ∀ j ∈ log, j < keys.length ∧ (j : Int) + T ≤ INT_MAX

/-- The run ended in one of the two configuration errors of `main`. -/
def is_config_error (status : Outcome Int) : Prop :=
  status = panic "usage: ./parallel_hashtable <num_threads>" ∨
  status = panic "must enter a valid number of threads to run"

/-- A worker has been created in the run. -/
def worker_created (events : List Event) : Prop :=
  ∃ i : Nat, Event.create_put i ∈ events ∨ Event.create_get i ∈ events


/-- The counter of a put worker after one more turn: `key + T` while `key < N`, exited
afterwards. -/
def next_counter (N T : Nat) (th : Option Int) : Option Int :=
  match th with
  | some key => if key < (N : Int) then some (key + (T : Int)) else none
  | none => none

/-- Stage of the driver protocol an event belongs to: lock initialisation, creation of the
put workers, their joins (the barrier), creation of the get workers, their joins. -/
def Event.stage : Event → Nat
  | .spin_init _ => 0
  | .create_put _ => 1
  | .join_put _ => 2
  | .create_get _ => 3
  | .join_get _ => 4

/-! ## `insert` statement by statement, with the lock stripe set -/

/-- The globals `table` and `spinlock`; a lock flag is `true` while the lock is held. -/
structure Globals where
  table : Table
  spinlock : List Bool
  deriving DecidableEq, Repr

/-- State after `pthread_spin_init` of every lock, with the zero-initialised table. -/
def init_globals (B : Nat) : Globals :=
  { table := empty_table B, spinlock := List.replicate B false }

/-- Program points of a call `insert(key, val)`, each named by what has been done:
`start` (nothing), `allocated` (`i` computed, entry allocated and checked), `locked`
(`pthread_spin_lock` returned), `linked` (`e->next = table[i]`), `keyed` (`e->key = key`),
`valued` (`e->val = val`), `stored` (`table[i] = e`), `returned` (`pthread_spin_unlock`). -/
inductive Pc where
  | start
  | allocated
  | locked
  | linked
  | keyed
  | valued
  | stored
  | returned
  deriving DecidableEq, Repr

/-- A call `insert(key, val)` in progress: the arguments, whether its `malloc` succeeds, the
program point, the local `i`, and the fields of the entry `e` (private until `table[i] = e`). -/
structure Call where
  key : Int
  val : Int
  malloc_ok : Bool
  pc : Pc
  i : Int
  e_key : Int
  e_val : Int
  e_next : Chain
  deriving DecidableEq, Repr

/-- A call at its entry. -/
def new_call (key val : Int) (malloc_ok : Bool) : Call :=
  { key := key, val := val, malloc_ok := malloc_ok, pc := .start, i := 0,
    e_key := 0, e_val := 0, e_next := [] }

/-- What a step of a call does to the shared state. -/
inductive Action where
  /-- `malloc` and its check (nothing shared is touched). -/
  | alloc
  /-- `pthread_spin_lock(&spinlock[i])` takes the free lock. -/
  | acquire (i : Int)
  /-- `pthread_spin_lock(&spinlock[i])` finds the lock held and keeps polling. -/
  | spin (i : Int)
  /-- Read of `table[i]`. -/
  | read_head (i : Int)
  /-- Write of a field of the entry `e`. -/
  | write_entry
  /-- Write of `table[i]`. -/
  | write_head (i : Int)
  /-- `pthread_spin_unlock(&spinlock[i])`. -/
  | release (i : Int)
  /-- Read of a field of an entry on a chain (`b->key`, `b->next`). -/
  | read_entry
  /-- The call has returned; nothing happens. -/
  | idle
  deriving DecidableEq, Repr

/-- One statement of `insert`, in the order of the source:
`int i = key % NUM_BUCKETS; e = malloc(..); if (!e) panic(..);`
`pthread_spin_lock(&spinlock[i]); e->next = table[i]; e->key = key; e->val = val;`
`table[i] = e; pthread_spin_unlock(&spinlock[i]);`. -/
def insert_step (B : Nat) (g : Globals) (c : Call) : Outcome (Globals × Call × Action) :=
  match c.pc with
  | .start =>
    if B = 0 then .undefined
    else if c.malloc_ok = false then panic "No memory to allocate bucket!"
    else .ok (g, { c with pc := .allocated, i := bucket_index B c.key }, .alloc)
  | .allocated =>
    (array_read g.spinlock c.i).bind fun held =>
      if held = true then .ok (g, c, .spin c.i)
      else .ok (⟨g.table, g.spinlock.set c.i.toNat true⟩, { c with pc := .locked }, .acquire c.i)
  | .locked =>
    (array_read g.table c.i).bind fun head =>
      .ok (g, { c with pc := .linked, e_next := head }, .read_head c.i)
  | .linked => .ok (g, { c with pc := .keyed, e_key := c.key }, .write_entry)
  | .keyed => .ok (g, { c with pc := .valued, e_val := c.val }, .write_entry)
  | .valued =>
    (array_read g.table c.i).bind fun _ =>
      .ok (⟨g.table.set c.i.toNat ({ key := c.e_key, val := c.e_val } :: c.e_next), g.spinlock⟩,
        { c with pc := .stored }, .write_head c.i)
  | .stored =>
    (array_read g.spinlock c.i).bind fun _ =>
      .ok (⟨g.table, g.spinlock.set c.i.toNat false⟩, { c with pc := .returned }, .release c.i)
  | .returned => .ok (g, c, .idle)

/-- A run of one call: the shared state reached, the actions performed, how it ended. -/
structure CallRun where
  globals : Globals
  actions : List Action
  status : Outcome Unit
  deriving DecidableEq, Repr

/-- The statements of one call executed in a row, at most `fuel` of them, with no other
thread running. -/
def insert_run (B : Nat) : Nat → Globals → Call → CallRun
  | 0, g, c =>
    { globals := g, actions := [], status := if c.pc = .returned then .ok () else .unfinished }
  | fuel + 1, g, c =>
    if c.pc = .returned then { globals := g, actions := [], status := .ok () }
    else
      match insert_step B g c with
      | .ok r =>
        { globals := (insert_run B fuel r.1 r.2.1).globals,
          actions := r.2.2 :: (insert_run B fuel r.1 r.2.1).actions,
          status := (insert_run B fuel r.1 r.2.1).status }
      | .exit code msg => { globals := g, actions := [], status := .exit code msg }
      | .undefined => { globals := g, actions := [], status := .undefined }
      | .unfinished => { globals := g, actions := [], status := .unfinished }

/-- Source: `insert(key, val)` on the globals, its seven statements run without interference. -/
def insert_locked (B : Nat) (malloc_ok : Bool) (g : Globals) (key val : Int) : CallRun :=
  insert_run B 7 g (new_call key val malloc_ok)

/-- Calls of `insert` running concurrently, one thread each, on the shared globals. -/
structure Conc where
  globals : Globals
  calls : List Call
  deriving DecidableEq, Repr

/-- One scheduler choice: thread `tid` executes its next statement. -/
def conc_step (B : Nat) (s : Conc) (tid : Nat) : Outcome Conc :=
  match s.calls[tid]? with
  | some c =>
    (insert_step B s.globals c).bind fun r =>
      .ok { globals := r.1, calls := s.calls.set tid r.2.1 }
  | none => .ok s

/-- Run a schedule of thread choices; the state returned is the one reached when the run
stopped. -/
def conc_run (B : Nat) : Conc → List Nat → Conc × Outcome Unit
  | s, [] => (s, .ok ())
  | s, tid :: rest =>
    match conc_step B s tid with
    | .ok s1 => conc_run B s1 rest
    | .exit code msg => (s, .exit code msg)
    | .undefined => (s, .undefined)
    | .unfinished => (s, .unfinished)

/-- Every call has returned. -/
def all_returned (s : Conc) : Bool := s.calls.all fun c => decide (c.pc = .returned)

/-- The calls `insert(key, val)` for a list of pairs, each at its entry with a successful
allocation ahead. -/
def start_calls (ops : List (Int × Int)) : List Call :=
  ops.map fun op => new_call op.1 op.2 true

/-- The call holds the lock of its bucket: it is between `pthread_spin_lock` and
`pthread_spin_unlock`. -/
def Pc.in_cs : Pc → Bool
  | .locked => true
  | .linked => true
  | .keyed => true
  | .valued => true
  | .stored => true
  | _ => false

/-- The call has read `table[i]` into `e->next` and not yet written `table[i]`. -/
def Pc.has_next : Pc → Bool
  | .linked => true
  | .keyed => true
  | .valued => true
  | _ => false

/-- The call has written `table[i] = e`: its entry is on the chain. -/
def Pc.committed : Pc → Bool
  | .stored => true
  | .returned => true
  | _ => false

/-- What holds of one call in progress, relative to the shared state. -/
structure CallInv (B : Nat) (g : Globals) (c : Call) : Prop where
  malloc : c.malloc_ok = true
  index : c.pc ≠ .start → B ≠ 0 ∧ c.i = bucket_index B c.key
  held : c.pc.in_cs = true → 0 ≤ c.i ∧ g.spinlock[c.i.toNat]? = some true
  next_eq : c.pc.has_next = true → g.table[c.i.toNat]? = some c.e_next
  key_eq : c.pc = .keyed ∨ c.pc = .valued → c.e_key = c.key
  val_eq : c.pc = .valued → c.e_val = c.val

/-- What holds of a state of concurrent calls `insert(ops[tid])`, started on the table `t0`
with all locks free, when the calls of `log` (in the order of their writes of `table[i]`)
have put their entry on a chain. -/
structure ConcInv (B : Nat) (t0 : Table) (ops : List (Int × Int)) (s : Conc) (log : List Nat) :
    Prop where
  table_eq : insert_seq B t0 (log.map fun tid => ops.getD tid (0, 0)) = .ok s.globals.table
  log_nodup : log.Nodup
  mem_log : ∀ tid : Nat, tid ∈ log ↔ ∃ c, s.calls[tid]? = some c ∧ c.pc.committed = true
  args : ∀ (tid : Nat) (c : Call), s.calls[tid]? = some c → ops[tid]? = some (c.key, c.val)
  calls_length : s.calls.length = ops.length
  local_inv : ∀ (tid : Nat) (c : Call), s.calls[tid]? = some c → CallInv B s.globals c
  owner : ∀ j : Nat, s.globals.spinlock[j]? = some true →
    ∃ (tid : Nat) (c : Call), s.calls[tid]? = some c ∧ c.pc.in_cs = true ∧ c.i.toNat = j
  exclusive : ∀ (a b : Nat) (ca cb : Call), s.calls[a]? = some ca → s.calls[b]? = some cb →
    ca.pc.in_cs = true → cb.pc.in_cs = true → ca.i = cb.i → a = b

/-! ## The chains as linked entries in memory -/

/-- A `bucket_entry` in memory: `next` is the address of an entry or `NULL` (`none`). -/
structure Cell where
  key : Int
  val : Int
  next : Option Nat
  deriving DecidableEq, Repr

/-- The entries allocated so far, addressed by their position (entries are never freed), and
the head pointers `table[i]`. -/
structure Memory where
  cells : List Cell
  heads : List (Option Nat)
  deriving DecidableEq, Repr

/-- The zero-initialised `table` before any allocation. -/
def empty_memory (B : Nat) : Memory := { cells := [], heads := List.replicate B none }

/-- Source: `insert(key, val)` on memory, the allocation succeeding: `malloc` returns the
address of a new entry, `e->next = table[i]`, `table[i] = e`. -/
def insert_mem (B : Nat) (m : Memory) (key val : Int) : Outcome Memory :=
  if B = 0 then .undefined
  else
    (array_read m.heads (bucket_index B key)).bind fun head =>
      .ok { cells := m.cells ++ [{ key := key, val := val, next := head }],
            heads := m.heads.set (bucket_index B key).toNat (some m.cells.length) }

/-- A sequence of calls `insert(key, val)` on memory. -/
def insert_mem_seq (B : Nat) : Memory → List (Int × Int) → Outcome Memory
  | m, [] => .ok m
  | m, op :: ops => (insert_mem B m op.1 op.2).bind fun m1 => insert_mem_seq B m1 ops

/-- The loop of `retrieve` on memory, `for (b = head; b != NULL; b = b->next)` with
`if (b->key == key) return b;`, run for at most `fuel` passes from the pointer `b`, having
inspected `n` entries: the pointer returned and the number of entries inspected. -/
def scan_mem (cells : List Cell) (key : Int) : Nat → Option Nat → Nat → Outcome (Option Nat × Nat)
  | _, none, n => .ok (none, n)
  | 0, some _, _ => .unfinished
  | fuel + 1, some b, n =>
    match cells[b]? with
    | none => .undefined
    | some cell =>
      if cell.key = key then .ok (some b, n + 1)
      else scan_mem cells key fuel cell.next (n + 1)

/-- Source: `retrieve(key)` on memory, with the number of entries it inspected. -/
def retrieve_mem (B : Nat) (m : Memory) (key : Int) (fuel : Nat) : Outcome (Option Nat × Nat) :=
  if B = 0 then .undefined
  else (array_read m.heads (bucket_index B key)).bind fun head => scan_mem m.cells key fuel head 0

/-- The entries reached from the pointer `p` through `next`, up to `NULL`, are the chain
`chain`; there is such a finite chain exactly when the links from `p` do not run in a cycle
or out of the allocated entries. -/
inductive Linked (cells : List Cell) : Option Nat → Chain → Prop where
  | null : Linked cells none []
  | cell (a : Nat) (c : Cell) (rest : Chain) (hc : cells[a]? = some c)
      (hrest : Linked cells c.next rest) :
      Linked cells (some a) ({ key := c.key, val := c.val } :: rest)

/-- The memory holds the table `t`: bucket by bucket, the head pointer leads through the
chain of `t`. -/
def Represents (m : Memory) (t : Table) : Prop :=
  m.heads.length = t.length ∧
  ∀ (i : Nat) (chain : Chain), t[i]? = some chain →
    ∃ p, m.heads[i]? = some p ∧ Linked m.cells p chain

/-- The number of entries the scan of `retrieve` inspects on a chain: up to and including the
first entry with the key. -/
def inspected (key : Int) : Chain → Nat
  | [] => 0
  | b :: next => if b.key = key then 1 else inspected key next + 1

/-- The number of statements a call has still to execute. -/
def Pc.remaining : Pc → Nat
  | .start => 7
  | .allocated => 6
  | .locked => 5
  | .linked => 4
  | .keyed => 3
  | .valued => 2
  | .stored => 1
  | .returned => 0

/-- The number of statements the calls of a state have still to execute, together. -/
def remaining_total (s : Conc) : Nat := (s.calls.map fun c => c.pc.remaining).sum

/-- The arrays `table` and `spinlock` have `B > 0` elements and the bucket index of the key
of every call is not negative, so that every access of every call is within the arrays. -/
structure ConcWf (B : Nat) (s : Conc) : Prop where
  buckets : 0 < B
  table_length : s.globals.table.length = B
  spinlock_length : s.globals.spinlock.length = B
  keys : ∀ c ∈ s.calls, 0 ≤ bucket_index B c.key

theorem bind_eq_ok {α β : Type} (o : Outcome α) (f : α → Outcome β) (b : β) :
    o.bind f = .ok b ↔ ∃ a, o = .ok a ∧ f a = .ok b := by
  cases o <;> simp [Outcome.bind]

theorem array_read_eq_ok {α : Type} (a : List α) (i : Int) (x : α) :
    array_read a i = .ok x ↔ 0 ≤ i ∧ a[i.toNat]? = some x := by
  unfold array_read
  by_cases h : i < 0
  · simp [h]
  · simp only [h, if_false]
    cases hx : a[i.toNat]? with
    | none => simp
    | some y => simp; omega

theorem bucket_index_of_nonneg (B : Nat) (key : Int) (hk : 0 ≤ key) :
    bucket_index B key = key % (B : Int) := by
  unfold bucket_index
  exact Int.tmod_eq_emod hk (Int.ofNat_nonneg B)

theorem bucket_index_bounds (B : Nat) (key : Int) (hB : 0 < B) (hk : 0 ≤ key) :
    0 ≤ bucket_index B key ∧ (bucket_index B key).toNat < B := by
  rw [bucket_index_of_nonneg B key hk]
  have h1 : 0 ≤ key % (B : Int) := Int.emod_nonneg _ (by omega)
  have h2 : key % (B : Int) < B := Int.emod_lt_of_pos _ (by omega)
  exact ⟨h1, by omega⟩

theorem insert_eq_ok (B : Nat) (m : Bool) (t t1 : Table) (key val : Int) :
    insert B m t key val = .ok t1 ↔
      B ≠ 0 ∧ m = true ∧ 0 ≤ bucket_index B key ∧
        ∃ head, t[(bucket_index B key).toNat]? = some head ∧
          t1 = t.set (bucket_index B key).toNat ({ key := key, val := val } :: head) := by
  unfold insert
  by_cases hB : B = 0
  · simp [hB]
  · cases m
    · simp [hB, panic]
    · simp only [hB, if_false, bind_eq_ok, array_read_eq_ok, ne_eq, not_false_eq_true, true_and,
        Bool.true_eq_false]
      constructor
      · rintro ⟨head, ⟨h0, hh⟩, ht⟩
        exact ⟨h0, head, hh, by simpa using ht.symm⟩
      · rintro ⟨h0, head, hh, ht⟩
        exact ⟨head, ⟨h0, hh⟩, by simp [ht]⟩

theorem retrieve_eq_ok (B : Nat) (t : Table) (key : Int) (r : Option bucket_entry) :
    retrieve B t key = .ok r ↔
      B ≠ 0 ∧ 0 ≤ bucket_index B key ∧
        ∃ head, t[(bucket_index B key).toNat]? = some head ∧ scan key head = r := by
  unfold retrieve
  by_cases hB : B = 0
  · simp [hB]
  · simp only [hB, if_false, bind_eq_ok, array_read_eq_ok, ne_eq, not_false_eq_true, true_and]
    constructor
    · rintro ⟨head, ⟨h0, hh⟩, ht⟩
      exact ⟨h0, head, hh, by simpa using ht⟩
    · rintro ⟨h0, head, hh, ht⟩
      exact ⟨head, ⟨h0, hh⟩, by simp [ht]⟩

theorem scan_eq_none (key : Int) (c : Chain) :
    scan key c = none ↔ ∀ e ∈ c, e.key ≠ key := by
  induction c with
  | nil => simp [scan]
  | cons b next ih =>
    by_cases h : b.key = key
    · simp [scan, h]
    · simp [scan, h, ih]

theorem scan_append_cons (key : Int) (front back : Chain) (e : bucket_entry)
    (hfront : ∀ b ∈ front, b.key ≠ key) (he : e.key = key) :
    scan key (front ++ e :: back) = some e := by
  induction front with
  | nil => simp [scan, he]
  | cons b next ih =>
    have hb : b.key ≠ key := hfront b (by simp)
    simp only [List.cons_append, scan, hb, if_false]
    exact ih (fun x hx => hfront x (by simp [hx]))

theorem scan_eq_some (key : Int) (c : Chain) (e : bucket_entry) (h : scan key c = some e) :
    e.key = key ∧ ∃ front back, c = front ++ e :: back ∧ ∀ b ∈ front, b.key ≠ key := by
  induction c with
  | nil => simp [scan] at h
  | cons b next ih =>
    by_cases hb : b.key = key
    · simp only [scan, hb, if_true, Option.some.injEq] at h
      subst h
      exact ⟨hb, [], next, by simp, by simp⟩
    · simp only [scan, hb, if_false] at h
      obtain ⟨h1, front, back, h2, h3⟩ := ih h
      refine ⟨h1, b :: front, back, by simp [h2], ?_⟩
      intro x hx
      rcases List.mem_cons.mp hx with rfl | hx
      · exact hb
      · exact h3 x hx

theorem insert_length (B : Nat) (m : Bool) (t t1 : Table) (key val : Int)
    (h : insert B m t key val = .ok t1) : t1.length = t.length := by
  obtain ⟨_, _, _, head, _, rfl⟩ := (insert_eq_ok B m t t1 key val).mp h
  simp

theorem bucket_log_cons (B i : Nat) (op : Int × Int) (ops : List (Int × Int)) :
    bucket_log B i (op :: ops) =
      bucket_log B i ops ++
        (if bucket_index B op.1 = (i : Int) then [({ key := op.1, val := op.2 } : bucket_entry)]
         else []) := by
  unfold bucket_log
  by_cases h : bucket_index B op.1 = (i : Int)
  · simp [List.filter_cons, h]
  · simp [List.filter_cons, h]

theorem bucket_log_append (B i : Nat) (ops1 ops2 : List (Int × Int)) :
    bucket_log B i (ops1 ++ ops2) = bucket_log B i ops2 ++ bucket_log B i ops1 := by
  unfold bucket_log
  simp [List.filter_append]

theorem mem_bucket_log (B i : Nat) (ops : List (Int × Int)) (e : bucket_entry) :
    e ∈ bucket_log B i ops ↔ (e.key, e.val) ∈ ops ∧ bucket_index B e.key = (i : Int) := by
  unfold bucket_log
  simp only [List.mem_reverse, List.mem_map, List.mem_filter, decide_eq_true_eq]
  constructor
  · rintro ⟨op, ⟨h1, h2⟩, rfl⟩
    exact ⟨h1, h2⟩
  · rintro ⟨h1, h2⟩
    exact ⟨(e.key, e.val), ⟨h1, h2⟩, rfl⟩

/-- After a sequence of inserts every chain is the log of its bucket in front of the old chain. -/
theorem insert_seq_chain (B : Nat) (ops : List (Int × Int)) :
    ∀ (t0 t : Table), insert_seq B t0 ops = .ok t →
      ∀ i : Nat, t[i]? = (t0[i]?).map fun c => bucket_log B i ops ++ c := by
  induction ops with
  | nil =>
    intro t0 t h i
    simp only [insert_seq, Outcome.ok.injEq] at h
    subst h
    cases t0[i]? <;> simp [bucket_log]
  | cons op ops ih =>
    intro t0 t h i
    simp only [insert_seq, bind_eq_ok] at h
    obtain ⟨t1, h1, h2⟩ := h
    rw [ih t1 t h2 i, bucket_log_cons]
    obtain ⟨_, _, h0, head, hh, rfl⟩ := (insert_eq_ok B true t0 t1 op.1 op.2).mp h1
    have hlt : (bucket_index B op.1).toNat < t0.length := by
      by_contra hc
      rw [List.getElem?_eq_none (by omega)] at hh
      cases hh
    by_cases hi : bucket_index B op.1 = (i : Int)
    · have hi2 : (bucket_index B op.1).toNat = i := by omega
      rw [hi2] at hh hlt ⊢
      rw [List.getElem?_set_self hlt, hh, if_pos hi]
      simp
    · have hi2 : (bucket_index B op.1).toNat ≠ i := by omega
      rw [List.getElem?_set_ne hi2]
      simp [hi]

theorem insert_seq_length (B : Nat) (ops : List (Int × Int)) :
    ∀ (t0 t : Table), insert_seq B t0 ops = .ok t → t.length = t0.length := by
  induction ops with
  | nil =>
    intro t0 t h
    simp only [insert_seq, Outcome.ok.injEq] at h
    rw [h]
  | cons op ops ih =>
    intro t0 t h
    simp only [insert_seq, bind_eq_ok] at h
    obtain ⟨t1, h1, h2⟩ := h
    rw [ih t1 t h2, insert_length B true t0 t1 op.1 op.2 h1]

/-- From the empty table, bucket `i` holds exactly its log. -/
theorem insert_seq_empty_chain (B : Nat) (ops : List (Int × Int)) (t : Table)
    (h : insert_seq B (empty_table B) ops = .ok t) (i : Nat) (hi : i < B) :
    t[i]? = some (bucket_log B i ops) := by
  rw [insert_seq_chain B ops _ t h i]
  simp [empty_table, List.getElem?_replicate, hi]

theorem insert_seq_append (B : Nat) (ops1 ops2 : List (Int × Int)) :
    ∀ t0 : Table, insert_seq B t0 (ops1 ++ ops2) =
      (insert_seq B t0 ops1).bind fun t => insert_seq B t ops2 := by
  induction ops1 with
  | nil => intro t0; simp [insert_seq, Outcome.bind]
  | cons op ops ih =>
    intro t0
    simp only [List.cons_append, insert_seq]
    cases h : insert B true t0 op.1 op.2 <;> simp [Outcome.bind, ih]

/-- A successful insert sequence only holds keys with a valid bucket index. -/
theorem insert_seq_index_ok (B : Nat) (ops : List (Int × Int)) :
    ∀ (t0 t : Table), insert_seq B t0 ops = .ok t →
      ∀ op ∈ ops, B ≠ 0 ∧ 0 ≤ bucket_index B op.1 ∧ (bucket_index B op.1).toNat < t0.length := by
  induction ops with
  | nil => intro t0 t _ op hop; simp at hop
  | cons op1 ops ih =>
    intro t0 t h op hop
    simp only [insert_seq, bind_eq_ok] at h
    obtain ⟨t1, h1, h2⟩ := h
    have hlen := insert_length B true t0 t1 op1.1 op1.2 h1
    rcases List.mem_cons.mp hop with rfl | hop
    · obtain ⟨hB, _, h0, head, hh, _⟩ := (insert_eq_ok B true t0 t1 op.1 op.2).mp h1
      refine ⟨hB, h0, ?_⟩
      by_contra hc
      rw [List.getElem?_eq_none (by omega)] at hh
      cases hh
    · have := ih t1 t h2 op hop
      rw [hlen] at this
      exact this

theorem retrieve_after_insert (B : Nat) (m : Bool) (t t1 : Table) (k v : Int)
    (h : insert B m t k v = .ok t1) :
    retrieve B t1 k = .ok (some { key := k, val := v }) := by
  obtain ⟨hB, _, h0, head, hh, rfl⟩ := (insert_eq_ok B m t t1 k v).mp h
  have hlt : (bucket_index B k).toNat < t.length := by
    by_contra hc
    rw [List.getElem?_eq_none (by omega)] at hh
    cases hh
  rw [retrieve_eq_ok]
  exact ⟨hB, h0, _, List.getElem?_set_self hlt, by simp [scan]⟩

theorem insert_succeeds (B : Nat) (t : Table) (key val : Int)
    (hB : 0 < B) (hlen : t.length = B) (hk : 0 ≤ key) :
    ∃ chain, t[(bucket_index B key).toNat]? = some chain ∧
      insert B true t key val =
        .ok (t.set (bucket_index B key).toNat ({ key := key, val := val } :: chain)) := by
  obtain ⟨h0, h1⟩ := bucket_index_bounds B key hB hk
  have hlt : (bucket_index B key).toNat < t.length := by omega
  refine ⟨t[(bucket_index B key).toNat], List.getElem?_eq_getElem hlt, ?_⟩
  rw [insert_eq_ok]
  exact ⟨by omega, rfl, h0, _, List.getElem?_eq_getElem hlt, rfl⟩

theorem bucket_inv_empty (B : Nat) : bucket_inv B (empty_table B) := by
  intro i chain h e he
  simp only [empty_table, List.getElem?_replicate] at h
  split at h
  · cases h
    simp at he
  · cases h

theorem bucket_inv_insert (B : Nat) (m : Bool) (t t1 : Table) (key val : Int)
    (hinv : bucket_inv B t) (h : insert B m t key val = .ok t1) : bucket_inv B t1 := by
  obtain ⟨_, _, h0, head, hh, rfl⟩ := (insert_eq_ok B m t t1 key val).mp h
  intro i chain hc e he
  by_cases hi : (bucket_index B key).toNat = i
  · have hlt : (bucket_index B key).toNat < t.length := by
      by_contra hc2
      rw [List.getElem?_eq_none (by omega)] at hh
      cases hh
    rw [← hi, List.getElem?_set_self hlt] at hc
    cases hc
    rcases List.mem_cons.mp he with rfl | he
    · simp only
      omega
    · rw [← hi]
      exact hinv _ head hh e he
  · rw [List.getElem?_set_ne hi] at hc
    exact hinv i chain hc e he

theorem bucket_inv_insert_seq (B : Nat) (ops : List (Int × Int)) :
    ∀ t0 t : Table, bucket_inv B t0 → insert_seq B t0 ops = .ok t → bucket_inv B t := by
  induction ops with
  | nil =>
    intro t0 t hinv h
    simp only [insert_seq, Outcome.ok.injEq] at h
    rw [← h]
    exact hinv
  | cons op ops ih =>
    intro t0 t hinv h
    simp only [insert_seq, bind_eq_ok] at h
    obtain ⟨t1, h1, h2⟩ := h
    exact ih t1 t (bucket_inv_insert B true t0 t1 op.1 op.2 hinv h1) h2

/-! ## Lookup after a sequence of inserts (C2, C3) -/

/-- A sequence that holds an insert of key `k` splits at the last such insert. -/
theorem last_insert_exists (k : Int) (ops : List (Int × Int)) (h : ∃ v, (k, v) ∈ ops) :
    ∃ (pre : List (Int × Int)) (v : Int) (post : List (Int × Int)),
      ops = pre ++ (k, v) :: post ∧ ∀ op ∈ post, op.1 ≠ k := by
  induction ops with
  | nil =>
    obtain ⟨v, hv⟩ := h
    simp at hv
  | cons op rest ih =>
    by_cases hrest : ∃ v, (k, v) ∈ rest
    · obtain ⟨pre, v, post, hsplit, hpost⟩ := ih hrest
      exact ⟨op :: pre, v, post, by rw [hsplit]; rfl, hpost⟩
    · obtain ⟨v, hv⟩ := h
      rcases List.mem_cons.mp hv with hop | hv
      · refine ⟨[], v, rest, by rw [← hop]; rfl, ?_⟩
        intro x hx hxk
        exact hrest ⟨x.2, by rw [← hxk]; exact hx⟩
      · exact absurd ⟨v, hv⟩ hrest

/-- C2: from the empty table, after a sequence of inserts whose last insert of key `k` is
`insert(k, v)`, `retrieve(k)` returns the entry `{k, v}` of that insert, and on the chain of
the bucket of `k` this entry comes after the entries of the later inserts, none of which has
key `k`, and before those of the earlier ones; every sequence that holds an insert of `k` has
such a last insert; and right after any successful `insert(k, v)`, `retrieve(k)` returns an
entry with key `k` and val `v`. -/
theorem retrieve_most_recent (B : Nat) :
    (∀ (pre post : List (Int × Int)) (k v : Int) (t : Table),
      (∀ op ∈ post, op.1 ≠ k) →
      insert_seq B (empty_table B) (pre ++ (k, v) :: post) = .ok t →
        retrieve B t k = .ok (some { key := k, val := v }) ∧
        t[(bucket_index B k).toNat]? =
          some (bucket_log B (bucket_index B k).toNat post ++
            { key := k, val := v } :: bucket_log B (bucket_index B k).toNat pre) ∧
        ∀ b ∈ bucket_log B (bucket_index B k).toNat post, b.key ≠ k) ∧
    (∀ (ops : List (Int × Int)) (k : Int), (∃ v, (k, v) ∈ ops) →
      ∃ (pre : List (Int × Int)) (v : Int) (post : List (Int × Int)),
        ops = pre ++ (k, v) :: post ∧ ∀ op ∈ post, op.1 ≠ k) ∧
    (∀ (m : Bool) (t t1 : Table) (k v : Int),
      insert B m t k v = .ok t1 → retrieve B t1 k = .ok (some { key := k, val := v })) := by
  refine ⟨?_, fun ops k h => last_insert_exists k ops h,
    fun m t t1 k v h => retrieve_after_insert B m t t1 k v h⟩
  intro pre post k v t hpost h
  obtain ⟨hB, h0, hlt⟩ := insert_seq_index_ok B _ _ t h (k, v) (by simp)
  simp only [empty_table, List.length_replicate] at hlt h0
  have hfront : ∀ b ∈ bucket_log B (bucket_index B k).toNat post, b.key ≠ k := by
    intro b hb
    exact hpost (b.key, b.val) ((mem_bucket_log B _ post b).mp hb).1
  have hchain : t[(bucket_index B k).toNat]? =
      some (bucket_log B (bucket_index B k).toNat post ++
        { key := k, val := v } :: bucket_log B (bucket_index B k).toNat pre) := by
    rw [insert_seq_empty_chain B _ t h _ hlt, bucket_log_append, bucket_log_cons]
    have : bucket_index B k = (((bucket_index B k).toNat : Nat) : Int) := by omega
    simp [← this]
  refine ⟨?_, hchain, hfront⟩
  rw [retrieve_eq_ok]
  exact ⟨hB, h0, _, hchain, scan_append_cons k _ _ _ hfront rfl⟩

/-- Witness of C2: `insert(7,0); insert(12,1); insert(7,1); insert(2,3)` on five buckets. -/
theorem retrieve_most_recent_witness :
    retrieve 5 [[], [], [⟨2, 3⟩, ⟨7, 1⟩, ⟨12, 1⟩, ⟨7, 0⟩], [], []] 7 = .ok (some ⟨7, 1⟩) :=
  ((retrieve_most_recent 5).1 [(7, 0), (12, 1)] [(2, 3)] 7 1
    [[], [], [⟨2, 3⟩, ⟨7, 1⟩, ⟨12, 1⟩, ⟨7, 0⟩], [], []] (by decide) (by decide)).1

/-- C3: from the empty table (with at least one bucket), after a sequence of inserts,
`retrieve(k)` for a non-negative key `k` returns `NULL` exactly when the sequence holds no
insert of key `k`. -/
theorem retrieve_null_iff_absent (B : Nat) (ops : List (Int × Int)) (t : Table) (k : Int)
    (hB : 0 < B) (hk : 0 ≤ k) (h : insert_seq B (empty_table B) ops = .ok t) :
    retrieve B t k = .ok none ↔ ∀ op ∈ ops, op.1 ≠ k := by
  obtain ⟨h0, hlt⟩ := bucket_index_bounds B k hB hk
  have hchain := insert_seq_empty_chain B ops t h _ hlt
  rw [retrieve_eq_ok]
  constructor
  · rintro ⟨_, _, head, hh, hs⟩ op hop hkey
    rw [hchain] at hh
    cases hh
    rw [scan_eq_none] at hs
    refine hs { key := op.1, val := op.2 } ?_ hkey
    rw [mem_bucket_log]
    refine ⟨hop, ?_⟩
    simp only [hkey]
    omega
  · intro hno
    refine ⟨by omega, h0, _, hchain, ?_⟩
    rw [scan_eq_none]
    intro e he
    exact hno (e.key, e.val) ((mem_bucket_log B _ ops e).mp he).1

/-- Witness of C3: key 17 shares bucket 2 with the stored keys 7 and 12 and is not found. -/
theorem retrieve_null_iff_absent_witness :
    retrieve 5 [[], [], [⟨12, 1⟩, ⟨7, 0⟩], [], []] 17 = .ok none :=
  (retrieve_null_iff_absent 5 [(7, 0), (12, 1)] [[], [], [⟨12, 1⟩, ⟨7, 0⟩], [], []] 17
    (by decide) (by decide) (by decide)).mpr (by decide)

/-! ## The strided loop and the partition of the indices (C4) -/

theorem partition_of_ge (N T i : Nat) (hT : 0 < T) (h : N ≤ i) : partition N T i = [] := by
  unfold partition
  have : (N - i + T - 1) / T = 0 := by
    apply Nat.div_eq_of_lt
    omega
  simp [this]

theorem partition_of_lt (N T i : Nat) (hT : 0 < T) (h : i < N) :
    partition N T i = i :: partition N T (i + T) := by
  unfold partition
  have hc : (N - i + T - 1) / T = (N - (i + T) + T - 1) / T + 1 := by
    by_cases h2 : i + T ≤ N
    · have : N - i + T - 1 = (N - (i + T) + T - 1) + T := by omega
      rw [this, Nat.add_div_right _ hT]
    · have h3 : (N - (i + T) + T - 1) / T = 0 := by
        apply Nat.div_eq_of_lt
        omega
      have h4 : N - i + T - 1 = (N - i - 1) + T := by omega
      have h5 : (N - i - 1) / T = 0 := by
        apply Nat.div_eq_of_lt
        omega
      rw [h3, h4, Nat.add_div_right _ hT, h5]
  rw [hc, List.range_succ_eq_map]
  simp only [List.map_cons, List.map_map, zero_mul, add_zero, List.cons.injEq, true_and]
  apply List.map_congr_left
  intro q _
  simp only [Function.comp, Nat.succ_eq_add_one]
  ring

theorem mem_partition (N T i j : Nat) (hT : 0 < T) :
    j ∈ partition N T i ↔ j < N ∧ i ≤ j ∧ j % T = i % T := by
  unfold partition
  simp only [List.mem_map, List.mem_range]
  have hq : ∀ q, q < (N - i + T - 1) / T ↔ i + q * T < N := by
    intro q
    rw [Nat.lt_iff_add_one_le, Nat.le_div_iff_mul_le hT, Nat.add_mul]
    omega
  constructor
  · rintro ⟨q, hlt, rfl⟩
    exact ⟨(hq q).mp hlt, Nat.le_add_right _ _, Nat.add_mul_mod_self_right _ _ _⟩
  · rintro ⟨h1, h2, h3⟩
    refine ⟨(j - i) / T, ?_, ?_⟩
    · rw [hq]
      have := Nat.div_mul_le_self (j - i) T
      omega
    · have hd : T ∣ j - i := (Nat.modEq_iff_dvd' h2).mp h3.symm
      rw [Nat.div_mul_cancel hd]
      omega

theorem partition_nodup (N T i : Nat) (hT : 0 < T) : (partition N T i).Nodup := by
  unfold partition
  apply List.Nodup.map _ (List.nodup_range _)
  intro a b hab
  simp only at hab
  have : a * T = b * T := by omega
  exact Nat.eq_of_mul_eq_mul_right hT this

/-- The loop run on a body that succeeds at every visited index, without overflow of the
counter at a visited index, folds the body over the index set of the specification. -/
theorem strided_loop_eq {σ : Type} (N T : Nat) (hT : 0 < T) (body : Int → σ → Outcome σ)
    (f : Nat → σ → σ) :
    ∀ (fuel key : Nat) (acc : σ), N - key < fuel →
      (∀ j ∈ partition N T key, ∀ a, body (j : Int) a = .ok (f j a)) →
      (∀ j ∈ partition N T key, (j : Int) + T ≤ INT_MAX) →
      strided_loop N (T : Int) body fuel (key : Int) acc =
        .ok ((partition N T key).foldl (fun a j => f j a) acc) := by
  intro fuel
  induction fuel with
  | zero => intro key acc h; omega
  | succ fuel ih =>
    intro key acc hfuel hbody hover
    by_cases hk : key < N
    · rw [partition_of_lt N T key hT hk] at hbody hover ⊢
      have hb := hbody key (by simp) acc
      have ho := hover key (by simp)
      have hlt : (key : Int) < (N : Int) := by omega
      have hno : ¬ ((key : Int) + (T : Int) > INT_MAX ∨ (key : Int) + (T : Int) < INT_MIN) := by
        unfold INT_MIN
        omega
      simp only [strided_loop, strided_iter, hlt, if_true, hb, Outcome.bind, hno, if_false,
        List.foldl_cons]
      have hcast : (key : Int) + (T : Int) = ((key + T : Nat) : Int) := by push_cast; rfl
      rw [hcast]
      apply ih (key + T) (f key acc) (by omega)
      · intro j hj a
        exact hbody j (by simp [hj]) a
      · intro j hj
        exact hover j (by simp [hj])
    · rw [partition_of_ge N T key hT (by omega)]
      have hlt : ¬ ((key : Int) < (N : Int)) := by omega
      simp [strided_loop, strided_iter, hlt, Outcome.bind]

theorem visited_eq (N T i : Nat) (hT : 0 < T)
    (hover : ∀ j ∈ partition N T i, (j : Int) + T ≤ INT_MAX) :
    visited N (T : Int) (i : Int) =
      .ok (List.map (fun (j : Nat) => (j : Int)) (partition N T i)) := by
  unfold visited
  rw [strided_loop_eq N T hT _ (fun j acc => acc ++ [(j : Int)]) (N + 1) i [] (by omega)
    (fun j _ a => rfl) hover]
  congr 1
  have : ∀ (l : List Nat) (acc : List Int),
      List.foldl (fun (a : List Int) (j : Nat) => a ++ [(j : Int)]) acc l =
        acc ++ List.map (fun (j : Nat) => (j : Int)) l := by
    intro l
    induction l with
    | nil => intro acc; simp
    | cons x xs ih => intro acc; simp [ih]
  simpa using this (partition N T i) []

theorem mem_partition_worker (N T i j : Nat) (hi : i < T) :
    j ∈ partition N T i ↔ j < N ∧ j % T = i := by
  rw [mem_partition N T i j (by omega), Nat.mod_eq_of_lt hi]
  constructor
  · rintro ⟨h1, _, h3⟩
    exact ⟨h1, h3⟩
  · rintro ⟨h1, h3⟩
    exact ⟨h1, by rw [← h3]; exact Nat.mod_le j T, h3⟩

/-- The index sets of the workers `0 .. T-1` together are a rearrangement of `0 .. N-1`. -/
theorem partition_perm (N T : Nat) (hT : 0 < T) :
    ((List.range T).flatMap (partition N T)).Perm (List.range N) := by
  rw [List.perm_ext_iff_of_nodup _ (List.nodup_range N)]
  · intro j
    simp only [List.mem_flatMap, List.mem_range]
    constructor
    · rintro ⟨i, hi, hj⟩
      exact ((mem_partition_worker N T i j hi).mp hj).1
    · intro hj
      exact ⟨j % T, Nat.mod_lt j hT, (mem_partition_worker N T _ j (Nat.mod_lt j hT)).mpr ⟨hj, rfl⟩⟩
  · rw [List.nodup_flatMap]
    refine ⟨fun i _ => partition_nodup N T i hT, ?_⟩
    apply List.Nodup.pairwise_of_forall_ne (List.nodup_range T)
    intro a ha b hb hab
    simp only [List.mem_range] at ha hb
    intro j hja hjb
    have h1 := ((mem_partition_worker N T a j ha).mp hja).2
    have h2 := ((mem_partition_worker N T b j hb).mp hjb).2
    exact hab (h1.symm.trans h2)

theorem no_overflow_of_le (N T i : Nat) (hTN : T ≤ N) (hN : N ≤ NUM_KEYS) :
    ∀ j ∈ partition N T i, (j : Int) + T ≤ INT_MAX := by
  intro j hj
  by_cases hT : 0 < T
  · have := ((mem_partition N T i j hT).mp hj).1
    unfold NUM_KEYS at hN
    unfold INT_MAX
    omega
  · have : T = 0 := by omega
    subst this
    simp [partition] at hj

/-- C4: for `1 ≤ T ≤ N` (with `N` at most the `NUM_KEYS` of the source), the loop
`for (key = i; key < N; key += T)` of worker `i` ends normally having visited the list `S i`;
the lists of two different workers are disjoint, an index is on some list exactly when it is
in `[0, N)`, and every `j < N` occurs exactly once on the list of worker `j mod T` and on no
other list. -/
theorem partition_coverage (N T : Nat) (hT : 1 ≤ T) (hTN : T ≤ N) (hN : N ≤ NUM_KEYS) :
    ∃ S : Nat → List Int,
      (∀ i : Nat, i < T → visited N (T : Int) (i : Int) = .ok (S i)) ∧
      (∀ i i2 : Nat, i < T → i2 < T → i ≠ i2 → List.Disjoint (S i) (S i2)) ∧
      (∀ x : Int, (∃ i : Nat, i < T ∧ x ∈ S i) ↔ 0 ≤ x ∧ x < (N : Int)) ∧
      (∀ j i : Nat, j < N → i < T → (S i).count (j : Int) = if i = j % T then 1 else 0) := by
  have hcast : Function.Injective (fun (j : Nat) => (j : Int)) := fun a b h => by
    simpa using h
  have hmem : ∀ i, i < T → ∀ x : Int,
      x ∈ List.map (fun (j : Nat) => (j : Int)) (partition N T i) ↔
        ∃ j : Nat, (j : Int) = x ∧ j < N ∧ j % T = i := by
    intro i hi x
    simp only [List.mem_map]
    constructor
    · rintro ⟨j, hj, rfl⟩
      exact ⟨j, rfl, (mem_partition_worker N T i j hi).mp hj⟩
    · rintro ⟨j, rfl, hj⟩
      exact ⟨j, (mem_partition_worker N T i j hi).mpr hj, rfl⟩
  refine ⟨fun i => List.map (fun (j : Nat) => (j : Int)) (partition N T i), ?_, ?_, ?_, ?_⟩
  · intro i _
    exact visited_eq N T i (by omega) (no_overflow_of_le N T i hTN hN)
  · intro i i2 hi hi2 hne x hx hx2
    obtain ⟨j, rfl, _, hj⟩ := (hmem i hi x).mp hx
    obtain ⟨j2, h2, _, hj2⟩ := (hmem i2 hi2 _).mp hx2
    have : j2 = j := by omega
    subst this
    exact hne (hj.symm.trans hj2)
  · intro x
    constructor
    · rintro ⟨i, hi, hx⟩
      obtain ⟨j, rfl, hj, _⟩ := (hmem i hi x).mp hx
      omega
    · rintro ⟨h0, h1⟩
      refine ⟨x.toNat % T, Nat.mod_lt _ (by omega), ?_⟩
      rw [hmem _ (Nat.mod_lt _ (by omega))]
      exact ⟨x.toNat, by omega, by omega, rfl⟩
  · intro j i hj hi
    have hnd : (List.map (fun (j : Nat) => (j : Int)) (partition N T i)).Nodup :=
      List.Nodup.map hcast (partition_nodup N T i (by omega))
    by_cases h : i = j % T
    · rw [if_pos h]
      apply List.count_eq_one_of_mem hnd
      rw [hmem i hi]
      exact ⟨j, rfl, hj, h.symm⟩
    · rw [if_neg h]
      apply List.count_eq_zero_of_not_mem
      rw [hmem i hi]
      rintro ⟨j2, h2, _, h3⟩
      have : j2 = j := by omega
      subst this
      exact h h3.symm

/-- Witness of C4: three workers over the `NUM_KEYS` indices of the source. -/
theorem partition_coverage_witness :
    ∃ S : Nat → List Int,
      (∀ i : Nat, i < 3 → visited NUM_KEYS ((3 : Nat) : Int) (i : Int) = .ok (S i)) ∧
      (∀ i i2 : Nat, i < 3 → i2 < 3 → i ≠ i2 → List.Disjoint (S i) (S i2)) ∧
      (∀ x : Int, (∃ i : Nat, i < 3 ∧ x ∈ S i) ↔ 0 ≤ x ∧ x < (NUM_KEYS : Int)) ∧
      (∀ j i : Nat, j < NUM_KEYS → i < 3 → (S i).count (j : Int) = if i = j % 3 then 1 else 0) :=
  partition_coverage NUM_KEYS 3 (by decide) (by decide) (Nat.le_refl _)

/-! ## The get phase and the aggregation (C8) -/

theorem retrieve_defined (B : Nat) (t : Table) (k : Int)
    (hB : 0 < B) (hlen : t.length = B) (hk : 0 ≤ k) :
    ∃ r, retrieve B t k = .ok r := by
  obtain ⟨h0, h1⟩ := bucket_index_bounds B k hB hk
  have hlt : (bucket_index B k).toNat < t.length := by omega
  refine ⟨scan k t[(bucket_index B k).toNat], ?_⟩
  rw [retrieve_eq_ok]
  exact ⟨by omega, h0, _, List.getElem?_eq_getElem hlt, rfl⟩

theorem array_read_lt {α : Type} (a : List α) (j : Nat) (hj : j < a.length) :
    array_read a (j : Int) = .ok a[j] := by
  rw [array_read_eq_ok]
  exact ⟨by omega, by simp [List.getElem?_eq_getElem hj]⟩

theorem get_body_eq (B : Nat) (keys : List Int) (t : Table) (j : Nat) (lost : Int)
    (r : Option bucket_entry) (h : (array_read keys (j : Int)).bind (retrieve B t) = .ok r) :
    get_body B keys t (j : Int) lost = .ok (if missing B keys t j then lost + 1 else lost) := by
  obtain ⟨k, hk, hr⟩ := (bind_eq_ok _ _ _).mp h
  unfold get_body missing
  rw [hk] at h ⊢
  simp only [Outcome.bind, hr]
  cases r <;> simp

theorem found_eq_not_missing (B : Nat) (keys : List Int) (t : Table) (j : Nat)
    (r : Option bucket_entry) (h : (array_read keys (j : Int)).bind (retrieve B t) = .ok r) :
    found B keys t j = !missing B keys t j := by
  unfold found missing
  rw [h]
  cases r <;> simp

theorem foldl_count (p : Nat → Bool) (l : List Nat) :
    ∀ acc : Int, List.foldl (fun (a : Int) (j : Nat) => if p j then a + 1 else a) acc l =
      acc + (l.countP p : Int) := by
  induction l with
  | nil => intro acc; simp
  | cons x xs ih =>
    intro acc
    rw [List.foldl_cons, ih, List.countP_cons]
    by_cases hx : p x
    · simp [hx]; ring
    · simp [hx]

/-- The miss count of a get worker is the number of missing keys on its index set, when the
lookups on that set are defined and the counter does not overflow there. -/
theorem get_phase_eq_of_defined (B N T : Nat) (keys : List Int) (t : Table) (i : Nat)
    (hT : 0 < T)
    (hdef : ∀ j ∈ partition N T i, ∃ r, (array_read keys (j : Int)).bind (retrieve B t) = .ok r)
    (hover : ∀ j ∈ partition N T i, (j : Int) + T ≤ INT_MAX) :
    get_phase B N (T : Int) keys t (i : Int) =
      .ok (((partition N T i).countP (missing B keys t) : Nat) : Int) := by
  unfold get_phase
  rw [strided_loop_eq N T hT _ (fun j a => if missing B keys t j then a + 1 else a) (N + 1) i 0
    (by omega) ?_ hover]
  · rw [foldl_count]
    simp
  · intro j hj a
    obtain ⟨r, hr⟩ := hdef j hj
    exact get_body_eq B keys t j a r hr

theorem collect_lost_eq (B N T : Nat) (keys : List Int) (t : Table) (c : Nat → Nat) :
    ∀ (n i : Nat) (acc : Int),
      (∀ q, q < n → get_phase B N (T : Int) keys t ((i + q : Nat) : Int) = .ok (c (i + q) : Int)) →
      collect_lost B N (T : Int) keys t n (i : Int) acc =
        .ok (acc + (((List.range' i n).map c).sum : Nat)) := by
  intro n
  induction n with
  | zero => intro i acc _; simp [collect_lost]
  | succ n ih =>
    intro i acc h
    have h0 := h 0 (by omega)
    simp only [Nat.add_zero] at h0
    simp only [collect_lost, h0, Outcome.bind]
    have hcast : (i : Int) + 1 = ((i + 1 : Nat) : Int) := by push_cast; rfl
    rw [hcast, ih (i + 1) _ ?_]
    · simp only [List.range'_succ, List.map_cons, List.sum_cons]
      push_cast
      congr 1
      ring
    · intro q hq
      have := h (q + 1) (by omega)
      rw [show i + (q + 1) = i + 1 + q by omega] at this
      exact this

/-- The sum of the miss counts of the workers is the number of missing keys. -/
theorem total_lost_eq_of_defined (B N T : Nat) (keys : List Int) (t : Table) (hT : 0 < T)
    (hdef : ∀ j, j < N → ∃ r, (array_read keys (j : Int)).bind (retrieve B t) = .ok r)
    (hover : ∀ j, j < N → (j : Int) + T ≤ INT_MAX) :
    total_lost B N (T : Int) keys t = .ok (((List.range N).countP (missing B keys t) : Nat) : Int) := by
  unfold total_lost
  have h := collect_lost_eq B N T keys t (fun i => (partition N T i).countP (missing B keys t))
    T 0 0 (fun q _ => by
      simp only [Nat.zero_add]
      exact get_phase_eq_of_defined B N T keys t q hT
        (fun j hj => hdef j ((mem_partition N T q j hT).mp hj).1)
        (fun j hj => hover j ((mem_partition N T q j hT).mp hj).1))
  simp only [Int.toNat_ofNat, Nat.cast_zero, zero_add] at h ⊢
  rw [h, ← (partition_perm N T hT).countP_eq, List.countP_flatMap, List.range_eq_range']
  rfl

/-- A lookup has a result unless it reaches undefined behaviour. -/
theorem retrieve_ok_of_defined (B : Nat) (t : Table) (k : Int)
    (h : retrieve B t k ≠ .undefined) : ∃ r, retrieve B t k = .ok r := by
  cases hr : retrieve B t k with
  | ok r => exact ⟨r, rfl⟩
  | undefined => exact absurd hr h
  | exit code msg =>
    unfold retrieve array_read at hr
    split at hr
    · cases hr
    · split at hr
      · cases hr
      · split at hr <;> cases hr
  | unfinished =>
    unfold retrieve array_read at hr
    split at hr
    · cases hr
    · split at hr
      · cases hr
      · split at hr <;> cases hr

/-- The lookup of `keys[j]` has a result when no lookup of a key of the array is undefined. -/
theorem lookup_of_defined (B : Nat) (keys : List Int) (t : Table) (j : Nat)
    (hj : j < keys.length) (hdef : ∀ k ∈ keys, retrieve B t k ≠ .undefined) :
    ∃ r, (array_read keys (j : Int)).bind (retrieve B t) = .ok r := by
  obtain ⟨r, hr⟩ := retrieve_ok_of_defined B t keys[j] (hdef _ (List.getElem_mem hj))
  exact ⟨r, by rw [array_read_lt keys j hj]; simpa [Outcome.bind] using hr⟩

/-- C8: for `1 ≤ T ≤ N` (with `N` at most the `NUM_KEYS` of the source), every key array of
`N` keys and every table on which no lookup `retrieve(keys[j])` is undefined behaviour (the
bucket index of every key is within the table: every non-negative key on a table of `B > 0`
buckets, and every multiple of `B`), every `get_phase(i)` returns the number of missing keys
on the index list of worker `i`, the `total_lost` the driver sums from these is the number of
indices `j < N` with `retrieve(keys[j]) == NULL`, and `N - total_lost` is the number of
indices whose key is found. -/
theorem total_lost_counts (B N T : Nat) (keys : List Int) (table : Table)
    (hT : 1 ≤ T) (hTN : T ≤ N) (hN : N ≤ NUM_KEYS) (hkeys : keys.length = N)
    (hdef : ∀ k ∈ keys, retrieve B table k ≠ .undefined) :
    (∀ i : Nat, i < T → get_phase B N (T : Int) keys table (i : Int) =
      .ok (((partition N T i).countP (missing B keys table) : Nat) : Int)) ∧
    total_lost B N (T : Int) keys table =
      .ok (((List.range N).countP (missing B keys table) : Nat) : Int) ∧
    (N : Int) - (((List.range N).countP (missing B keys table) : Nat) : Int) =
      (((List.range N).countP (found B keys table) : Nat) : Int) := by
  have hlook : ∀ j, j < N → ∃ r, (array_read keys (j : Int)).bind (retrieve B table) = .ok r :=
    fun j hj => lookup_of_defined B keys table j (by omega) hdef
  refine ⟨fun i _ => get_phase_eq_of_defined B N T keys table i (by omega)
      (fun j hj => hlook j ((mem_partition N T i j (by omega)).mp hj).1)
      (no_overflow_of_le N T i hTN hN),
    total_lost_eq_of_defined B N T keys table (by omega) hlook
      (fun j hj => by unfold NUM_KEYS at hN; unfold INT_MAX; omega), ?_⟩
  have hfound : (List.range N).countP (found B keys table) =
      (List.range N).countP (fun j => !missing B keys table j) := by
    apply List.countP_congr
    intro j hj
    rw [List.mem_range] at hj
    obtain ⟨r, hr⟩ := hlook j hj
    rw [found_eq_not_missing B keys table j r hr]
  have hsplit := List.length_eq_countP_add_countP (missing B keys table) (List.range N)
  rw [List.length_range] at hsplit
  have hsame : (List.range N).countP (fun j => !missing B keys table j) =
      (List.range N).countP (fun a => decide (¬ missing B keys table a = true)) := by
    apply List.countP_congr
    intro j _
    cases missing B keys table j <;> simp
  rw [hfound, hsame]
  omega

/-- Witness of C8: two workers, keys `7, 8, -5` against a table that holds 7, 12 and -5 (the
index of the negative key, `-5 % 5`, is 0): one key is lost and two are found. -/
theorem total_lost_counts_witness :
    total_lost 5 3 ((2 : Nat) : Int) [7, 8, -5] [[⟨-5, 1⟩], [], [⟨12, 0⟩, ⟨7, 0⟩], [], []] =
      .ok 1 ∧
    (3 : Int) - 1 = (((List.range 3).countP
      (found 5 [7, 8, -5] [[⟨-5, 1⟩], [], [⟨12, 0⟩, ⟨7, 0⟩], [], []]) : Nat) : Int) :=
  (total_lost_counts 5 3 2 [7, 8, -5] [[⟨-5, 1⟩], [], [⟨12, 0⟩, ⟨7, 0⟩], [], []]
    (by decide) (by decide) (by decide) (by decide) (by decide)).2

/-! ## The put phase under every interleaving (C1, C6, C9) -/

theorem mod_eq_lt_le (T j c : Nat) (hmod : j % T = c % T) (hlt : j < c + T) : j ≤ c := by
  by_contra hc
  have h1 : c ≤ j := by omega
  have hd : T ∣ j - c := (Nat.modEq_iff_dvd' h1).mp hmod.symm
  have h2 : j - c < T := by omega
  have h3 : 0 < j - c := by omega
  exact absurd (Nat.le_of_dvd h3 hd) (by omega)

theorem put_inv_init (B N T : Nat) (keys : List Int) :
    PutInv B N T keys (put_init B T) [] where
  threads_length := by simp [put_init]
  table_eq := by simp [put_init, insert_seq]
  log_nodup := List.nodup_nil
  mem_log := by
    intro j
    simp only [List.not_mem_nil, false_iff, not_and]
    intro _ hp
    unfold passed put_init at hp
    by_cases hT : 0 < T
    · have hlt : j % T < T := Nat.mod_lt j hT
      simp [List.getElem?_map, List.getElem?_range hlt] at hp
      have := Nat.mod_le j T
      omega
    · have hlen : ((List.range T).map fun (i : Nat) => some (i : Int)).length ≤ j % T := by
        simp
        omega
      simp only [List.getElem?_eq_none hlen] at hp
  counter := by
    intro tid key h
    simp only [put_init, List.getElem?_map] at h
    by_cases hlt : tid < T
    · simp [List.getElem?_range hlt] at h
      subst h
      exact ⟨by omega, by simp [Nat.mod_eq_of_lt hlt]⟩
    · rw [List.getElem?_eq_none (by simp; omega)] at h
      simp at h
  in_range := by simp

theorem strided_iter_eq_ok {σ : Type} (N : Nat) (T : Int) (body : Int → σ → Outcome σ)
    (key : Int) (acc : σ) (r : σ × Option Int) :
    strided_iter N T body key acc = .ok r ↔
      (key < (N : Int) ∧ ∃ acc1, body key acc = .ok acc1 ∧ key + T ≤ INT_MAX ∧
        INT_MIN ≤ key + T ∧ r = (acc1, some (key + T))) ∨
      (¬ key < (N : Int) ∧ r = (acc, none)) := by
  unfold strided_iter
  by_cases hk : key < (N : Int)
  · simp only [hk, if_true, bind_eq_ok, true_and, not_true_eq_false, false_and, or_false]
    constructor
    · rintro ⟨acc1, hb, h⟩
      by_cases ho : key + T > INT_MAX ∨ key + T < INT_MIN
      · simp [ho] at h
      · simp only [ho, if_false, Outcome.ok.injEq] at h
        exact ⟨acc1, hb, by omega, by omega, h.symm⟩
    · rintro ⟨acc1, hb, h1, h2, rfl⟩
      refine ⟨acc1, hb, ?_⟩
      have ho : ¬ (key + T > INT_MAX ∨ key + T < INT_MIN) := by omega
      simp [ho]
  · simp only [hk, if_false, Outcome.ok.injEq, false_and, not_false_eq_true, true_and, false_or]
    exact eq_comm

theorem passed_set_ne (s : PutState) (T j tid : Nat) (t : Table) (x : Option Int)
    (h : tid ≠ j % T) :
    passed { table := t, threads := s.threads.set tid x } T j ↔ passed s T j := by
  unfold passed
  simp only [List.getElem?_set_ne h]

theorem passed_set_eq (s : PutState) (T j tid : Nat) (t : Table) (x : Option Int)
    (h : tid = j % T) (hlt : tid < s.threads.length) :
    passed { table := t, threads := s.threads.set tid x } T j ↔
      (match x with
        | none => True
        | some key => (j : Int) < key) := by
  unfold passed
  simp only [← h, List.getElem?_set_self hlt]
  cases x <;> simp

theorem passed_of_counter (s : PutState) (T j : Nat) (key : Int)
    (h : s.threads[j % T]? = some (some key)) : passed s T j ↔ (j : Int) < key := by
  unfold passed
  simp only [h]

/-- One scheduler choice keeps the invariant, extending the log by at most one index. -/
theorem put_inv_step (B N T : Nat) (keys : List Int) (s s1 : PutState) (log : List Nat)
    (tid : Nat) (m : Bool) (hinv : PutInv B N T keys s log)
    (h : put_phase_step B N (T : Int) keys s tid m = .ok s1) :
    ∃ log1, PutInv B N T keys s1 log1 := by
  unfold put_phase_step at h
  split at h
  next key hth =>
    obtain ⟨hk0, hkmod⟩ := hinv.counter tid key hth
    have htid : tid < s.threads.length := by
      by_contra hc
      rw [List.getElem?_eq_none (by omega)] at hth
      cases hth
    have hTpos : 0 < T := by
      have := hinv.threads_length
      omega
    obtain ⟨r, hr, hs1⟩ := (bind_eq_ok _ _ _).mp h
    simp only [Outcome.ok.injEq] at hs1
    subst hs1
    rw [strided_iter_eq_ok] at hr
    rcases hr with ⟨hlt, t1, hbody, hmax, _, rfl⟩ | ⟨hge, rfl⟩
    · -- the worker inserts `keys[key]` and advances its counter
      obtain ⟨k, hread, hins⟩ := (bind_eq_ok _ _ _).mp hbody
      obtain ⟨_, hget⟩ := (array_read_eq_ok _ _ _).mp hread
      have hm : m = true := ((insert_eq_ok _ _ _ _ _ _).mp hins).2.1
      subst hm
      have hclt : key.toNat < keys.length := by
        by_contra hc
        rw [List.getElem?_eq_none (by omega)] at hget
        cases hget
      have hsub : submitted keys T key.toNat = (k, (tid : Int)) := by
        unfold submitted
        rw [hkmod, List.getD_eq_getElem?_getD, hget]
        rfl
      have hcast : ((key.toNat : Nat) : Int) = key := by omega
      have hnotin : key.toNat ∉ log := by
        intro hmem
        have hp := ((hinv.mem_log _).mp hmem).2
        rw [passed_of_counter s T _ key (by rw [hkmod]; exact hth)] at hp
        omega
      refine ⟨log ++ [key.toNat], ?_⟩
      constructor
      · simp [hinv.threads_length]
      · rw [List.map_append, insert_seq_append, hinv.table_eq]
        simp only [Outcome.bind, List.map_cons, List.map_nil, insert_seq, hsub, hins]
      · rw [List.nodup_append]
        refine ⟨hinv.log_nodup, List.nodup_singleton _, ?_⟩
        intro a ha hb
        rw [List.mem_singleton] at hb
        subst hb
        exact hnotin ha
      · intro j
        rw [List.mem_append, List.mem_singleton, hinv.mem_log]
        by_cases hj : tid = j % T
        · rw [passed_set_eq s T j tid t1 _ hj htid,
            passed_of_counter s T j key (by rw [← hj]; exact hth)]
          simp only
          constructor
          · rintro (⟨h1, h2⟩ | rfl)
            · exact ⟨h1, by omega⟩
            · exact ⟨by omega, by omega⟩
          · rintro ⟨h1, h2⟩
            have hle : j ≤ key.toNat :=
              mod_eq_lt_le T j key.toNat (by rw [hkmod, ← hj]) (by omega)
            by_cases he : j = key.toNat
            · exact Or.inr he
            · exact Or.inl ⟨h1, by omega⟩
        · rw [passed_set_ne s T j tid t1 _ hj]
          constructor
          · rintro (h1 | rfl)
            · exact h1
            · exact absurd hkmod.symm hj
          · intro h1
            exact Or.inl h1
      · intro tid2 key2 h2
        by_cases ht : tid = tid2
        · subst ht
          rw [List.getElem?_set_self htid] at h2
          simp only [Option.some.injEq] at h2
          subst h2
          refine ⟨by omega, ?_⟩
          have : (key + (T : Int)).toNat = key.toNat + T := by omega
          rw [this, Nat.add_mod_right, hkmod]
        · rw [List.getElem?_set_ne ht] at h2
          exact hinv.counter tid2 key2 h2
      · intro j hj
        rcases List.mem_append.mp hj with hj | hj
        · exact hinv.in_range j hj
        · rw [List.mem_singleton] at hj
          subst hj
          exact ⟨hclt, by omega⟩
    · -- the worker leaves its loop
      refine ⟨log, ?_⟩
      constructor
      · simp [hinv.threads_length]
      · exact hinv.table_eq
      · exact hinv.log_nodup
      · intro j
        rw [hinv.mem_log]
        by_cases hj : tid = j % T
        · rw [passed_set_eq s T j tid s.table _ hj htid,
            passed_of_counter s T j key (by rw [← hj]; exact hth)]
          simp only [and_true]
          constructor
          · rintro ⟨h1, _⟩
            exact h1
          · intro h1
            exact ⟨h1, by omega⟩
        · rw [passed_set_ne s T j tid s.table _ hj]
      · intro tid2 key2 h2
        by_cases ht : tid = tid2
        · subst ht
          rw [List.getElem?_set_self htid] at h2
          simp at h2
        · rw [List.getElem?_set_ne ht] at h2
          exact hinv.counter tid2 key2 h2
      · exact hinv.in_range
  next =>
    simp only [Outcome.ok.injEq] at h
    subst h
    exact ⟨log, hinv⟩

/-- Every state a schedule reaches from an invariant state satisfies the invariant. -/
theorem put_inv_run (B N T : Nat) (keys : List Int) (sched : List (Nat × Bool)) :
    ∀ (s s1 : PutState) (log : List Nat) (st : Outcome Unit), PutInv B N T keys s log →
      put_run B N (T : Int) keys s sched = (s1, st) → ∃ log1, PutInv B N T keys s1 log1 := by
  induction sched with
  | nil =>
    intro s s1 log st hinv h
    simp only [put_run, Prod.mk.injEq] at h
    rw [← h.1]
    exact ⟨log, hinv⟩
  | cons c rest ih =>
    intro s s1 log st hinv h
    simp only [put_run] at h
    split at h
    next s2 hstep =>
      obtain ⟨log2, hinv2⟩ := put_inv_step B N T keys s s2 log c.1 c.2 hinv hstep
      exact ih s2 s1 log2 st hinv2 h
    all_goals
      simp only [Prod.mk.injEq] at h
      rw [← h.1]
      exact ⟨log, hinv⟩

/-- Once every worker has exited, the log holds exactly the indices below `N`. -/
theorem put_inv_final (B N T : Nat) (keys : List Int) (s : PutState) (log : List Nat)
    (hT : 0 < T) (hinv : PutInv B N T keys s log) (hdone : all_exited s = true) :
    ∀ j : Nat, j ∈ log ↔ j < N := by
  intro j
  rw [hinv.mem_log]
  have hlt : j % T < s.threads.length := by
    rw [hinv.threads_length]
    exact Nat.mod_lt j hT
  have hnone : s.threads[j % T] = none := by
    unfold all_exited at hdone
    rw [List.all_eq_true] at hdone
    have := hdone _ (List.getElem_mem hlt)
    simpa using this
  have hp : passed s T j := by
    unfold passed
    rw [List.getElem?_eq_getElem hlt, hnone]
    trivial
  simp [hp]

/-- A schedule run to the end from the initial state, with every worker exited, has executed
exactly the inserts of the indices `0 .. N-1`, each once. -/
theorem put_phase_complete (B N T : Nat) (keys : List Int) (sched : List (Nat × Bool))
    (s : PutState) (st : Outcome Unit) (hT : 0 < T)
    (hrun : put_run B N (T : Int) keys (put_init B T) sched = (s, st))
    (hdone : all_exited s = true) :
    ∃ log : List Nat, PutInv B N T keys s log ∧ log.Perm (List.range N) := by
  obtain ⟨log, hinv⟩ := put_inv_run B N T keys sched _ s [] st (put_inv_init B N T keys) hrun
  refine ⟨log, hinv, ?_⟩
  rw [List.perm_ext_iff_of_nodup hinv.log_nodup (List.nodup_range N)]
  intro j
  rw [put_inv_final B N T keys s log hT hinv hdone j, List.mem_range]

/-- What `retrieve` gives for the key of a logged index. -/
theorem lookup_logged (B N T : Nat) (keys : List Int) (s : PutState) (log : List Nat)
    (hinv : PutInv B N T keys s log) (j : Nat) (hj : j ∈ log) :
    ∃ (k : Int) (e : bucket_entry) (chain : Chain),
      keys[j]? = some k ∧
      0 ≤ bucket_index B k ∧
      s.table[(bucket_index B k).toNat]? = some chain ∧
      ({ key := k, val := ((j % T : Nat) : Int) } : bucket_entry) ∈ chain ∧
      retrieve B s.table k = .ok (some e) ∧ e.key = k ∧
      ∃ j2 : Nat, j2 ∈ log ∧ keys[j2]? = some k ∧ e.val = ((j2 % T : Nat) : Int) := by
  have hjlen := (hinv.in_range j hj).1
  have hop : submitted keys T j ∈ log.map (submitted keys T) := List.mem_map_of_mem _ hj
  have hsub : submitted keys T j = (keys[j], ((j % T : Nat) : Int)) := by
    unfold submitted
    rw [List.getD_eq_getElem?_getD, List.getElem?_eq_getElem hjlen]
    rfl
  rw [hsub] at hop
  obtain ⟨hB, h0, hlt⟩ := insert_seq_index_ok B _ _ _ hinv.table_eq _ hop
  simp only [empty_table, List.length_replicate] at hlt h0
  have hchain := insert_seq_empty_chain B _ _ hinv.table_eq _ hlt
  have hmem : ({ key := keys[j], val := ((j % T : Nat) : Int) } : bucket_entry) ∈
      bucket_log B (bucket_index B keys[j]).toNat (log.map (submitted keys T)) := by
    rw [mem_bucket_log]
    exact ⟨hop, by simp only; omega⟩
  cases hscan : scan keys[j] (bucket_log B (bucket_index B keys[j]).toNat
      (log.map (submitted keys T))) with
  | none =>
    rw [scan_eq_none] at hscan
    exact absurd rfl (hscan _ hmem)
  | some e =>
    obtain ⟨hek, front, back, hsplit, _⟩ := scan_eq_some _ _ _ hscan
    have hein : e ∈ bucket_log B (bucket_index B keys[j]).toNat (log.map (submitted keys T)) := by
      rw [hsplit]
      simp
    obtain ⟨j2, hj2, hsub2⟩ := List.mem_map.mp ((mem_bucket_log _ _ _ _).mp hein).1
    have hj2len := (hinv.in_range j2 hj2).1
    unfold submitted at hsub2
    rw [List.getD_eq_getElem?_getD, List.getElem?_eq_getElem hj2len] at hsub2
    simp only [Option.getD_some, Prod.mk.injEq] at hsub2
    refine ⟨keys[j], e, _, List.getElem?_eq_getElem hjlen, h0, hchain, hmem, ?_, hek, j2, hj2, ?_,
      hsub2.2.symm⟩
    · rw [retrieve_eq_ok]
      exact ⟨hB, h0, _, hchain, hscan⟩
    · rw [List.getElem?_eq_getElem hj2len, hsub2.1, hek]

theorem sum_length_set (t : Table) :
    ∀ (i : Nat) (head : Chain) (e : bucket_entry), t[i]? = some head →
      ((t.set i (e :: head)).map List.length).sum = (t.map List.length).sum + 1 := by
  induction t with
  | nil => intro i head e h; simp at h
  | cons c rest ih =>
    intro i head e h
    cases i with
    | zero =>
      simp only [List.getElem?_cons_zero, Option.some.injEq] at h
      subst h
      simp only [List.set_cons_zero, List.map_cons, List.sum_cons, List.length_cons]
      omega
    | succ i =>
      simp only [List.getElem?_cons_succ] at h
      simp only [List.set_cons_succ, List.map_cons, List.sum_cons, ih i head e h]
      omega

theorem insert_seq_total (B : Nat) (ops : List (Int × Int)) :
    ∀ t0 t : Table, insert_seq B t0 ops = .ok t →
      (t.map List.length).sum = (t0.map List.length).sum + ops.length := by
  induction ops with
  | nil =>
    intro t0 t h
    simp only [insert_seq, Outcome.ok.injEq] at h
    simp [h]
  | cons op ops ih =>
    intro t0 t h
    simp only [insert_seq, bind_eq_ok] at h
    obtain ⟨t1, h1, h2⟩ := h
    obtain ⟨_, _, _, head, hh, rfl⟩ := (insert_eq_ok B true t0 t1 op.1 op.2).mp h1
    rw [ih _ t h2, sum_length_set t0 _ head _ hh, List.length_cons]
    omega

theorem empty_table_total (B : Nat) : ((empty_table B).map List.length).sum = 0 := by
  simp [empty_table]

/-- C1: for every `T ≥ 1`, every key array and every interleaving of the atomic inserts of the
put workers that runs all of them to their exit, each `keys[j]` with `j < N` is found by
`retrieve` in the final table, every `get_phase(i)` returns miss count 0 and `total_lost` is 0.
(The keys of such a run are the ones `insert` accepts, the non-negative ones among them.) -/
theorem no_loss (B N T : Nat) (keys : List Int) (sched : List (Nat × Bool)) (s : PutState)
    (hT : 1 ≤ T)
    (hrun : put_run B N (T : Int) keys (put_init B T) sched = (s, .ok ()))
    (hdone : all_exited s = true) :
    (∀ j : Nat, j < N → ∃ (k : Int) (e : bucket_entry),
      keys[j]? = some k ∧ retrieve B s.table k = .ok (some e) ∧ e.key = k) ∧
    (∀ i : Nat, i < T → get_phase B N (T : Int) keys s.table (i : Int) = .ok 0) ∧
    total_lost B N (T : Int) keys s.table = .ok 0 := by
  obtain ⟨log, hinv, hperm⟩ := put_phase_complete B N T keys sched s _ (by omega) hrun hdone
  have hlog : ∀ j : Nat, j < N → j ∈ log := fun j hj =>
    hperm.mem_iff.mpr (List.mem_range.mpr hj)
  have hfound : ∀ j : Nat, j < N → ∃ (k : Int) (e : bucket_entry),
      keys[j]? = some k ∧ retrieve B s.table k = .ok (some e) ∧ e.key = k := by
    intro j hj
    obtain ⟨k, e, _, hk, _, _, _, hr, he, _⟩ := lookup_logged B N T keys s log hinv j (hlog j hj)
    exact ⟨k, e, hk, hr, he⟩
  have hlook : ∀ j : Nat, j < N → ∃ e : bucket_entry,
      (array_read keys (j : Int)).bind (retrieve B s.table) = .ok (some e) := by
    intro j hj
    obtain ⟨k, e, hk, hr, _⟩ := hfound j hj
    have hread : array_read keys (j : Int) = .ok k := by
      rw [array_read_eq_ok]
      exact ⟨by omega, by simpa using hk⟩
    exact ⟨e, by rw [hread]; simpa [Outcome.bind] using hr⟩
  have hmiss : ∀ j : Nat, j < N → missing B keys s.table j = false := by
    intro j hj
    obtain ⟨e, he⟩ := hlook j hj
    unfold missing
    rw [he]
    simp
  have hover : ∀ j : Nat, j < N → (j : Int) + T ≤ INT_MAX := fun j hj =>
    (hinv.in_range j (hlog j hj)).2
  have hzero : ∀ l : List Nat, (∀ j ∈ l, j < N) → l.countP (missing B keys s.table) = 0 := by
    intro l hl
    rw [List.countP_eq_zero]
    intro j hj
    simp [hmiss j (hl j hj)]
  refine ⟨hfound, ?_, ?_⟩
  · intro i _
    rw [get_phase_eq_of_defined B N T keys s.table i (by omega)
      (fun j hj => by
        obtain ⟨e, he⟩ := hlook j ((mem_partition N T i j (by omega)).mp hj).1
        exact ⟨_, he⟩)
      (fun j hj => hover j ((mem_partition N T i j (by omega)).mp hj).1),
      hzero _ (fun j hj => ((mem_partition N T i j (by omega)).mp hj).1)]
    rfl
  · rw [total_lost_eq_of_defined B N T keys s.table (by omega)
      (fun j hj => by
        obtain ⟨e, he⟩ := hlook j hj
        exact ⟨_, he⟩) hover,
      hzero _ (fun j hj => List.mem_range.mp hj)]
    rfl

/-- Witness of C1: two workers, keys `7, 12, 7`, worker 0 and worker 1 taking turns. -/
theorem no_loss_witness :
    (∀ j : Nat, j < 3 → ∃ (k : Int) (e : bucket_entry),
      ([7, 12, 7] : List Int)[j]? = some k ∧
      retrieve 5 [[], [], [⟨7, 0⟩, ⟨12, 1⟩, ⟨7, 0⟩], [], []] k = .ok (some e) ∧ e.key = k) ∧
    (∀ i : Nat, i < 2 → get_phase 5 3 ((2 : Nat) : Int) [7, 12, 7]
      [[], [], [⟨7, 0⟩, ⟨12, 1⟩, ⟨7, 0⟩], [], []] (i : Int) = .ok 0) ∧
    total_lost 5 3 ((2 : Nat) : Int) [7, 12, 7] [[], [], [⟨7, 0⟩, ⟨12, 1⟩, ⟨7, 0⟩], [], []] =
      .ok 0 :=
  no_loss 5 3 2 [7, 12, 7] [(0, true), (1, true), (0, true), (1, true), (0, true)]
    ⟨[[], [], [⟨7, 0⟩, ⟨12, 1⟩, ⟨7, 0⟩], [], []], [none, none]⟩
    (by decide) (by decide) (by decide)

theorem map_submitted_fst (keys : List Int) (T : Nat) :
    ((List.range keys.length).map (submitted keys T)).map Prod.fst = keys := by
  apply List.ext_getElem
  · simp
  · intro i h1 h2
    simp only [List.length_map, List.length_range] at h1
    simp [submitted, List.getD_eq_getElem?_getD, List.getElem?_eq_getElem h1]

/-- C6: every `insert(key, val)` that returns, whatever the chain already holds, puts one
new entry in front of the chain of bucket `key % B`, which keeps all its entries, and leaves
the other buckets alone, so that chain grows by exactly 1; and after a put phase over `N` keys
run to the exit of every worker (`T ≥ 1`), the chain of bucket `i` has as many entries as
there are indices `j` with `keys[j] % B = i`, and the chain lengths add up to `N`. -/
theorem duplicates_retained (B N T : Nat) (keys : List Int) :
    (∀ (m : Bool) (t t1 : Table) (key val : Int), insert B m t key val = .ok t1 →
      ∃ (i : Nat) (chain : Chain), (i : Int) = bucket_index B key ∧
        t[i]? = some chain ∧ t1[i]? = some ({ key := key, val := val } :: chain) ∧
        (∀ c1 : Chain, t1[i]? = some c1 → c1.length = chain.length + 1) ∧
        ∀ j : Nat, j ≠ i → t1[j]? = t[j]?) ∧
    (∀ (sched : List (Nat × Bool)) (s : PutState), 1 ≤ T → keys.length = N →
      put_run B N (T : Int) keys (put_init B T) sched = (s, .ok ()) → all_exited s = true →
        (∀ i : Nat, i < B → ∃ chain : Chain, s.table[i]? = some chain ∧
          chain.length = keys.countP (fun k => decide (bucket_index B k = (i : Int)))) ∧
        (s.table.map List.length).sum = N) := by
  constructor
  · intro m t t1 key val h
    obtain ⟨_, _, h0, head, hh, rfl⟩ := (insert_eq_ok B m t t1 key val).mp h
    have hlt : (bucket_index B key).toNat < t.length := by
      by_contra hc
      rw [List.getElem?_eq_none (by omega)] at hh
      cases hh
    refine ⟨(bucket_index B key).toNat, head, by omega, hh, List.getElem?_set_self hlt, ?_, ?_⟩
    · intro c1 hc1
      rw [List.getElem?_set_self hlt] at hc1
      cases hc1
      simp
    · intro j hj
      exact List.getElem?_set_ne (Ne.symm hj)
  · intro sched s hT hkeys hrun hdone
    obtain ⟨log, hinv, hperm⟩ := put_phase_complete B N T keys sched s _ (by omega) hrun hdone
    have hops : (log.map (submitted keys T)).Perm ((List.range N).map (submitted keys T)) :=
      hperm.map _
    constructor
    · intro i hi
      refine ⟨_, insert_seq_empty_chain B _ _ hinv.table_eq i hi, ?_⟩
      unfold bucket_log
      rw [List.length_reverse, List.length_map, ← List.countP_eq_length_filter,
        hops.countP_eq, ← hkeys]
      conv_rhs => rw [← map_submitted_fst keys T]
      rw [List.countP_map, List.countP_map, List.countP_map]
      rfl
    · have := insert_seq_total B _ _ _ hinv.table_eq
      rw [empty_table_total, List.length_map, hperm.length_eq, List.length_range] at this
      omega

/-- Witness of C6 (scenario A): one worker, ten keys that are all multiples of 5. -/
theorem duplicates_retained_witness :
    (∀ i : Nat, i < 5 → ∃ chain : Chain,
      ([[⟨45, 0⟩, ⟨40, 0⟩, ⟨5, 0⟩, ⟨5, 0⟩, ⟨0, 0⟩, ⟨10, 0⟩, ⟨15, 0⟩, ⟨10, 0⟩, ⟨5, 0⟩, ⟨0, 0⟩],
        [], [], [], []] : Table)[i]? = some chain ∧
      chain.length = ([0, 5, 10, 15, 10, 0, 5, 5, 40, 45] : List Int).countP
        (fun k => decide (bucket_index 5 k = (i : Int)))) ∧
    (([[⟨45, 0⟩, ⟨40, 0⟩, ⟨5, 0⟩, ⟨5, 0⟩, ⟨0, 0⟩, ⟨10, 0⟩, ⟨15, 0⟩, ⟨10, 0⟩, ⟨5, 0⟩, ⟨0, 0⟩],
        [], [], [], []] : Table).map List.length).sum = 10 :=
  (duplicates_retained 5 10 1 [0, 5, 10, 15, 10, 0, 5, 5, 40, 45]).2
    (List.replicate 11 (0, true))
    ⟨[[⟨45, 0⟩, ⟨40, 0⟩, ⟨5, 0⟩, ⟨5, 0⟩, ⟨0, 0⟩, ⟨10, 0⟩, ⟨15, 0⟩, ⟨10, 0⟩, ⟨5, 0⟩, ⟨0, 0⟩],
      [], [], [], []], [none]⟩
    (by decide) (by decide) (by decide) (by decide)

/-- Counterexample to C9: with `T = 2` and the key 7 at both indices, after the complete put
phase `retrieve(keys[0])` returns the entry of worker 1, while index 0 belongs to worker
`0 mod 2 = 0`. -/
theorem found_val_counterexample :
    put_run 5 2 ((2 : Nat) : Int) [7, 7] (put_init 5 2)
        [(0, true), (1, true), (0, true), (1, true)] =
      (⟨[[], [], [⟨7, 1⟩, ⟨7, 0⟩], [], []], [none, none]⟩, .ok ()) ∧
    all_exited ⟨[[], [], [⟨7, 1⟩, ⟨7, 0⟩], [], []], [none, none]⟩ = true ∧
    ([7, 7] : List Int)[0]? = some 7 ∧
    retrieve 5 [[], [], [⟨7, 1⟩, ⟨7, 0⟩], [], []] 7 = .ok (some ⟨7, 1⟩) ∧
    (⟨7, 1⟩ : bucket_entry).val ≠ ((0 % 2 : Nat) : Int) := by
  decide

/-- C9 as amended: after a put phase run to the exit of every worker (`T ≥ 1`), for every
`j < N` the pair `{keys[j], j mod T}` is an entry of the chain of the bucket of `keys[j]`, and
`retrieve(keys[j])` returns an entry with key `keys[j]` whose val is `j2 mod T` for an index
`j2 < N` that holds the same key; when no other index holds that key the val is `j mod T`. -/
theorem submitted_pair_stored (B N T : Nat) (keys : List Int) (sched : List (Nat × Bool))
    (s : PutState) (j : Nat) (hT : 1 ≤ T)
    (hrun : put_run B N (T : Int) keys (put_init B T) sched = (s, .ok ()))
    (hdone : all_exited s = true) (hj : j < N) :
    ∃ (k : Int) (e : bucket_entry) (chain : Chain),
      keys[j]? = some k ∧
      s.table[(bucket_index B k).toNat]? = some chain ∧
      ({ key := k, val := ((j % T : Nat) : Int) } : bucket_entry) ∈ chain ∧
      retrieve B s.table k = .ok (some e) ∧ e.key = k ∧
      (∃ j2 : Nat, j2 < N ∧ keys[j2]? = some k ∧ e.val = ((j2 % T : Nat) : Int)) ∧
      ((∀ j2 : Nat, j2 < N → keys[j2]? = some k → j2 = j) → e.val = ((j % T : Nat) : Int)) := by
  obtain ⟨log, hinv, hperm⟩ := put_phase_complete B N T keys sched s _ (by omega) hrun hdone
  have hlog : ∀ j : Nat, j ∈ log ↔ j < N := fun j => by
    rw [hperm.mem_iff, List.mem_range]
  obtain ⟨k, e, chain, hk, _, hc, hmem, hr, he, j2, hj2, hk2, hv⟩ :=
    lookup_logged B N T keys s log hinv j ((hlog j).mpr hj)
  refine ⟨k, e, chain, hk, hc, hmem, hr, he, ⟨j2, (hlog j2).mp hj2, hk2, hv⟩, ?_⟩
  intro huniq
  rw [hv, huniq j2 ((hlog j2).mp hj2) hk2]

/-- Witness of C9 as amended: the run of the counterexample, index 0. -/
theorem submitted_pair_stored_witness :
    ∃ (k : Int) (e : bucket_entry) (chain : Chain),
      ([7, 7] : List Int)[0]? = some k ∧
      ([[], [], [⟨7, 1⟩, ⟨7, 0⟩], [], []] : Table)[(bucket_index 5 k).toNat]? = some chain ∧
      ({ key := k, val := ((0 % 2 : Nat) : Int) } : bucket_entry) ∈ chain ∧
      retrieve 5 [[], [], [⟨7, 1⟩, ⟨7, 0⟩], [], []] k = .ok (some e) ∧ e.key = k ∧
      (∃ j2 : Nat, j2 < 2 ∧ ([7, 7] : List Int)[j2]? = some k ∧ e.val = ((j2 % 2 : Nat) : Int)) ∧
      ((∀ j2 : Nat, j2 < 2 → ([7, 7] : List Int)[j2]? = some k → j2 = 0) →
        e.val = ((0 % 2 : Nat) : Int)) :=
  submitted_pair_stored 5 2 2 [7, 7] [(0, true), (1, true), (0, true), (1, true)]
    ⟨[[], [], [⟨7, 1⟩, ⟨7, 0⟩], [], []], [none, none]⟩ 0
    (by decide) (by decide) (by decide) (by decide)

/-! ## Bucket invariant and the footprint of `insert` (C5, C7) -/

/-- C5: the bucket invariant (every entry on the chain of `table[i]` has `key % B = i`) holds
for the empty table, is kept by every `insert(key, val)` that returns, and so holds in every
table reached from the empty table by a sequence of inserts, in particular in every table the
put phase reaches under any schedule. -/
theorem bucket_invariant (B : Nat) :
    bucket_inv B (empty_table B) ∧
    (∀ (m : Bool) (t t1 : Table) (key val : Int),
      bucket_inv B t → insert B m t key val = .ok t1 → bucket_inv B t1) ∧
    (∀ (ops : List (Int × Int)) (t : Table),
      insert_seq B (empty_table B) ops = .ok t → bucket_inv B t) ∧
    (∀ (N T : Nat) (keys : List Int) (sched : List (Nat × Bool)) (s : PutState)
      (st : Outcome Unit),
      put_run B N (T : Int) keys (put_init B T) sched = (s, st) → bucket_inv B s.table) := by
  refine ⟨bucket_inv_empty B, fun m t t1 key val => bucket_inv_insert B m t t1 key val,
    fun ops t => bucket_inv_insert_seq B ops _ t (bucket_inv_empty B), ?_⟩
  intro N T keys sched s st hrun
  obtain ⟨log, hinv⟩ := put_inv_run B N T keys sched _ s [] st (put_inv_init B N T keys) hrun
  exact bucket_inv_insert_seq B _ _ _ (bucket_inv_empty B) hinv.table_eq

/-- Witness of C5: the invariant after `insert(7, 0)` and after `insert(7,0); insert(10,1)`. -/
theorem bucket_invariant_witness :
    bucket_inv 5 [[], [], [⟨7, 0⟩], [], []] ∧ bucket_inv 5 [[⟨10, 1⟩], [], [⟨7, 0⟩], [], []] :=
  ⟨(bucket_invariant 5).2.1 true (empty_table 5) [[], [], [⟨7, 0⟩], [], []] 7 0
      (bucket_invariant 5).1 (by decide),
    (bucket_invariant 5).2.2.1 [(7, 0), (10, 1)] [[⟨10, 1⟩], [], [⟨7, 0⟩], [], []] (by decide)⟩

/-- C7: on a table of `B > 0` buckets and for a non-negative key, `insert(key, val)` (its
allocation succeeding) returns; the bucket index is `i = key mod B`; afterwards the chain of
bucket `i` is the entry `{key, val}` followed by the chain it had before, every other bucket
is as before, and the table still has `B` buckets. -/
theorem insert_head_prepend (B : Nat) (t : Table) (key val : Int)
    (hB : 0 < B) (hlen : t.length = B) (hk : 0 ≤ key) :
    ∃ (t1 : Table) (i : Nat) (chain : Chain),
      insert B true t key val = .ok t1 ∧
      (i : Int) = key % (B : Int) ∧ i < B ∧
      t[i]? = some chain ∧
      t1[i]? = some ({ key := key, val := val } :: chain) ∧
      (∀ j : Nat, j ≠ i → t1[j]? = t[j]?) ∧
      t1.length = B := by
  obtain ⟨chain, hc, hins⟩ := insert_succeeds B t key val hB hlen hk
  obtain ⟨h0, h1⟩ := bucket_index_bounds B key hB hk
  refine ⟨_, (bucket_index B key).toNat, chain, hins, ?_, h1, hc, ?_, ?_, ?_⟩
  · rw [← bucket_index_of_nonneg B key hk]
    omega
  · exact List.getElem?_set_self (by omega)
  · intro j hj
    exact List.getElem?_set_ne (Ne.symm hj)
  · simp [hlen]

/-- Witness of C7: `insert(12, 1)` on a table whose bucket 2 already holds key 7. -/
theorem insert_head_prepend_witness :
    ∃ (t1 : Table) (i : Nat) (chain : Chain),
      insert 5 true [[⟨10, 1⟩], [], [⟨7, 0⟩], [], []] 12 1 = .ok t1 ∧
      (i : Int) = (12 : Int) % ((5 : Nat) : Int) ∧ i < 5 ∧
      ([[⟨10, 1⟩], [], [⟨7, 0⟩], [], []] : Table)[i]? = some chain ∧
      t1[i]? = some ({ key := 12, val := 1 } :: chain) ∧
      (∀ j : Nat, j ≠ i → t1[j]? = ([[⟨10, 1⟩], [], [⟨7, 0⟩], [], []] : Table)[j]?) ∧
      t1.length = 5 :=
  insert_head_prepend 5 [[⟨10, 1⟩], [], [⟨7, 0⟩], [], []] 12 1 (by decide) (by decide) (by decide)

/-! ## Configuration errors of the driver (C10) -/

/-- Every `exit` of `o.bind f` satisfies `P` when those of `o` and of `f` do. -/
theorem exits_bind {α β : Type} (P : Nat → String → Prop) (o : Outcome α) (f : α → Outcome β)
    (ho : ∀ c m, o = .exit c m → P c m) (hf : ∀ a c m, f a = .exit c m → P c m) :
    ∀ c m, o.bind f = .exit c m → P c m := by
  intro c m h
  cases o with
  | ok a => exact hf a c m h
  | exit c1 m1 =>
    simp only [Outcome.bind, Outcome.exit.injEq] at h
    exact ho c m (by rw [h.1, h.2])
  | undefined => simp [Outcome.bind] at h
  | unfinished => simp [Outcome.bind] at h

theorem array_read_no_exit {α : Type} (a : List α) (i : Int) :
    ∀ c m, array_read a i = .exit c m → False := by
  intro c m h
  unfold array_read at h
  split at h
  · cases h
  · split at h <;> cases h

theorem insert_exit (B : Nat) (mo : Bool) (t : Table) (key val : Int) :
    ∀ c m, insert B mo t key val = .exit c m →
      c = 1 ∧ m = "No memory to allocate bucket!" := by
  intro c m h
  unfold insert at h
  split at h
  · cases h
  · split at h
    · simp only [panic, Outcome.exit.injEq] at h
      exact ⟨h.1.symm, h.2.symm⟩
    · exact absurd h (fun h => exits_bind (fun _ _ => False) _ _ (array_read_no_exit _ _)
        (fun a c m h => by cases h) c m h)

theorem strided_iter_exit {σ : Type} (P : Nat → String → Prop) (N : Nat) (T : Int)
    (body : Int → σ → Outcome σ) (hbody : ∀ k a c m, body k a = .exit c m → P c m)
    (key : Int) (acc : σ) : ∀ c m, strided_iter N T body key acc = .exit c m → P c m := by
  intro c m h
  unfold strided_iter at h
  split at h
  · refine exits_bind P _ _ (hbody key acc) ?_ c m h
    intro a c m h
    split at h <;> cases h
  · cases h

theorem strided_loop_exit {σ : Type} (P : Nat → String → Prop) (N : Nat) (T : Int)
    (body : Int → σ → Outcome σ) (hbody : ∀ k a c m, body k a = .exit c m → P c m) :
    ∀ (fuel : Nat) (key : Int) (acc : σ) (c : Nat) (m : String),
      strided_loop N T body fuel key acc = .exit c m → P c m := by
  intro fuel
  induction fuel with
  | zero => intro key acc c m h; cases h
  | succ fuel ih =>
    intro key acc c m h
    simp only [strided_loop] at h
    refine exits_bind P _ _ (strided_iter_exit P N T body hbody key acc) ?_ c m h
    intro r c m h
    split at h
    · exact ih _ _ c m h
    · cases h

theorem retrieve_no_exit (B : Nat) (t : Table) (key : Int) :
    ∀ c m, retrieve B t key = .exit c m → False := by
  intro c m h
  unfold retrieve at h
  split at h
  · cases h
  · exact exits_bind (fun _ _ => False) _ _ (array_read_no_exit _ _)
      (fun a c m h => by cases h) c m h

theorem get_phase_no_exit (B N : Nat) (T : Int) (keys : List Int) (t : Table) (tid : Int) :
    ∀ c m, get_phase B N T keys t tid = .exit c m → False := by
  unfold get_phase
  apply strided_loop_exit (fun _ _ => False)
  intro k a
  unfold get_body
  apply exits_bind _ _ _ (array_read_no_exit _ _)
  intro x
  apply exits_bind _ _ _ (retrieve_no_exit _ _ _)
  intro r c m h
  cases h

theorem collect_lost_no_exit (B N : Nat) (T : Int) (keys : List Int) (t : Table) :
    ∀ (n : Nat) (i acc : Int) (c : Nat) (m : String),
      collect_lost B N T keys t n i acc = .exit c m → False := by
  intro n
  induction n with
  | zero => intro i acc c m h; cases h
  | succ n ih =>
    intro i acc c m h
    simp only [collect_lost] at h
    exact exits_bind (fun _ _ => False) _ _ (get_phase_no_exit B N T keys t i)
      (fun lost c m h => ih _ _ c m h) c m h

theorem put_phase_step_exit (B N : Nat) (T : Int) (keys : List Int) (s : PutState) (tid : Nat)
    (mo : Bool) : ∀ c m, put_phase_step B N T keys s tid mo = .exit c m →
      c = 1 ∧ m = "No memory to allocate bucket!" := by
  intro c m h
  unfold put_phase_step at h
  split at h
  · refine exits_bind (fun c m => c = 1 ∧ m = "No memory to allocate bucket!") _ _ ?_ ?_ c m h
    · apply strided_iter_exit
      intro k a
      unfold put_body
      exact exits_bind (fun c m => c = 1 ∧ m = "No memory to allocate bucket!") _ _
        (fun c m h => absurd h (fun h => array_read_no_exit _ _ c m h))
        (fun x => insert_exit B mo a x _)
    · intro r c m h
      cases h
  · cases h

theorem put_run_exit (B N : Nat) (T : Int) (keys : List Int) (sched : List (Nat × Bool)) :
    ∀ (s : PutState) (c : Nat) (m : String), (put_run B N T keys s sched).2 = .exit c m →
      c = 1 ∧ m = "No memory to allocate bucket!" := by
  induction sched with
  | nil => intro s c m h; simp [put_run] at h
  | cons x rest ih =>
    intro s c m h
    simp only [put_run] at h
    split at h
    next s1 _ => exact ih s1 c m h
    next c1 m1 hstep =>
      simp only [Outcome.exit.injEq] at h
      rw [← h.1, ← h.2]
      exact put_phase_step_exit B N T keys s x.1 x.2 c1 m1 hstep
    next => cases h
    next => cases h

theorem spin_init_not_created (B : Nat) :
    ¬ worker_created ((List.range B).map Event.spin_init) := by
  rintro ⟨i, h | h⟩ <;> simp at h

theorem main_get_status (B N : Nat) (w : World) (T : Int) (keys : List Int)
    (events : List Event) (t : Table) :
    ¬ is_config_error (main_get B N w T keys events t).status := by
  unfold main_get
  simp only
  split
  · rintro (h | h) <;> simp [panic] at h
  · split
    · rintro (h | h) <;> simp [panic] at h
    next c m hexit =>
      exact absurd hexit (fun h => collect_lost_no_exit B N T keys t _ _ _ c m h)
    · rintro (h | h) <;> simp [panic] at h
    · rintro (h | h) <;> simp [panic] at h

/-- C10: when `argc` is not 2, or `argc` is 2 and the parsed thread count is `≤ 0`, `main`
ends with exit code 1 through `panic`, no worker has been created and the table is still
empty; with `argc = 2` and a positive thread count the run does not end in a configuration
error. -/
theorem config_errors_rejected (B N : Nat) (w : World) :
    (argc w ≠ 2 →
      (main B N w).status = .exit 1 "usage: ./parallel_hashtable <num_threads>" ∧
      ¬ worker_created (main B N w).events ∧ (main B N w).table = empty_table B) ∧
    (argc w = 2 → w.atoi (w.argv.getD 1 "") ≤ 0 →
      (main B N w).status = .exit 1 "must enter a valid number of threads to run" ∧
      ¬ worker_created (main B N w).events ∧ (main B N w).table = empty_table B) ∧
    (argc w = 2 → 0 < w.atoi (w.argv.getD 1 "") → ¬ is_config_error (main B N w).status) := by
  refine ⟨?_, ?_, ?_⟩
  · intro h
    simp only [main, h, ne_eq, not_false_eq_true, if_true, panic, true_and]
    exact ⟨spin_init_not_created B, trivial⟩
  · intro h hT
    simp only [main, h, ne_eq, not_true_eq_false, if_false, hT, if_true, panic, true_and]
    exact ⟨spin_init_not_created B, trivial⟩
  · intro h hT
    have hT2 : ¬ w.atoi (w.argv.getD 1 "") ≤ 0 := by omega
    simp only [main, h, ne_eq, not_true_eq_false, if_false, hT2]
    split
    · rintro (h | h) <;> simp [panic] at h
    · split
      · split
        · exact main_get_status _ _ _ _ _ _ _
        · rintro (h | h) <;> simp [panic] at h
      next c m hexit =>
        have := put_run_exit B N _ _ _ _ c m hexit
        rintro (h | h) <;> simp [panic, this.2] at h
      · rintro (h | h) <;> simp [panic] at h
      · rintro (h | h) <;> simp [panic] at h

/-- Witness of C10: `./parallel_hashtable 0` and `./parallel_hashtable 2`. -/
theorem config_errors_rejected_witness :
    (main 5 3 ⟨["./parallel_hashtable", "0"], fun a => if a = "2" then 2 else 0,
      fun _ => 7, true, true, []⟩).status =
        .exit 1 "must enter a valid number of threads to run" ∧
    ¬ is_config_error (main 5 3 ⟨["./parallel_hashtable", "2"],
      fun a => if a = "2" then 2 else 0, fun _ => 7, true, true, []⟩).status :=
  ⟨((config_errors_rejected 5 3 ⟨["./parallel_hashtable", "0"],
      fun a => if a = "2" then 2 else 0, fun _ => 7, true, true, []⟩).2.1
      (by decide) (by decide)).1,
    (config_errors_rejected 5 3 ⟨["./parallel_hashtable", "2"],
      fun a => if a = "2" then 2 else 0, fun _ => 7, true, true, []⟩).2.2
      (by decide) (by decide)⟩


/-! ## Progress of the put phase and the complete run of the driver -/

theorem put_inv_table_length (B N T : Nat) (keys : List Int) (s : PutState) (log : List Nat)
    (hinv : PutInv B N T keys s log) : s.table.length = B := by
  rw [insert_seq_length B _ _ _ hinv.table_eq]
  simp [empty_table]

/-- With non-negative keys, successful allocation and a counter that cannot overflow, a turn
of a worker never fails; it moves the counter of that worker only. -/
theorem put_phase_step_defined (B N T : Nat) (keys : List Int) (s : PutState) (log : List Nat)
    (tid : Nat) (hB : 0 < B) (hkeys : keys.length = N) (hnonneg : ∀ k ∈ keys, 0 ≤ k)
    (hover : (N : Int) + T ≤ INT_MAX + 1) (hinv : PutInv B N T keys s log) :
    ∃ s1, put_phase_step B N (T : Int) keys s tid true = .ok s1 ∧
      ∀ i : Nat, s1.threads[i]? =
        if i = tid then (s.threads[i]?).map (next_counter N T) else s.threads[i]? := by
  unfold put_phase_step
  split
  next key hth =>
    obtain ⟨hk0, _⟩ := hinv.counter tid key hth
    have htid : tid < s.threads.length := by
      by_contra hc
      rw [List.getElem?_eq_none (by omega)] at hth
      cases hth
    have hupd : ∀ (t : Table) (x : Option Int), x = next_counter N T (some key) →
        ∀ i : Nat, ({ table := t, threads := s.threads.set tid x } : PutState).threads[i]? =
          if i = tid then (s.threads[i]?).map (next_counter N T) else s.threads[i]? := by
      intro t x hx i
      by_cases hi : i = tid
      · subst hi
        simp [List.getElem?_set_self htid, hth, hx]
      · simp [List.getElem?_set_ne (Ne.symm hi), hi]
    by_cases hlt : key < (N : Int)
    · have hread : array_read keys key = .ok keys[key.toNat] := by
        rw [array_read_eq_ok]
        exact ⟨hk0, List.getElem?_eq_getElem (by omega)⟩
      obtain ⟨chain, _, hins⟩ := insert_succeeds B s.table keys[key.toNat] (tid : Int) hB
        (put_inv_table_length B N T keys s log hinv) (hnonneg _ (List.getElem_mem _))
      have hno : ¬ (key + (T : Int) > INT_MAX ∨ key + (T : Int) < INT_MIN) := by
        unfold INT_MIN
        unfold INT_MAX at hover ⊢
        omega
      have hins2 : ∃ t1, insert B true s.table keys[key.toNat] (tid : Int) = .ok t1 := ⟨_, hins⟩
      obtain ⟨t1, hins⟩ := hins2
      refine ⟨⟨t1, s.threads.set tid (some (key + (T : Int)))⟩, ?_,
        hupd t1 (some (key + (T : Int))) (by simp [next_counter, hlt])⟩
      simp only [strided_iter, hlt, if_true, put_body, hread, Outcome.bind, hins, hno, if_false]
    · refine ⟨⟨s.table, s.threads.set tid none⟩, ?_,
        hupd s.table none (by simp [next_counter, hlt])⟩
      simp only [strided_iter, hlt, if_false, Outcome.bind]
  next hth =>
    refine ⟨s, rfl, ?_⟩
    intro i
    by_cases hi : i = tid
    · subst hi
      simp only [if_true]
      cases h1 : s.threads[i]? with
      | none => rfl
      | some th =>
        cases th with
        | none => rfl
        | some key => exact absurd h1 (hth key)
    · simp [hi]

/-- Under the same conditions a schedule never fails, and worker `tid` ends with its counter
advanced once per turn it was given. -/
theorem put_run_defined (B N T : Nat) (keys : List Int) (hB : 0 < B) (hkeys : keys.length = N)
    (hnonneg : ∀ k ∈ keys, 0 ≤ k) (hover : (N : Int) + T ≤ INT_MAX + 1)
    (sched : List (Nat × Bool)) :
    ∀ (s : PutState) (log : List Nat), PutInv B N T keys s log → (∀ c ∈ sched, c.2 = true) →
      (put_run B N (T : Int) keys s sched).2 = .ok () ∧
      ∀ tid : Nat, (put_run B N (T : Int) keys s sched).1.threads[tid]? =
        (s.threads[tid]?).map (next_counter N T)^[(sched.map Prod.fst).count tid] := by
  induction sched with
  | nil => intro s log _ _; simp [put_run]
  | cons c rest ih =>
    intro s log hinv hmalloc
    have hc : c.2 = true := hmalloc c (by simp)
    obtain ⟨s1, hstep, hth⟩ :=
      put_phase_step_defined B N T keys s log c.1 hB hkeys hnonneg hover hinv
    obtain ⟨log1, hinv1⟩ := put_inv_step B N T keys s s1 log c.1 true hinv hstep
    obtain ⟨h1, h2⟩ := ih s1 log1 hinv1 (fun x hx => hmalloc x (by simp [hx]))
    simp only [put_run, hc, hstep]
    refine ⟨h1, ?_⟩
    intro tid
    rw [h2 tid, hth tid, List.map_cons, List.count_cons]
    by_cases ht : tid = c.1
    · subst ht
      simp only [if_true, beq_self_eq_true, Function.iterate_succ, Option.map_map]
    · have hne : (c.1 == tid) = false := by
        simp only [beq_eq_false_iff_ne, ne_eq]
        exact fun h => ht h.symm
      simp [ht, hne]

theorem next_counter_iterate_none (N T : Nat) (n : Nat) :
    (next_counter N T)^[n] none = none := by
  induction n with
  | zero => rfl
  | succ n ih => rw [Function.iterate_succ, Function.comp]; exact ih

theorem next_counter_iterate (N T : Nat) (hT : 0 < T) :
    ∀ (n : Nat) (key : Int), (N : Int) - key < n → 0 < n →
      (next_counter N T)^[n] (some key) = none := by
  intro n
  induction n with
  | zero => intro key _ h; omega
  | succ n ih =>
    intro key h _
    rw [Function.iterate_succ, Function.comp]
    by_cases hlt : key < (N : Int)
    · simp only [next_counter, hlt, if_true]
      exact ih _ (by push_cast at h; omega) (by push_cast at h; omega)
    · simp only [next_counter, hlt, if_false]
      exact next_counter_iterate_none N T n

/-- Termination of the put phase: with non-negative keys, successful allocations and
`N + T ≤ INT_MAX + 1`, every schedule that gives each of the `T` workers more than `N`
turns runs without failure and ends with every worker exited. -/
theorem put_phase_terminates (B N T : Nat) (keys : List Int) (sched : List (Nat × Bool))
    (hB : 0 < B) (hT : 0 < T) (hkeys : keys.length = N) (hnonneg : ∀ k ∈ keys, 0 ≤ k)
    (hover : (N : Int) + T ≤ INT_MAX + 1) (hmalloc : ∀ c ∈ sched, c.2 = true)
    (hfair : ∀ tid : Nat, tid < T → N < (sched.map Prod.fst).count tid) :
    (put_run B N (T : Int) keys (put_init B T) sched).2 = .ok () ∧
    all_exited (put_run B N (T : Int) keys (put_init B T) sched).1 = true := by
  obtain ⟨h1, h2⟩ := put_run_defined B N T keys hB hkeys hnonneg hover sched _ []
    (put_inv_init B N T keys) hmalloc
  refine ⟨h1, ?_⟩
  obtain ⟨log, hinv⟩ := put_inv_run B N T keys sched _ _ [] _ (put_inv_init B N T keys) rfl
  unfold all_exited
  rw [List.all_eq_true]
  intro th hth
  obtain ⟨tid, hlt, hget⟩ := List.getElem_of_mem hth
  have htid : tid < T := by rw [← hinv.threads_length]; exact hlt
  have h3 := h2 tid
  rw [List.getElem?_eq_getElem hlt, hget] at h3
  have h4 : (put_init B T).threads[tid]? = some (some (tid : Int)) := by
    simp [put_init, List.getElem?_map, List.getElem?_range htid]
  rw [h4, Option.map_some',
    next_counter_iterate N T hT _ _ (by have := hfair tid htid; omega)
      (by have := hfair tid htid; omega)] at h3
  simp only [Option.some.injEq] at h3
  rw [h3]
  rfl


/-- The whole driver on a good day: with `argc = 2`, a positive thread count `T`, successful
allocations and a schedule that runs the put phase to the exit of every worker, `main` returns
0 after creating and joining `T` put workers and then `T` get workers, and reports all `N`
keys as retrieved. -/
theorem main_completes (B N T : Nat) (w : World) (hargc : argc w = 2)
    (hatoi : w.atoi (w.argv.getD 1 "") = (T : Int)) (hT : 0 < T)
    (hthreads : w.malloc_threads = true) (hlost : w.malloc_lost_keys = true)
    (hrun : (put_run B N (T : Int) ((List.range N).map w.random) (put_init B T) w.schedule).2 =
      .ok ())
    (hdone : all_exited
      (put_run B N (T : Int) ((List.range N).map w.random) (put_init B T) w.schedule).1 = true) :
    (main B N w).status = .ok 0 ∧ (main B N w).successes = some (N : Int) ∧
    (main B N w).events =
      (List.range B).map Event.spin_init ++ (List.range T).map Event.create_put ++
        (List.range T).map Event.join_put ++ (List.range T).map Event.create_get ++
        (List.range T).map Event.join_get := by
  obtain ⟨log, hinv, hperm⟩ := put_phase_complete B N T _ w.schedule _ _ hT rfl hdone
  have hlog : ∀ j : Nat, j < N → j ∈ log := fun j hj =>
    hperm.mem_iff.mpr (List.mem_range.mpr hj)
  have hlook : ∀ j : Nat, j < N → ∃ e : bucket_entry,
      (array_read ((List.range N).map w.random) (j : Int)).bind
        (retrieve B (put_run B N (T : Int) ((List.range N).map w.random) (put_init B T)
          w.schedule).1.table) = .ok (some e) := by
    intro j hj
    obtain ⟨k, e, _, hk, _, _, _, hr, _⟩ := lookup_logged B N T _ _ log hinv j (hlog j hj)
    have hread : array_read ((List.range N).map w.random) (j : Int) = .ok k := by
      rw [array_read_eq_ok]
      exact ⟨by omega, by simpa using hk⟩
    exact ⟨e, by rw [hread]; simpa [Outcome.bind] using hr⟩
  have htotal := total_lost_eq_of_defined B N T ((List.range N).map w.random)
    (put_run B N (T : Int) ((List.range N).map w.random) (put_init B T) w.schedule).1.table hT
    (fun j hj => by
      obtain ⟨e, he⟩ := hlook j hj
      exact ⟨_, he⟩)
    (fun j hj => (hinv.in_range j (hlog j hj)).2)
  have hzero : (List.range N).countP (missing B ((List.range N).map w.random)
      (put_run B N (T : Int) ((List.range N).map w.random) (put_init B T)
        w.schedule).1.table) = 0 := by
    rw [List.countP_eq_zero]
    intro j hj
    obtain ⟨e, he⟩ := hlook j (List.mem_range.mp hj)
    unfold missing
    rw [he]
    simp
  rw [hzero] at htotal
  have hT2 : ¬ ((T : Int) ≤ 0) := by omega
  simp only [main, hargc, ne_eq, not_true_eq_false, if_false, hatoi, hT2, hthreads,
    Bool.true_eq_false, Int.toNat_ofNat, hrun, hdone, if_true, main_get, hlost, htotal]
  simp

theorem put_run_exited (B N : Nat) (T : Int) (keys : List Int) (tid : Nat) (n : Nat) :
    ∀ s : PutState, s.threads[tid]? = some none →
      put_run B N T keys s (List.replicate n (tid, true)) = (s, .ok ()) := by
  induction n with
  | zero => intro s _; rfl
  | succ n ih =>
    intro s h
    simp only [List.replicate_succ, put_run, put_phase_step, h]
    exact ih s h

/-- The turns of one worker, taken in a row, are the loop of `put_phase`: when `put_phase`
returns a table from the counter `key` within `n` loop tests, `n` turns of worker `tid` lead
to that table with the worker exited. -/
theorem put_run_alone (B N : Nat) (T : Int) (keys : List Int) (tid : Nat) (t1 : Table) :
    ∀ (n : Nat) (s : PutState) (key : Int), s.threads[tid]? = some (some key) →
      strided_loop N T (put_body B keys (tid : Int) true) n key s.table = .ok t1 →
      put_run B N T keys s (List.replicate n (tid, true)) =
        ({ table := t1, threads := s.threads.set tid none }, .ok ()) := by
  intro n
  induction n with
  | zero => intro s key _ h; simp [strided_loop] at h
  | succ n ih =>
    intro s key hth h
    have htid : tid < s.threads.length := by
      by_contra hc
      rw [List.getElem?_eq_none (by omega)] at hth
      cases hth
    simp only [strided_loop] at h
    obtain ⟨r, hr, hrest⟩ := (bind_eq_ok _ _ _).mp h
    simp only [List.replicate_succ, put_run, put_phase_step, hth, hr, Outcome.bind]
    cases hr2 : r.2 with
    | none =>
      simp only [hr2, Outcome.ok.injEq] at hrest
      rw [put_run_exited B N T keys tid n _ (by simp [List.getElem?_set_self htid]), hrest]
    | some key1 =>
      simp only [hr2] at hrest
      rw [ih { table := r.1, threads := s.threads.set tid (some key1) } key1
        (by simp [List.getElem?_set_self htid]) hrest]
      simp

/-- The put phase with a single worker is `put_phase(0)` on the empty table. -/
theorem put_phase_single (B N : Nat) (keys : List Int) (t1 : Table)
    (h : put_phase B N 1 keys (empty_table B) 0 = .ok t1) :
    put_run B N 1 keys (put_init B 1) (List.replicate (N + 1) (0, true)) =
      ({ table := t1, threads := [none] }, .ok ()) :=
  put_run_alone B N 1 keys 0 t1 (N + 1) (put_init B 1) 0 rfl h

/-! ## Order within a bucket and inserts into different buckets (C15, C16) -/

theorem insert_seq_defined (B : Nat) (ops : List (Int × Int)) (hB : 0 < B) :
    ∀ t0 : Table, t0.length = B → (∀ op ∈ ops, 0 ≤ op.1) →
      ∃ t, insert_seq B t0 ops = .ok t := by
  induction ops with
  | nil => intro t0 _ _; exact ⟨t0, rfl⟩
  | cons op ops ih =>
    intro t0 hlen hnonneg
    obtain ⟨chain, _, hins⟩ := insert_succeeds B t0 op.1 op.2 hB hlen (hnonneg op (by simp))
    have hlen1 := insert_length B true t0 _ op.1 op.2 hins
    obtain ⟨t, ht⟩ := ih _ (hlen1.trans hlen) (fun x hx => hnonneg x (by simp [hx]))
    exact ⟨t, by simp only [insert_seq, hins, Outcome.bind]; exact ht⟩

/-- C15: applied to the empty table (of `B > 0` buckets), a sequence of inserts of
non-negative keys returns a table in which the chain of every bucket `i`, read from the head,
is the list of the pairs `(k_t, v_t)` with `k_t mod B = i` in the reverse of their order in the
sequence, whatever the vals (worker ids) are; the same holds of every table the put phase
reaches, for the order in which the workers executed their inserts. -/
theorem chain_reverse_of_order (B : Nat) (hB : 0 < B) :
    (∀ ops : List (Int × Int), (∀ op ∈ ops, 0 ≤ op.1) →
      ∃ t : Table, insert_seq B (empty_table B) ops = .ok t ∧
        ∀ i : Nat, i < B → t[i]? = some
          (((ops.filter fun op => decide (op.1 % (B : Int) = (i : Int))).map fun op =>
            ({ key := op.1, val := op.2 } : bucket_entry)).reverse)) ∧
    (∀ (N T : Nat) (keys : List Int) (sched : List (Nat × Bool)) (s : PutState)
      (st : Outcome Unit), put_run B N (T : Int) keys (put_init B T) sched = (s, st) →
      ∃ log : List Nat, log.Nodup ∧ ∀ i : Nat, i < B →
        s.table[i]? = some (bucket_log B i (log.map (submitted keys T)))) := by
  constructor
  · intro ops hnonneg
    obtain ⟨t, ht⟩ := insert_seq_defined B ops hB (empty_table B) (by simp [empty_table]) hnonneg
    refine ⟨t, ht, ?_⟩
    intro i hi
    rw [insert_seq_empty_chain B ops t ht i hi]
    unfold bucket_log
    congr 3
    apply List.filter_congr
    intro op hop
    rw [bucket_index_of_nonneg B op.1 (hnonneg op hop)]
  · intro N T keys sched s st hrun
    obtain ⟨log, hinv⟩ := put_inv_run B N T keys sched _ s [] st (put_inv_init B N T keys) hrun
    exact ⟨log, hinv.log_nodup, fun i hi => insert_seq_empty_chain B _ _ hinv.table_eq i hi⟩

/-- Witness of C15: keys 7, 3, 12, 2, 17 on five buckets; bucket 2 reads 17, 2, 12, 7. -/
theorem chain_reverse_of_order_witness :
    ∃ t : Table, insert_seq 5 (empty_table 5) [(7, 0), (3, 1), (12, 0), (2, 1), (17, 0)] = .ok t ∧
      ∀ i : Nat, i < 5 → t[i]? = some
        ((([(7, 0), (3, 1), (12, 0), (2, 1), (17, 0)] : List (Int × Int)).filter fun op =>
          decide (op.1 % ((5 : Nat) : Int) = (i : Int))).map fun op =>
            ({ key := op.1, val := op.2 } : bucket_entry)).reverse :=
  (chain_reverse_of_order 5 (by decide)).1 [(7, 0), (3, 1), (12, 0), (2, 1), (17, 0)] (by decide)

theorem array_read_set_ne {α : Type} (a : List α) (i j : Int) (x : α)
    (hi : 0 ≤ i) (hne : i ≠ j) : array_read (a.set i.toNat x) j = array_read a j := by
  unfold array_read
  by_cases hj : j < 0
  · simp [hj]
  · have : i.toNat ≠ j.toNat := by omega
    simp only [hj, if_false, List.getElem?_set_ne this]

/-- Two inserts with different bucket indices give the same result in either order, also when
one of them is undefined. -/
theorem insert_swap (B : Nat) (t : Table) (k1 v1 k2 v2 : Int)
    (hne : bucket_index B k1 ≠ bucket_index B k2) :
    ((insert B true t k1 v1).bind fun t1 => insert B true t1 k2 v2) =
      ((insert B true t k2 v2).bind fun t2 => insert B true t2 k1 v1) := by
  unfold insert
  by_cases hB : B = 0
  · simp [hB, Outcome.bind]
  · simp only [hB, if_false, Bool.true_eq_false]
    cases h1 : array_read t (bucket_index B k1) with
    | ok head1 =>
      have h10 := ((array_read_eq_ok _ _ _).mp h1).1
      cases h2 : array_read t (bucket_index B k2) with
      | ok head2 =>
        have h20 := ((array_read_eq_ok _ _ _).mp h2).1
        simp only [Outcome.bind, array_read_set_ne t _ _ _ h10 hne,
          array_read_set_ne t _ _ _ h20 (Ne.symm hne), h1, h2]
        rw [List.set_comm]
        omega
      | exit c m =>
        simp only [Outcome.bind, array_read_set_ne t _ _ _ h10 hne, h2]
      | undefined =>
        simp only [Outcome.bind, array_read_set_ne t _ _ _ h10 hne, h2]
      | unfinished =>
        simp only [Outcome.bind, array_read_set_ne t _ _ _ h10 hne, h2]
    | exit c m =>
      cases h2 : array_read t (bucket_index B k2) with
      | ok head2 =>
        have h20 := ((array_read_eq_ok _ _ _).mp h2).1
        simp only [Outcome.bind, array_read_set_ne t _ _ _ h20 (Ne.symm hne), h1]
      | exit c2 m2 => exact absurd h2 (fun h => array_read_no_exit _ _ c2 m2 h)
      | undefined => exact absurd h1 (fun h => array_read_no_exit _ _ c m h)
      | unfinished => exact absurd h1 (fun h => array_read_no_exit _ _ c m h)
    | undefined =>
      cases h2 : array_read t (bucket_index B k2) with
      | ok head2 =>
        have h20 := ((array_read_eq_ok _ _ _).mp h2).1
        simp only [Outcome.bind, array_read_set_ne t _ _ _ h20 (Ne.symm hne), h1]
      | exit c2 m2 => exact absurd h2 (fun h => array_read_no_exit _ _ c2 m2 h)
      | undefined => simp only [Outcome.bind]
      | unfinished =>
        unfold array_read at h2
        split at h2
        · cases h2
        · split at h2 <;> cases h2
    | unfinished =>
      unfold array_read at h1
      split at h1
      · cases h1
      · split at h1 <;> cases h1

/-- C16: on a table of `B > 0` buckets and for non-negative keys `k1`, `k2` with
`k1 mod B ≠ k2 mod B`, `insert(k1, v1); insert(k2, v2)` and `insert(k2, v2); insert(k1, v1)`
both return, and they return the same table. -/
theorem insert_commute (B : Nat) (t : Table) (k1 v1 k2 v2 : Int)
    (hB : 0 < B) (hlen : t.length = B) (hk1 : 0 ≤ k1) (hk2 : 0 ≤ k2)
    (hne : k1 % (B : Int) ≠ k2 % (B : Int)) :
    ∃ t12 : Table,
      ((insert B true t k1 v1).bind fun t1 => insert B true t1 k2 v2) = .ok t12 ∧
      ((insert B true t k2 v2).bind fun t2 => insert B true t2 k1 v1) = .ok t12 := by
  have hne2 : bucket_index B k1 ≠ bucket_index B k2 := by
    rw [bucket_index_of_nonneg B k1 hk1, bucket_index_of_nonneg B k2 hk2]
    exact hne
  obtain ⟨c1, _, h1⟩ := insert_succeeds B t k1 v1 hB hlen hk1
  obtain ⟨c2, _, h2⟩ := insert_succeeds B _ k2 v2 hB
    (by simp [hlen] : (t.set (bucket_index B k1).toNat ({ key := k1, val := v1 } :: c1)).length = B)
    hk2
  refine ⟨_, by rw [h1]; simp only [Outcome.bind]; exact h2, ?_⟩
  rw [← insert_swap B t k1 v1 k2 v2 hne2, h1]
  simp only [Outcome.bind]
  exact h2

/-- Witness of C16: keys 7 and 8 on a table that already holds key 12 in bucket 2. -/
theorem insert_commute_witness :
    ∃ t12 : Table,
      ((insert 5 true [[], [], [⟨12, 0⟩], [], []] 7 1).bind fun t1 => insert 5 true t1 8 2) =
        .ok t12 ∧
      ((insert 5 true [[], [], [⟨12, 0⟩], [], []] 8 2).bind fun t2 => insert 5 true t2 7 1) =
        .ok t12 :=
  insert_commute 5 [[], [], [⟨12, 0⟩], [], []] 7 1 8 2
    (by decide) (by decide) (by decide) (by decide) (by decide)

/-! ## The bucket index of a negative key and the range of the loop counter (C20, C19) -/

theorem neg_tmod_eq (a b : Int) : (-a).tmod b = -(a.tmod b) := by
  rw [Int.tmod_def, Int.tmod_def, Int.neg_tdiv]
  ring

theorem bucket_index_of_neg (B : Nat) (key : Int) (hk : key < 0) :
    bucket_index B key = -((-key) % (B : Int)) := by
  unfold bucket_index
  have h : key = -(-key) := by omega
  rw [h, neg_tmod_eq, Int.tmod_eq_emod (by omega) (Int.ofNat_nonneg B)]
  simp

/-- Counterexample to C20: for the key `-1` and the 5 buckets of the source, `key % NUM_BUCKETS`
is `-1`, and `insert` and `retrieve` index `table` (and `spinlock`) outside their bounds. -/
theorem negative_key_counterexample :
    bucket_index NUM_BUCKETS (-1) = -1 ∧
    ¬ (0 ≤ bucket_index NUM_BUCKETS (-1) ∧ bucket_index NUM_BUCKETS (-1) < (NUM_BUCKETS : Int)) ∧
    insert NUM_BUCKETS true (empty_table NUM_BUCKETS) (-1) 0 = .undefined ∧
    retrieve NUM_BUCKETS (empty_table NUM_BUCKETS) (-1) = .undefined := by
  decide

/-- C20 as amended: with `B > 0` buckets, for every non-negative `int` key the bucket index
`key % B` is in `[0, B)` and the accesses `table[i]` of `insert` and `retrieve` are within a
`B`-element array; for a negative key the index is `-((-key) mod B)`, which is negative, hence
out of bounds, unless `B` divides the key. -/
theorem bucket_index_in_bounds (B : Nat) (key : Int) (hB : 0 < B) :
    (0 ≤ key → 0 ≤ bucket_index B key ∧ bucket_index B key < (B : Int) ∧
      ∀ (α : Type) (a : List α), a.length = B → ∃ x, array_read a (bucket_index B key) = .ok x) ∧
    (key < 0 → bucket_index B key = -((-key) % (B : Int)) ∧
      (¬ (B : Int) ∣ key → bucket_index B key < 0 ∧
        ∀ (α : Type) (a : List α), array_read a (bucket_index B key) = .undefined)) := by
  constructor
  · intro hk
    obtain ⟨h0, h1⟩ := bucket_index_bounds B key hB hk
    refine ⟨h0, by omega, ?_⟩
    intro α a hlen
    have hlt : (bucket_index B key).toNat < a.length := by omega
    exact ⟨a[(bucket_index B key).toNat], by
      rw [array_read_eq_ok]
      exact ⟨h0, List.getElem?_eq_getElem hlt⟩⟩
  · intro hk
    have hidx := bucket_index_of_neg B key hk
    refine ⟨hidx, ?_⟩
    intro hdvd
    have hpos : 0 ≤ (-key) % (B : Int) := Int.emod_nonneg _ (by omega)
    have hne : (-key) % (B : Int) ≠ 0 := by
      intro h0
      apply hdvd
      have := Int.dvd_of_emod_eq_zero h0
      exact (Int.dvd_neg).mp this
    have hlt : bucket_index B key < 0 := by omega
    refine ⟨hlt, ?_⟩
    intro α a
    unfold array_read
    simp [hlt]

/-- Witness of C20 as amended: the index of key 7 on 5 buckets, and of key `-7`. -/
theorem bucket_index_in_bounds_witness :
    (0 ≤ bucket_index 5 7 ∧ bucket_index 5 7 < ((5 : Nat) : Int) ∧
      ∀ (α : Type) (a : List α), a.length = 5 → ∃ x, array_read a (bucket_index 5 7) = .ok x) ∧
    (bucket_index 5 (-7) = -((-(-7 : Int)) % ((5 : Nat) : Int)) ∧
      (¬ ((5 : Nat) : Int) ∣ (-7 : Int) → bucket_index 5 (-7) < 0 ∧
        ∀ (α : Type) (a : List α), array_read a (bucket_index 5 (-7)) = .undefined)) :=
  ⟨(bucket_index_in_bounds 5 7 (by decide)).1 (by decide),
    (bucket_index_in_bounds 5 (-7) (by decide)).2 (by decide)⟩

theorem mem_partition_iff_exists (N T i j : Nat) (hT : 0 < T) :
    j ∈ partition N T i ↔ j < N ∧ ∃ q : Nat, j = i + q * T := by
  rw [mem_partition N T i j hT]
  constructor
  · rintro ⟨h1, h2, h3⟩
    refine ⟨h1, (j - i) / T, ?_⟩
    have hd : T ∣ j - i := (Nat.modEq_iff_dvd' h2).mp h3.symm
    rw [Nat.div_mul_cancel hd]
    omega
  · rintro ⟨h1, q, rfl⟩
    exact ⟨h1, Nat.le_add_right _ _, Nat.add_mul_mod_self_right _ _ _⟩

theorem partition_increasing (N T i : Nat) (hT : 0 < T) :
    (partition N T i).Pairwise (fun a b => a < b) := by
  unfold partition
  rw [List.pairwise_map]
  apply List.Pairwise.imp _ (List.pairwise_lt_range _)
  intro a b hab
  have : a * T < b * T := Nat.mul_lt_mul_of_pos_right hab hT
  omega

/-- The loop reaches undefined behaviour when the counter update overflows at a visited index. -/
theorem strided_loop_overflow {σ : Type} (N T : Nat) (hT : 0 < T) (body : Int → σ → Outcome σ)
    (f : Nat → σ → σ) :
    ∀ (fuel key : Nat) (acc : σ), N - key < fuel →
      (∀ j ∈ partition N T key, ∀ a, body (j : Int) a = .ok (f j a)) →
      (∃ j ∈ partition N T key, (j : Int) + T > INT_MAX) →
      strided_loop N (T : Int) body fuel (key : Int) acc = .undefined := by
  intro fuel
  induction fuel with
  | zero => intro key acc h; omega
  | succ fuel ih =>
    intro key acc hfuel hbody hbad
    by_cases hk : key < N
    · rw [partition_of_lt N T key hT hk] at hbody hbad
      have hb := hbody key (by simp) acc
      have hlt : (key : Int) < (N : Int) := by omega
      by_cases hover : (key : Int) + (T : Int) > INT_MAX
      · have ho : (key : Int) + (T : Int) > INT_MAX ∨ (key : Int) + (T : Int) < INT_MIN :=
          Or.inl hover
        simp only [strided_loop, strided_iter, hlt, if_true, hb, Outcome.bind, ho]
      · have hno : ¬ ((key : Int) + (T : Int) > INT_MAX ∨ (key : Int) + (T : Int) < INT_MIN) := by
          rintro (h | h)
          · exact hover h
          · unfold INT_MIN at h
            omega
        simp only [strided_loop, strided_iter, hlt, if_true, hb, Outcome.bind, hno, if_false]
        have hcast : (key : Int) + (T : Int) = ((key + T : Nat) : Int) := by push_cast; rfl
        rw [hcast]
        apply ih (key + T) (f key acc) (by omega)
        · intro j hj a
          exact hbody j (by simp [hj]) a
        · obtain ⟨j, hj, hjbad⟩ := hbad
          rcases List.mem_cons.mp hj with rfl | hj
          · exact absurd hjbad hover
          · exact ⟨j, hj, hjbad⟩
    · rw [partition_of_ge N T key hT (by omega)] at hbad
      obtain ⟨j, hj, _⟩ := hbad
      simp at hj

/-- Counterexample to C19: with the `NUM_KEYS` of the source, `T = INT_MAX` and worker 1, the
update `key += T` after the first pass (`1 + 2147483647`) exceeds the `int` range. -/
theorem counter_overflow_counterexample :
    (0 : Int) < 2147483647 ∧ (1 : Int) < 2147483647 ∧
    (1 : Int) < (NUM_KEYS : Int) ∧ (1 : Int) + 2147483647 > INT_MAX ∧
    visited NUM_KEYS 2147483647 1 = .undefined := by
  decide

/-- C19 as amended: for `T > 0` and every worker `i`, when `j + T ≤ INT_MAX` for every index
`j` of `{i, i+T, i+2T, …} ∩ [0, N)` (as it is whenever `N + T ≤ INT_MAX + 1`, also for `T > N`),
the loop `for (key = i; key < N; key += T)` terminates having visited exactly these indices,
each once and in increasing order, without overflow; when some such `j` has
`j + T > INT_MAX`, the update overflows and the loop has undefined behaviour. -/
theorem strided_index_set (N T i : Nat) (hT : 0 < T) :
    ((∀ j ∈ partition N T i, (j : Int) + T ≤ INT_MAX) →
      visited N (T : Int) (i : Int) = .ok (List.map (fun (j : Nat) => (j : Int)) (partition N T i))) ∧
    ((N : Int) + T ≤ INT_MAX + 1 → ∀ j ∈ partition N T i, (j : Int) + T ≤ INT_MAX) ∧
    ((∃ j ∈ partition N T i, (j : Int) + T > INT_MAX) →
      visited N (T : Int) (i : Int) = .undefined) ∧
    (partition N T i).Pairwise (fun a b => a < b) ∧
    (∀ j : Nat, j ∈ partition N T i ↔ j < N ∧ ∃ q : Nat, j = i + q * T) := by
  refine ⟨fun hover => visited_eq N T i hT hover, ?_, ?_, partition_increasing N T i hT,
    fun j => mem_partition_iff_exists N T i j hT⟩
  · intro hrange j hj
    have := ((mem_partition N T i j hT).mp hj).1
    omega
  · intro hbad
    unfold visited
    exact strided_loop_overflow N T hT _ (fun j acc => acc ++ [(j : Int)]) (N + 1) i []
      (by omega) (fun j _ a => rfl) hbad

/-- Witness of C19 as amended: worker 1 of 4 over 10 indices visits 1, 5, 9; with 12 workers
(more than indices) worker 1 visits only 1. -/
theorem strided_index_set_witness :
    visited 10 ((4 : Nat) : Int) ((1 : Nat) : Int) = .ok [1, 5, 9] ∧
    visited 10 ((12 : Nat) : Int) ((1 : Nat) : Int) = .ok [1] :=
  ⟨(strided_index_set 10 4 1 (by decide)).1 (by decide),
    (strided_index_set 10 12 1 (by decide)).1 (by decide)⟩

/-! ## The phase barrier and the allocations of the driver (C13, C12) -/

theorem pairwise_stage_map (f : Nat → Event) (n k : Nat) (hf : ∀ i, (f i).stage = k) :
    ((List.range n).map f).Pairwise (fun a b => a.stage ≤ b.stage) := by
  rw [List.pairwise_map]
  exact List.Pairwise.imp (fun _ => by rw [hf, hf]) (List.pairwise_lt_range n)

theorem pairwise_stage_append (l : List Event) (f : Nat → Event) (n k : Nat)
    (hl : l.Pairwise (fun a b => a.stage ≤ b.stage)) (hlk : ∀ a ∈ l, a.stage ≤ k)
    (hf : ∀ i, (f i).stage = k) :
    (l ++ (List.range n).map f).Pairwise (fun a b => a.stage ≤ b.stage) ∧
      ∀ a ∈ l ++ (List.range n).map f, a.stage ≤ k := by
  constructor
  · rw [List.pairwise_append]
    refine ⟨hl, pairwise_stage_map f n k hf, ?_⟩
    intro a ha b hb
    obtain ⟨i, _, rfl⟩ := List.mem_map.mp hb
    rw [hf]
    exact hlk a ha
  · intro a ha
    rcases List.mem_append.mp ha with ha | ha
    · exact hlk a ha
    · obtain ⟨i, _, rfl⟩ := List.mem_map.mp ha
      rw [hf]

theorem stage_le_trans (l : List Event) (k k2 : Nat) (h : ∀ a ∈ l, a.stage ≤ k) (hk : k ≤ k2) :
    ∀ a ∈ l, a.stage ≤ k2 := fun a ha => Nat.le_trans (h a ha) hk

theorem main_get_events (B N : Nat) (w : World) (T : Int) (keys : List Int)
    (events : List Event) (t : Table)
    (hl : events.Pairwise (fun a b => a.stage ≤ b.stage)) (hlk : ∀ a ∈ events, a.stage ≤ 2) :
    (main_get B N w T keys events t).events.Pairwise (fun a b => a.stage ≤ b.stage) ∧
    (main_get B N w T keys events t).table = t ∧
    ∀ j : Nat, Event.join_put j ∈ events →
      Event.join_put j ∈ (main_get B N w T keys events t).events := by
  obtain ⟨h3, h3k⟩ := pairwise_stage_append events Event.create_get T.toNat 3 hl
    (stage_le_trans events 2 3 hlk (by decide)) (fun _ => rfl)
  obtain ⟨h4, _⟩ := pairwise_stage_append _ Event.join_get T.toNat 4 h3
    (stage_le_trans _ 3 4 h3k (by decide)) (fun _ => rfl)
  unfold main_get
  simp only
  split
  · exact ⟨h3, rfl, fun j hj => List.mem_append_left _ hj⟩
  · split
    · exact ⟨h4, rfl, fun j hj => List.mem_append_left _ (List.mem_append_left _ hj)⟩
    · exact ⟨h3, rfl, fun j hj => List.mem_append_left _ hj⟩
    · exact ⟨h3, rfl, fun j hj => List.mem_append_left _ hj⟩
    · exact ⟨h3, rfl, fun j hj => List.mem_append_left _ hj⟩

/-- C13: in every run of `main` the thread operations occur in the order of the protocol, so
no creation of a get worker precedes a join of a put worker; and when a get worker is created,
the joins of all `T` put workers have been performed, the put phase has run to the exit of
every worker without failure, and the table is the one that put phase left, which the rest
of the run does not change. -/
theorem phase_barrier (B N : Nat) (w : World) :
    (main B N w).events.Pairwise (fun a b => a.stage ≤ b.stage) ∧
    (main B N w).events.Pairwise
      (fun a b => ¬ ((∃ i, a = Event.create_get i) ∧ ∃ j, b = Event.join_put j)) ∧
    ((∃ i, Event.create_get i ∈ (main B N w).events) →
      (∀ j : Nat, j < (w.atoi (w.argv.getD 1 "")).toNat →
        Event.join_put j ∈ (main B N w).events) ∧
      (put_run B N (w.atoi (w.argv.getD 1 "")) ((List.range N).map w.random)
        (put_init B (w.atoi (w.argv.getD 1 "")).toNat) w.schedule).2 = .ok () ∧
      all_exited (put_run B N (w.atoi (w.argv.getD 1 "")) ((List.range N).map w.random)
        (put_init B (w.atoi (w.argv.getD 1 "")).toNat) w.schedule).1 = true ∧
      (main B N w).table = (put_run B N (w.atoi (w.argv.getD 1 "")) ((List.range N).map w.random)
        (put_init B (w.atoi (w.argv.getD 1 "")).toNat) w.schedule).1.table) := by
  have h0 : ((List.range B).map Event.spin_init).Pairwise (fun a b => a.stage ≤ b.stage) ∧
      ∀ a ∈ (List.range B).map Event.spin_init, a.stage ≤ 0 := by
    have := pairwise_stage_append [] Event.spin_init B 0 List.Pairwise.nil (by simp)
      (fun _ => rfl)
    simpa using this
  have hno0 : ∀ i, Event.create_get i ∉ (List.range B).map Event.spin_init := by
    intro i h
    simp at h
  obtain ⟨h1, h1k⟩ := pairwise_stage_append _ Event.create_put
    (w.atoi (w.argv.getD 1 "")).toNat 1 h0.1 (stage_le_trans _ 0 1 h0.2 (by decide))
    (fun _ => rfl)
  have hno1 : ∀ i, Event.create_get i ∉ (List.range B).map Event.spin_init ++
      (List.range (w.atoi (w.argv.getD 1 "")).toNat).map Event.create_put := by
    intro i h
    simp at h
  obtain ⟨h2, h2k⟩ := pairwise_stage_append _ Event.join_put
    (w.atoi (w.argv.getD 1 "")).toNat 2 h1 (stage_le_trans _ 1 2 h1k (by decide))
    (fun _ => rfl)
  have hsorted : (main B N w).events.Pairwise (fun a b => a.stage ≤ b.stage) ∧
      ((∃ i, Event.create_get i ∈ (main B N w).events) →
        (∀ j : Nat, j < (w.atoi (w.argv.getD 1 "")).toNat →
          Event.join_put j ∈ (main B N w).events) ∧
        (put_run B N (w.atoi (w.argv.getD 1 "")) ((List.range N).map w.random)
          (put_init B (w.atoi (w.argv.getD 1 "")).toNat) w.schedule).2 = .ok () ∧
        all_exited (put_run B N (w.atoi (w.argv.getD 1 "")) ((List.range N).map w.random)
          (put_init B (w.atoi (w.argv.getD 1 "")).toNat) w.schedule).1 = true ∧
        (main B N w).table = (put_run B N (w.atoi (w.argv.getD 1 ""))
          ((List.range N).map w.random)
          (put_init B (w.atoi (w.argv.getD 1 "")).toNat) w.schedule).1.table) := by
    unfold main
    simp only
    split
    · exact ⟨h0.1, fun ⟨i, hi⟩ => absurd hi (hno0 i)⟩
    · split
      · exact ⟨h0.1, fun ⟨i, hi⟩ => absurd hi (hno0 i)⟩
      · split
        · exact ⟨h0.1, fun ⟨i, hi⟩ => absurd hi (hno0 i)⟩
        · split
          next u hok =>
            split
            next hdone =>
              obtain ⟨hg, htab, hjoin⟩ := main_get_events B N w (w.atoi (w.argv.getD 1 ""))
                ((List.range N).map w.random) _
                (put_run B N (w.atoi (w.argv.getD 1 "")) ((List.range N).map w.random)
                  (put_init B (w.atoi (w.argv.getD 1 "")).toNat) w.schedule).1.table h2 h2k
              refine ⟨hg, fun _ => ⟨?_, ?_, hdone, htab⟩⟩
              · intro j hj
                apply hjoin
                apply List.mem_append_right
                exact List.mem_map_of_mem _ (List.mem_range.mpr hj)
              · rw [hok]
            · exact ⟨h1, fun ⟨i, hi⟩ => absurd hi (hno1 i)⟩
          · exact ⟨h1, fun ⟨i, hi⟩ => absurd hi (hno1 i)⟩
          · exact ⟨h1, fun ⟨i, hi⟩ => absurd hi (hno1 i)⟩
          · exact ⟨h1, fun ⟨i, hi⟩ => absurd hi (hno1 i)⟩
  refine ⟨hsorted.1, ?_, hsorted.2⟩
  apply List.Pairwise.imp _ hsorted.1
  rintro a b hab ⟨⟨i, rfl⟩, ⟨j, rfl⟩⟩
  simp [Event.stage] at hab

/-- Witness of C13: a complete run with two workers; both put joins are in the trace and the
put phase was run to the exit of both workers when the get workers were created. -/
theorem phase_barrier_witness :
    (∀ j : Nat, j < 2 → Event.join_put j ∈
      (main 5 3 ⟨["./parallel_hashtable", "2"], fun _ => 2, fun _ => 7, true, true,
        [(0, true), (1, true), (0, true), (1, true), (0, true)]⟩).events) ∧
    (main 5 3 ⟨["./parallel_hashtable", "2"], fun _ => 2, fun _ => 7, true, true,
        [(0, true), (1, true), (0, true), (1, true), (0, true)]⟩).table =
      [[], [], [⟨7, 0⟩, ⟨7, 1⟩, ⟨7, 0⟩], [], []] :=
  ⟨((phase_barrier 5 3 ⟨["./parallel_hashtable", "2"], fun _ => 2, fun _ => 7, true, true,
      [(0, true), (1, true), (0, true), (1, true), (0, true)]⟩).2.2 ⟨0, by decide⟩).1,
    ((phase_barrier 5 3 ⟨["./parallel_hashtable", "2"], fun _ => 2, fun _ => 7, true, true,
      [(0, true), (1, true), (0, true), (1, true), (0, true)]⟩).2.2 ⟨0, by decide⟩).2.2.2⟩

/-- When the allocation of `lost_keys` fails after a completed put phase, `main` reads through
the `NULL` pointer in its join loop: the run is undefined, not an exit with code 1. -/
theorem main_lost_keys_null (B N : Nat) (w : World) (hargc : argc w = 2)
    (hT : 0 < w.atoi (w.argv.getD 1 "")) (hthreads : w.malloc_threads = true)
    (hrun : (put_run B N (w.atoi (w.argv.getD 1 "")) ((List.range N).map w.random)
      (put_init B (w.atoi (w.argv.getD 1 "")).toNat) w.schedule).2 = .ok ())
    (hdone : all_exited (put_run B N (w.atoi (w.argv.getD 1 "")) ((List.range N).map w.random)
      (put_init B (w.atoi (w.argv.getD 1 "")).toNat) w.schedule).1 = true)
    (hlost : w.malloc_lost_keys = false) :
    (main B N w).status = .undefined := by
  have hT2 : ¬ w.atoi (w.argv.getD 1 "") ≤ 0 := by omega
  simp only [main, hargc, ne_eq, not_true_eq_false, if_false, hT2, hthreads,
    Bool.true_eq_false, hrun, hdone, if_true, main_get, hlost]

/-- C12, the allocations of the program at concrete runs: a failed allocation of the bucket
entry and a failed allocation of `threads` end in `panic` with exit code 1 and a message, but
with a failed allocation of `lost_keys` (`./parallel_hashtable 2`, keys all 7, every other
allocation succeeding) the run reaches the access through `NULL`. -/
theorem lost_keys_unchecked :
    insert 5 false (empty_table 5) 7 0 = .exit 1 "No memory to allocate bucket!" ∧
    (main 5 3 ⟨["./parallel_hashtable", "2"], fun _ => 2, fun _ => 7, false, true,
        [(0, true), (1, true), (0, true), (1, true), (0, true)]⟩).status =
      .exit 1 "out of memory allocating thread handles" ∧
    (main 5 3 ⟨["./parallel_hashtable", "2"], fun _ => 2, fun _ => 7, true, true,
        [(0, true), (1, false)]⟩).status = .exit 1 "No memory to allocate bucket!" ∧
    (main 5 3 ⟨["./parallel_hashtable", "2"], fun _ => 2, fun _ => 7, true, false,
        [(0, true), (1, true), (0, true), (1, true), (0, true)]⟩).status = .undefined ∧
    (main 5 3 ⟨["./parallel_hashtable", "2"], fun _ => 2, fun _ => 7, true, true,
        [(0, true), (1, true), (0, true), (1, true), (0, true)]⟩).status = .ok 0 := by
  decide

/-! ## `insert` statement by statement: allocation failure and lock discipline (C11, C17) -/

theorem array_read_of_getElem? {α : Type} (a : List α) (i : Int) (x : α)
    (h0 : 0 ≤ i) (h : a[i.toNat]? = some x) : array_read a i = .ok x :=
  (array_read_eq_ok a i x).mpr ⟨h0, h⟩

theorem set_set_self {α : Type} (l : List α) (n : Nat) (x y : α) (h : l[n]? = some y) :
    (l.set n x).set n y = l := by
  apply List.ext_getElem?
  intro m
  by_cases hm : n = m
  · subst hm
    have hlt : n < l.length := by
      by_contra hc
      rw [List.getElem?_eq_none (by omega)] at h
      cases h
    rw [List.getElem?_set_self (by simpa using hlt), h]
  · rw [List.getElem?_set_ne hm, List.getElem?_set_ne hm]

/-- The seven statements of a call whose atomic counterpart returns `t1`, started with the
lock of its bucket free: the lock is taken, the head is read and written under it, the lock
is released. -/
theorem insert_locked_ok (B : Nat) (g : Globals) (key val : Int) (t1 : Table)
    (hfree : g.spinlock[(bucket_index B key).toNat]? = some false)
    (hins : insert B true g.table key val = .ok t1) :
    insert_locked B true g key val =
      { globals := { table := t1, spinlock := g.spinlock },
        actions := [.alloc, .acquire (bucket_index B key), .read_head (bucket_index B key),
          .write_entry, .write_entry, .write_head (bucket_index B key),
          .release (bucket_index B key)],
        status := .ok () } := by
  obtain ⟨hB, _, h0, head, hh, rfl⟩ := (insert_eq_ok B true g.table t1 key val).mp hins
  have hlt : (bucket_index B key).toNat < g.spinlock.length := by
    by_contra hc
    rw [List.getElem?_eq_none (by omega)] at hfree
    cases hfree
  have h1 := array_read_of_getElem? g.spinlock _ false h0 hfree
  have h2 := array_read_of_getElem? g.table _ head h0 hh
  have h3 := array_read_of_getElem? (g.spinlock.set (bucket_index B key).toNat true) _ true h0
    (List.getElem?_set_self hlt)
  have h4 := set_set_self g.spinlock (bucket_index B key).toNat true false hfree
  simp [insert_locked, insert_run, insert_step, new_call, hB, h1, h2, h3, h4, Outcome.bind]

theorem insert_step_exit (B : Nat) (g : Globals) (c : Call) (code : Nat) (msg : String)
    (h : insert_step B g c = .exit code msg) :
    c.pc = .start ∧ c.malloc_ok = false ∧ code = 1 ∧ msg = "No memory to allocate bucket!" := by
  unfold insert_step at h
  split at h
  · split at h
    · cases h
    · split at h
      next hm =>
        simp only [panic, Outcome.exit.injEq] at h
        exact ⟨by assumption, hm, h.1.symm, h.2.symm⟩
      · cases h
  · exact absurd h (fun h => exits_bind (fun _ _ => False) _ _ (array_read_no_exit _ _)
      (fun a c m h => by split at h <;> cases h) code msg h)
  · exact absurd h (fun h => exits_bind (fun _ _ => False) _ _ (array_read_no_exit _ _)
      (fun a c m h => by cases h) code msg h)
  · cases h
  · cases h
  · exact absurd h (fun h => exits_bind (fun _ _ => False) _ _ (array_read_no_exit _ _)
      (fun a c m h => by cases h) code msg h)
  · exact absurd h (fun h => exits_bind (fun _ _ => False) _ _ (array_read_no_exit _ _)
      (fun a c m h => by cases h) code msg h)
  · cases h

theorem insert_step_args (B : Nat) (g : Globals) (c : Call) (r : Globals × Call × Action)
    (h : insert_step B g c = .ok r) :
    r.2.1.key = c.key ∧ r.2.1.val = c.val ∧ r.2.1.malloc_ok = c.malloc_ok := by
  unfold insert_step at h
  split at h
  · split at h
    · cases h
    · split at h
      · cases h
      · cases h; exact ⟨rfl, rfl, rfl⟩
  · obtain ⟨held, _, h2⟩ := (bind_eq_ok _ _ _).mp h
    split at h2 <;> (cases h2; exact ⟨rfl, rfl, rfl⟩)
  · obtain ⟨x, _, h2⟩ := (bind_eq_ok _ _ _).mp h
    cases h2; exact ⟨rfl, rfl, rfl⟩
  · cases h; exact ⟨rfl, rfl, rfl⟩
  · cases h; exact ⟨rfl, rfl, rfl⟩
  · obtain ⟨x, _, h2⟩ := (bind_eq_ok _ _ _).mp h
    cases h2; exact ⟨rfl, rfl, rfl⟩
  · obtain ⟨x, _, h2⟩ := (bind_eq_ok _ _ _).mp h
    cases h2; exact ⟨rfl, rfl, rfl⟩
  · cases h; exact ⟨rfl, rfl, rfl⟩

theorem insert_run_no_exit (B : Nat) :
    ∀ (fuel : Nat) (g : Globals) (c : Call), c.malloc_ok = true →
      ∀ (code : Nat) (msg : String), (insert_run B fuel g c).status ≠ .exit code msg := by
  intro fuel
  induction fuel with
  | zero =>
    intro g c _ code msg h
    simp only [insert_run] at h
    split at h <;> cases h
  | succ fuel ih =>
    intro g c hm code msg h
    simp only [insert_run] at h
    split at h
    · cases h
    · split at h
      next r hr =>
        exact ih r.1 r.2.1 ((insert_step_args B g c r hr).2.2.trans hm) code msg h
      next c1 m1 hr =>
        have := (insert_step_exit B g c c1 m1 hr).2.1
        rw [hm] at this
        cases this
      · cases h
      · cases h

/-- C11: with `B > 0` buckets, for every state, key and val, a call of `insert` whose
allocation fails ends the process with exit code 1 through `panic`, with `table` and
`spinlock` as they were and no lock operation performed; a call whose allocation succeeds
never ends in an exit, and for a non-negative key, on a table and a lock array of `B`
elements with the lock of the bucket free, it returns normally. -/
theorem insert_alloc_failure (B : Nat) (hB : 0 < B) :
    (∀ (g : Globals) (key val : Int), insert_locked B false g key val =
      { globals := g, actions := [], status := .exit 1 "No memory to allocate bucket!" }) ∧
    (∀ (t : Table) (key val : Int),
      insert B false t key val = .exit 1 "No memory to allocate bucket!") ∧
    (∀ (g : Globals) (key val : Int) (code : Nat) (msg : String),
      (insert_locked B true g key val).status ≠ .exit code msg) ∧
    (∀ (t : Table) (key val : Int) (code : Nat) (msg : String),
      insert B true t key val ≠ .exit code msg) ∧
    (∀ (g : Globals) (key val : Int), g.table.length = B → 0 ≤ key →
      g.spinlock[(bucket_index B key).toNat]? = some false →
      (insert_locked B true g key val).status = .ok ()) := by
  have hB0 : B ≠ 0 := by omega
  refine ⟨?_, ?_, ?_, ?_, ?_⟩
  · intro g key val
    simp [insert_locked, insert_run, insert_step, new_call, hB0, panic]
  · intro t key val
    simp [insert, hB0, panic]
  · intro g key val code msg
    exact insert_run_no_exit B 7 g _ rfl code msg
  · intro t key val code msg h
    unfold insert at h
    simp only [hB0, if_false, Bool.true_eq_false] at h
    exact exits_bind (fun _ _ => False) _ _ (array_read_no_exit _ _)
      (fun a c m h => by cases h) code msg h
  · intro g key val hlen hk hfree
    obtain ⟨chain, _, hins⟩ := insert_succeeds B g.table key val hB hlen hk
    rw [insert_locked_ok B g key val _ hfree hins]

/-- Witness of C11: a failed and a successful allocation for `insert(7, 1)`. -/
theorem insert_alloc_failure_witness :
    insert_locked 5 false (init_globals 5) 7 1 =
      { globals := init_globals 5, actions := [],
        status := .exit 1 "No memory to allocate bucket!" } ∧
    (insert_locked 5 true (init_globals 5) 7 1).status = .ok () :=
  ⟨(insert_alloc_failure 5 (by decide)).1 (init_globals 5) 7 1,
    (insert_alloc_failure 5 (by decide)).2.2.2.2 (init_globals 5) 7 1
      (by decide) (by decide) (by decide)⟩

theorem bucket_index_lt (B : Nat) (key : Int) (hB : 0 < B) (h0 : 0 ≤ bucket_index B key) :
    (bucket_index B key).toNat < B := by
  have h : bucket_index B key < (B : Int) := by
    unfold bucket_index
    exact Int.tmod_lt_of_pos key (by omega)
  omega

theorem getElem?_of_lt {α : Type} (l : List α) (n : Nat) (h : n < l.length) :
    ∃ x, l[n]? = some x := ⟨l[n], List.getElem?_eq_getElem h⟩

theorem getElem?_set_cases {α : Type} (l : List α) (tid b : Nat) (x y : α)
    (h : (l.set tid x)[b]? = some y) :
    (b = tid ∧ y = x) ∨ (b ≠ tid ∧ l[b]? = some y) := by
  by_cases hb : tid = b
  · subst hb
    left
    rw [List.getElem?_set] at h
    simp only [if_true] at h
    split at h
    · simp only [Option.some.injEq] at h
      exact ⟨rfl, h.symm⟩
    · cases h
  · right
    rw [List.getElem?_set_ne hb] at h
    exact ⟨fun h2 => hb h2.symm, h⟩

/-- The invariant after thread `tid` has moved from `c` to `c1`, the shared state from
`s.globals` to `g1` and the log to `log1`, under conditions on what the step changed. -/
theorem conc_inv_update (B : Nat) (t0 : Table) (ops : List (Int × Int)) (s : Conc)
    (log log1 : List Nat) (tid : Nat) (c c1 : Call) (g1 : Globals)
    (hinv : ConcInv B t0 ops s log) (hc : s.calls[tid]? = some c)
    (hargs : c1.key = c.key ∧ c1.val = c.val)
    (hlocal : CallInv B g1 c1)
    (hframe : ∀ (b : Nat) (cb : Call), b ≠ tid → s.calls[b]? = some cb → cb.pc.in_cs = true →
      g1.spinlock[cb.i.toNat]? = s.globals.spinlock[cb.i.toNat]? ∧
      g1.table[cb.i.toNat]? = s.globals.table[cb.i.toNat]?)
    (howner : ∀ j : Nat, g1.spinlock[j]? = some true →
      (c1.pc.in_cs = true ∧ c1.i.toNat = j) ∨
      (s.globals.spinlock[j]? = some true ∧ (c.pc.in_cs = true → c.i.toNat ≠ j)))
    (hexcl : c1.pc.in_cs = true → ∀ (b : Nat) (cb : Call), b ≠ tid → s.calls[b]? = some cb →
      cb.pc.in_cs = true → cb.i ≠ c1.i)
    (htable : insert_seq B t0 (log1.map fun tid => ops.getD tid (0, 0)) = .ok g1.table)
    (hnodup : log1.Nodup)
    (hlog : ∀ b : Nat, b ∈ log1 ↔ (b = tid ∧ c1.pc.committed = true) ∨ (b ≠ tid ∧ b ∈ log)) :
    ConcInv B t0 ops { globals := g1, calls := s.calls.set tid c1 } log1 := by
  have htid : tid < s.calls.length := by
    by_contra h
    rw [List.getElem?_eq_none (by omega)] at hc
    cases hc
  have hself : (s.calls.set tid c1)[tid]? = some c1 := List.getElem?_set_self htid
  have hother : ∀ b : Nat, b ≠ tid → (s.calls.set tid c1)[b]? = s.calls[b]? := fun b hb =>
    List.getElem?_set_ne (fun h => hb h.symm)
  constructor
  · exact htable
  · exact hnodup
  · intro b
    rw [hlog]
    by_cases hb : b = tid
    · subst hb
      simp only [hself, Option.some.injEq, exists_eq_left', true_and, ne_eq, not_true_eq_false,
        false_and, or_false]
    · simp only [hb, false_and, ne_eq, not_false_eq_true, true_and, false_or, hother b hb]
      exact hinv.mem_log b
  · intro b cb hcb
    rcases getElem?_set_cases _ _ _ _ _ hcb with ⟨rfl, rfl⟩ | ⟨_, hold⟩
    · rw [hargs.1, hargs.2]
      exact hinv.args _ c hc
    · exact hinv.args b cb hold
  · simp [hinv.calls_length]
  · intro b cb hcb
    rcases getElem?_set_cases _ _ _ _ _ hcb with ⟨rfl, rfl⟩ | ⟨hb, hold⟩
    · exact hlocal
    · have hl := hinv.local_inv b cb hold
      constructor
      · exact hl.malloc
      · exact hl.index
      · intro hcs
        rw [(hframe b cb hb hold hcs).1]
        exact hl.held hcs
      · intro hn
        have hcs : cb.pc.in_cs = true := by
          cases hpc : cb.pc <;> simp [hpc, Pc.has_next, Pc.in_cs] at hn ⊢
        rw [(hframe b cb hb hold hcs).2]
        exact hl.next_eq hn
      · exact hl.key_eq
      · exact hl.val_eq
  · intro j hj
    rcases howner j hj with ⟨h1, h2⟩ | ⟨h1, h2⟩
    · exact ⟨tid, c1, hself, h1, h2⟩
    · obtain ⟨b, cb, hcb, hcs, hi⟩ := hinv.owner j h1
      have hb : b ≠ tid := by
        rintro rfl
        rw [hc] at hcb
        cases hcb
        exact h2 hcs hi
      exact ⟨b, cb, by rw [hother b hb]; exact hcb, hcs, hi⟩
  · intro a b ca cb hca hcb hcsa hcsb hi
    rcases getElem?_set_cases _ _ _ _ _ hca with ⟨rfl, rfl⟩ | ⟨ha, holda⟩
    · rcases getElem?_set_cases _ _ _ _ _ hcb with ⟨rfl, rfl⟩ | ⟨hb, holdb⟩
      · rfl
      · exact absurd hi.symm (hexcl hcsa b cb hb holdb hcsb)
    · rcases getElem?_set_cases _ _ _ _ _ hcb with ⟨rfl, rfl⟩ | ⟨hb, holdb⟩
      · exact absurd hi (hexcl hcsb a ca ha holda hcsa)
      · exact hinv.exclusive a b ca cb holda holdb hcsa hcsb hi

theorem mem_log_self (B : Nat) (t0 : Table) (ops : List (Int × Int)) (s : Conc)
    (log : List Nat) (tid : Nat) (c : Call) (hinv : ConcInv B t0 ops s log)
    (hc : s.calls[tid]? = some c) : tid ∈ log ↔ c.pc.committed = true := by
  rw [hinv.mem_log]
  constructor
  · rintro ⟨c2, h2, h3⟩
    rw [hc] at h2
    cases h2
    exact h3
  · intro h
    exact ⟨c, hc, h⟩

/-- A step that changes nothing shared and neither enters nor leaves the locked section. -/
theorem conc_inv_local (B : Nat) (t0 : Table) (ops : List (Int × Int)) (s : Conc)
    (log : List Nat) (tid : Nat) (c c1 : Call)
    (hinv : ConcInv B t0 ops s log) (hc : s.calls[tid]? = some c)
    (hargs : c1.key = c.key ∧ c1.val = c.val)
    (hlocal : CallInv B s.globals c1)
    (hcs : c1.pc.in_cs = c.pc.in_cs) (hi : c.pc.in_cs = true → c1.i = c.i)
    (hcm : c1.pc.committed = c.pc.committed) :
    ConcInv B t0 ops { globals := s.globals, calls := s.calls.set tid c1 } log := by
  apply conc_inv_update B t0 ops s log log tid c c1 s.globals hinv hc hargs hlocal
  · intro b cb _ _ _
    exact ⟨rfl, rfl⟩
  · intro j hj
    by_cases h : c.pc.in_cs = true ∧ c.i.toNat = j
    · left
      rw [hcs, hi h.1]
      exact h
    · right
      exact ⟨hj, fun h1 h2 => h ⟨h1, h2⟩⟩
  · intro h1 b cb hb hcb hcsb heq
    rw [hcs] at h1
    rw [hi h1] at heq
    exact hb (hinv.exclusive b tid cb c hcb hc hcsb h1 heq)
  · exact hinv.table_eq
  · exact hinv.log_nodup
  · intro b
    by_cases hb : b = tid
    · subst hb
      rw [mem_log_self B t0 ops s log b c hinv hc, hcm]
      simp
    · simp [hb]

theorem in_bounds_of_getElem? {α : Type} (l : List α) (n : Nat) (x : α) (h : l[n]? = some x) :
    n < l.length := by
  by_contra hc
  rw [List.getElem?_eq_none (by omega)] at h
  cases h

/-- One statement of one thread keeps the invariant. -/
theorem conc_inv_step (B : Nat) (t0 : Table) (ops : List (Int × Int)) (s s1 : Conc)
    (log : List Nat) (tid : Nat) (hinv : ConcInv B t0 ops s log)
    (h : conc_step B s tid = .ok s1) : ∃ log1, ConcInv B t0 ops s1 log1 := by
  unfold conc_step at h
  split at h
  next c hc =>
    obtain ⟨r, hr, hs1⟩ := (bind_eq_ok _ _ _).mp h
    simp only [Outcome.ok.injEq] at hs1
    subst hs1
    have hl := hinv.local_inv tid c hc
    unfold insert_step at hr
    split at hr
    next hpc =>
      -- `i = key % NUM_BUCKETS`, `malloc`
      split at hr
      · cases hr
      next hB =>
        simp only [hl.malloc, Bool.true_eq_false, if_false, Outcome.ok.injEq] at hr
        subst hr
        refine ⟨log, conc_inv_local B t0 ops s log tid c _ hinv hc ⟨rfl, rfl⟩ ?_ ?_ ?_ ?_⟩
        · constructor
          · rfl
          · intro _; exact ⟨hB, rfl⟩
          · intro h1; simp [Pc.in_cs] at h1
          · intro h1; simp [Pc.has_next] at h1
          · intro h1; simp at h1
          · intro h1; simp at h1
        · simp [Pc.in_cs, hpc]
        · intro h1; simp [Pc.in_cs, hpc] at h1
        · simp [Pc.committed, hpc]
    next hpc =>
      -- `pthread_spin_lock(&spinlock[i])`
      obtain ⟨held, hread, hr2⟩ := (bind_eq_ok _ _ _).mp hr
      obtain ⟨h0, hget⟩ := (array_read_eq_ok _ _ _).mp hread
      have hlt := in_bounds_of_getElem? _ _ _ hget
      split at hr2
      next hheld =>
        -- the lock is held: the thread polls again
        simp only [Outcome.ok.injEq] at hr2
        subst hr2
        exact ⟨log, conc_inv_local B t0 ops s log tid c c hinv hc ⟨rfl, rfl⟩ hl rfl
          (fun _ => rfl) rfl⟩
      next hheld =>
        -- the lock is free: the thread takes it
        have hfalse : held = false := by cases held <;> simp at hheld ⊢
        subst hfalse
        simp only [Outcome.ok.injEq] at hr2
        subst hr2
        have hnone : ∀ (b : Nat) (cb : Call), s.calls[b]? = some cb → cb.pc.in_cs = true →
            cb.i.toNat ≠ c.i.toNat := by
          intro b cb hcb hcsb heq
          have := ((hinv.local_inv b cb hcb).held hcsb).2
          rw [heq, hget] at this
          cases this
        refine ⟨log, conc_inv_update B t0 ops s log log tid c _ _ hinv hc ⟨rfl, rfl⟩
          ?_ ?_ ?_ ?_ hinv.table_eq hinv.log_nodup ?_⟩
        · constructor
          · exact hl.malloc
          · intro _; exact hl.index (by rw [hpc]; simp)
          · intro _; exact ⟨h0, List.getElem?_set_self hlt⟩
          · intro h1; simp [Pc.has_next] at h1
          · intro h1; simp at h1
          · intro h1; simp at h1
        · intro b cb _ hcb hcsb
          exact ⟨List.getElem?_set_ne (Ne.symm (hnone b cb hcb hcsb)), rfl⟩
        · intro j hj
          by_cases hji : c.i.toNat = j
          · left
            exact ⟨by simp [Pc.in_cs], hji⟩
          · right
            simp only [List.getElem?_set_ne hji] at hj
            exact ⟨hj, fun h1 => by simp [Pc.in_cs, hpc] at h1⟩
        · intro _ b cb _ hcb hcsb heq
          apply hnone b cb hcb hcsb
          simp only at heq
          rw [heq]
        · intro b
          by_cases hb : b = tid
          · subst hb
            rw [mem_log_self B t0 ops s log b c hinv hc]
            simp [Pc.committed, hpc]
          · simp [hb]
    next hpc =>
      -- `e->next = table[i]`
      obtain ⟨head, hread, hr2⟩ := (bind_eq_ok _ _ _).mp hr
      obtain ⟨_, hget⟩ := (array_read_eq_ok _ _ _).mp hread
      simp only [Outcome.ok.injEq] at hr2
      subst hr2
      have hcs : c.pc.in_cs = true := by simp [Pc.in_cs, hpc]
      refine ⟨log, conc_inv_local B t0 ops s log tid c _ hinv hc ⟨rfl, rfl⟩ ?_ ?_ ?_ ?_⟩
      · constructor
        · exact hl.malloc
        · intro _; exact hl.index (by rw [hpc]; simp)
        · intro _; exact hl.held hcs
        · intro _; exact hget
        · intro h1; simp at h1
        · intro h1; simp at h1
      · simp [Pc.in_cs, hpc]
      · intro _; rfl
      · simp [Pc.committed, hpc]
    next hpc =>
      -- `e->key = key`
      simp only [Outcome.ok.injEq] at hr
      subst hr
      have hcs : c.pc.in_cs = true := by simp [Pc.in_cs, hpc]
      refine ⟨log, conc_inv_local B t0 ops s log tid c _ hinv hc ⟨rfl, rfl⟩ ?_ ?_ ?_ ?_⟩
      · constructor
        · exact hl.malloc
        · intro _; exact hl.index (by rw [hpc]; simp)
        · intro _; exact hl.held hcs
        · intro _; exact hl.next_eq (by simp [Pc.has_next, hpc])
        · intro _; rfl
        · intro h1; simp at h1
      · simp [Pc.in_cs, hpc]
      · intro _; rfl
      · simp [Pc.committed, hpc]
    next hpc =>
      -- `e->val = val`
      simp only [Outcome.ok.injEq] at hr
      subst hr
      have hcs : c.pc.in_cs = true := by simp [Pc.in_cs, hpc]
      refine ⟨log, conc_inv_local B t0 ops s log tid c _ hinv hc ⟨rfl, rfl⟩ ?_ ?_ ?_ ?_⟩
      · constructor
        · exact hl.malloc
        · intro _; exact hl.index (by rw [hpc]; simp)
        · intro _; exact hl.held hcs
        · intro _; exact hl.next_eq (by simp [Pc.has_next, hpc])
        · intro _; exact hl.key_eq (Or.inl hpc)
        · intro _; rfl
      · simp [Pc.in_cs, hpc]
      · intro _; rfl
      · simp [Pc.committed, hpc]
    next hpc =>
      -- `table[i] = e`
      obtain ⟨x, hread, hr2⟩ := (bind_eq_ok _ _ _).mp hr
      simp only [Outcome.ok.injEq] at hr2
      subst hr2
      have hcs : c.pc.in_cs = true := by simp [Pc.in_cs, hpc]
      obtain ⟨h0, hheld⟩ := hl.held hcs
      obtain ⟨hB, hidx⟩ := hl.index (by rw [hpc]; simp)
      have hnext := hl.next_eq (by simp [Pc.has_next, hpc])
      have hkey := hl.key_eq (Or.inr hpc)
      have hval := hl.val_eq hpc
      have hnotin : tid ∉ log := by
        rw [mem_log_self B t0 ops s log tid c hinv hc]
        simp [Pc.committed, hpc]
      have hop : ops.getD tid (0, 0) = (c.key, c.val) := by
        rw [List.getD_eq_getElem?_getD, hinv.args tid c hc]
        rfl
      refine ⟨log ++ [tid], conc_inv_update B t0 ops s log _ tid c _ _ hinv hc ⟨rfl, rfl⟩
        ?_ ?_ ?_ ?_ ?_ ?_ ?_⟩
      · constructor
        · exact hl.malloc
        · intro _; exact ⟨hB, hidx⟩
        · intro _; exact ⟨h0, hheld⟩
        · intro h1; simp [Pc.has_next] at h1
        · intro h1; simp at h1
        · intro h1; simp at h1
      · intro b cb hb hcb hcsb
        refine ⟨rfl, ?_⟩
        have hne : c.i.toNat ≠ cb.i.toNat := by
          intro heq
          have h0b := ((hinv.local_inv b cb hcb).held hcsb).1
          have : cb.i = c.i := by omega
          exact hb (hinv.exclusive b tid cb c hcb hc hcsb hcs this)
        exact List.getElem?_set_ne hne
      · intro j hj
        by_cases hji : c.i.toNat = j
        · left
          exact ⟨by simp [Pc.in_cs], hji⟩
        · right
          exact ⟨hj, fun _ => hji⟩
      · intro _ b cb hb hcb hcsb heq
        exact hb (hinv.exclusive b tid cb c hcb hc hcsb hcs heq)
      · rw [List.map_append, insert_seq_append, hinv.table_eq]
        simp only [Outcome.bind, List.map_cons, List.map_nil, insert_seq, hop]
        rw [(insert_eq_ok B true s.globals.table _ c.key c.val).mpr
          ⟨hB, rfl, by rw [← hidx]; exact h0, c.e_next, by rw [← hidx]; exact hnext, rfl⟩]
        simp only [Outcome.ok.injEq, hidx, hkey, hval]
      · rw [List.nodup_append]
        refine ⟨hinv.log_nodup, List.nodup_singleton _, ?_⟩
        intro a ha hb
        rw [List.mem_singleton] at hb
        subst hb
        exact hnotin ha
      · intro b
        rw [List.mem_append, List.mem_singleton]
        by_cases hb : b = tid
        · subst hb
          simp [Pc.committed]
        · simp [hb]
    next hpc =>
      -- `pthread_spin_unlock(&spinlock[i])`
      obtain ⟨x, hread, hr2⟩ := (bind_eq_ok _ _ _).mp hr
      obtain ⟨h0, hget⟩ := (array_read_eq_ok _ _ _).mp hread
      have hlt := in_bounds_of_getElem? _ _ _ hget
      simp only [Outcome.ok.injEq] at hr2
      subst hr2
      have hcs : c.pc.in_cs = true := by simp [Pc.in_cs, hpc]
      refine ⟨log, conc_inv_update B t0 ops s log log tid c _ _ hinv hc ⟨rfl, rfl⟩
        ?_ ?_ ?_ ?_ hinv.table_eq hinv.log_nodup ?_⟩
      · constructor
        · exact hl.malloc
        · intro _; exact hl.index (by rw [hpc]; simp)
        · intro h1; simp [Pc.in_cs] at h1
        · intro h1; simp [Pc.has_next] at h1
        · intro h1; simp at h1
        · intro h1; simp at h1
      · intro b cb hb hcb hcsb
        refine ⟨?_, rfl⟩
        have hne : c.i.toNat ≠ cb.i.toNat := by
          intro heq
          have h0b := ((hinv.local_inv b cb hcb).held hcsb).1
          have : cb.i = c.i := by omega
          exact hb (hinv.exclusive b tid cb c hcb hc hcsb hcs this)
        exact List.getElem?_set_ne hne
      · intro j hj
        right
        by_cases hji : c.i.toNat = j
        · subst hji
          simp only [List.getElem?_set_self hlt] at hj
          cases hj
        · simp only [List.getElem?_set_ne hji] at hj
          exact ⟨hj, fun _ => hji⟩
      · intro h1
        simp [Pc.in_cs] at h1
      · intro b
        by_cases hb : b = tid
        · subst hb
          rw [mem_log_self B t0 ops s log b c hinv hc]
          simp [Pc.committed, hpc]
        · simp [hb]
    next hpc =>
      -- the call has returned
      simp only [Outcome.ok.injEq] at hr
      subst hr
      exact ⟨log, conc_inv_local B t0 ops s log tid c c hinv hc ⟨rfl, rfl⟩ hl rfl
        (fun _ => rfl) rfl⟩
  next =>
    simp only [Outcome.ok.injEq] at h
    subst h
    exact ⟨log, hinv⟩

theorem conc_inv_run (B : Nat) (t0 : Table) (ops : List (Int × Int)) (sched : List Nat) :
    ∀ (s s1 : Conc) (log : List Nat) (st : Outcome Unit), ConcInv B t0 ops s log →
      conc_run B s sched = (s1, st) → ∃ log1, ConcInv B t0 ops s1 log1 := by
  induction sched with
  | nil =>
    intro s s1 log st hinv h
    simp only [conc_run, Prod.mk.injEq] at h
    rw [← h.1]
    exact ⟨log, hinv⟩
  | cons tid rest ih =>
    intro s s1 log st hinv h
    simp only [conc_run] at h
    split at h
    next s2 hstep =>
      obtain ⟨log2, hinv2⟩ := conc_inv_step B t0 ops s s2 log tid hinv hstep
      exact ih s2 s1 log2 st hinv2 h
    all_goals
      simp only [Prod.mk.injEq] at h
      rw [← h.1]
      exact ⟨log, hinv⟩

theorem start_calls_getElem? (ops : List (Int × Int)) (tid : Nat) (c : Call)
    (h : (start_calls ops)[tid]? = some c) :
    ∃ op, ops[tid]? = some op ∧ c = new_call op.1 op.2 true := by
  unfold start_calls at h
  rw [List.getElem?_map] at h
  cases hop : ops[tid]? with
  | none => rw [hop] at h; cases h
  | some op =>
    rw [hop] at h
    simp only [Option.map_some', Option.some.injEq] at h
    exact ⟨op, rfl, h.symm⟩

theorem conc_inv_init (B : Nat) (g0 : Globals) (ops : List (Int × Int))
    (hfree : ∀ b ∈ g0.spinlock, b = false) :
    ConcInv B g0.table ops { globals := g0, calls := start_calls ops } [] := by
  have hstart : ∀ (tid : Nat) (c : Call), (start_calls ops)[tid]? = some c → c.pc = .start := by
    intro tid c h
    obtain ⟨op, _, rfl⟩ := start_calls_getElem? ops tid c h
    rfl
  constructor
  · rfl
  · exact List.nodup_nil
  · intro tid
    simp only [List.not_mem_nil, false_iff, not_exists, not_and]
    intro c hc
    rw [hstart tid c hc]
    simp [Pc.committed]
  · intro tid c hc
    obtain ⟨op, hop, rfl⟩ := start_calls_getElem? ops tid c hc
    exact hop
  · simp [start_calls]
  · intro tid c hc
    obtain ⟨op, hop, rfl⟩ := start_calls_getElem? ops tid c hc
    constructor
    · rfl
    · intro h; exact absurd rfl h
    · intro h; simp [new_call, Pc.in_cs] at h
    · intro h; simp [new_call, Pc.has_next] at h
    · intro h; simp [new_call] at h
    · intro h; simp [new_call] at h
  · intro j hj
    have := hfree true (List.getElem?_mem hj)
    cases this
  · intro a b ca cb hca _ hcsa _ _
    rw [hstart a ca hca] at hcsa
    simp [Pc.in_cs] at hcsa

/-- The entry a pair `(key, val)` becomes. -/
theorem bucket_log_same (B i : Nat) (ops : List (Int × Int))
    (h : ∀ op ∈ ops, bucket_index B op.1 = (i : Int)) :
    bucket_log B i ops =
      (ops.map fun op => ({ key := op.1, val := op.2 } : bucket_entry)).reverse := by
  unfold bucket_log
  rw [List.filter_eq_self.mpr]
  intro op hop
  simp [h op hop]

theorem bucket_log_other (B i j : Nat) (ops : List (Int × Int))
    (h : ∀ op ∈ ops, bucket_index B op.1 = (i : Int)) (hj : j ≠ i) :
    bucket_log B j ops = [] := by
  unfold bucket_log
  rw [List.filter_eq_nil_iff.mpr]
  · rfl
  · intro op hop
    simp only [decide_eq_true_eq, h op hop]
    omega

/-! ## Progress of concurrent calls of `insert` (C14) -/

/-- A statement of a call whose accesses are within the arrays is defined: it either leaves
one statement less to execute, or polls a held lock, or the call has returned. -/
theorem insert_step_defined (B : Nat) (g : Globals) (c : Call)
    (hB : 0 < B) (hm : c.malloc_ok = true)
    (hi : c.pc ≠ .start → c.i = bucket_index B c.key)
    (h0 : 0 ≤ bucket_index B c.key)
    (hlenT : g.table.length = B) (hlenS : g.spinlock.length = B) :
    ∃ r, insert_step B g c = .ok r ∧
      (r.2.1.pc.remaining + 1 = c.pc.remaining ∨
        (r = (g, c, .spin c.i) ∧ c.pc = .allocated ∧ g.spinlock[c.i.toNat]? = some true) ∨
        (r = (g, c, .idle) ∧ c.pc = .returned)) := by
  have hB0 : B ≠ 0 := by omega
  have hlt := bucket_index_lt B c.key hB h0
  cases hpc : c.pc with
  | start =>
    simp only [insert_step, hpc, hB0, if_false, hm, Bool.true_eq_false]
    exact ⟨_, rfl, Or.inl rfl⟩
  | allocated =>
    have hci := hi (by rw [hpc]; simp)
    obtain ⟨held, hheld⟩ := getElem?_of_lt g.spinlock c.i.toNat (by rw [hci]; omega)
    have hread := array_read_of_getElem? _ _ _ (by rw [hci]; exact h0) hheld
    simp only [insert_step, hpc, hread, Outcome.bind]
    cases held with
    | true => exact ⟨_, rfl, Or.inr (Or.inl ⟨rfl, trivial, hheld⟩)⟩
    | false => exact ⟨_, rfl, Or.inl rfl⟩
  | locked =>
    have hci := hi (by rw [hpc]; simp)
    obtain ⟨head, hhead⟩ := getElem?_of_lt g.table c.i.toNat (by rw [hci]; omega)
    have hread := array_read_of_getElem? _ _ _ (by rw [hci]; exact h0) hhead
    simp only [insert_step, hpc, hread, Outcome.bind]
    exact ⟨_, rfl, Or.inl rfl⟩
  | linked =>
    simp only [insert_step, hpc]
    exact ⟨_, rfl, Or.inl rfl⟩
  | keyed =>
    simp only [insert_step, hpc]
    exact ⟨_, rfl, Or.inl rfl⟩
  | valued =>
    have hci := hi (by rw [hpc]; simp)
    obtain ⟨head, hhead⟩ := getElem?_of_lt g.table c.i.toNat (by rw [hci]; omega)
    have hread := array_read_of_getElem? _ _ _ (by rw [hci]; exact h0) hhead
    simp only [insert_step, hpc, hread, Outcome.bind]
    exact ⟨_, rfl, Or.inl rfl⟩
  | stored =>
    have hci := hi (by rw [hpc]; simp)
    obtain ⟨held, hheld⟩ := getElem?_of_lt g.spinlock c.i.toNat (by rw [hci]; omega)
    have hread := array_read_of_getElem? _ _ _ (by rw [hci]; exact h0) hheld
    simp only [insert_step, hpc, hread, Outcome.bind]
    exact ⟨_, rfl, Or.inl rfl⟩
  | returned =>
    simp only [insert_step, hpc]
    exact ⟨_, rfl, Or.inr (Or.inr ⟨rfl, trivial⟩)⟩

theorem insert_step_lengths (B : Nat) (g : Globals) (c : Call) (r : Globals × Call × Action)
    (h : insert_step B g c = .ok r) :
    r.1.table.length = g.table.length ∧ r.1.spinlock.length = g.spinlock.length := by
  unfold insert_step at h
  split at h
  · split at h
    · cases h
    · split at h
      · cases h
      · cases h; exact ⟨rfl, rfl⟩
  · obtain ⟨held, _, h2⟩ := (bind_eq_ok _ _ _).mp h
    split at h2 <;> (cases h2; simp)
  · obtain ⟨x, _, h2⟩ := (bind_eq_ok _ _ _).mp h
    cases h2; exact ⟨rfl, rfl⟩
  · cases h; exact ⟨rfl, rfl⟩
  · cases h; exact ⟨rfl, rfl⟩
  · obtain ⟨x, _, h2⟩ := (bind_eq_ok _ _ _).mp h
    cases h2; simp
  · obtain ⟨x, _, h2⟩ := (bind_eq_ok _ _ _).mp h
    cases h2; simp
  · cases h; exact ⟨rfl, rfl⟩

theorem sum_map_set {α : Type} (f : α → Nat) (l : List α) :
    ∀ (n : Nat) (x y : α), l[n]? = some x →
      ((l.set n y).map f).sum + f x = (l.map f).sum + f y := by
  induction l with
  | nil => intro n x y h; simp at h
  | cons a l ih =>
    intro n x y h
    cases n with
    | zero =>
      simp only [List.getElem?_cons_zero, Option.some.injEq] at h
      subst h
      simp only [List.set_cons_zero, List.map_cons, List.sum_cons]
      omega
    | succ n =>
      simp only [List.getElem?_cons_succ] at h
      have := ih n x y h
      simp only [List.set_cons_succ, List.map_cons, List.sum_cons]
      omega

/-- The well-formedness of the arrays and keys is kept by every statement. -/
theorem conc_wf_step (B : Nat) (s s1 : Conc) (tid : Nat) (hwf : ConcWf B s)
    (h : conc_step B s tid = .ok s1) : ConcWf B s1 := by
  unfold conc_step at h
  split at h
  next c hc =>
    obtain ⟨r, hr, hs1⟩ := (bind_eq_ok _ _ _).mp h
    simp only [Outcome.ok.injEq] at hs1
    subst hs1
    obtain ⟨h1, h2⟩ := insert_step_lengths B s.globals c r hr
    refine ⟨hwf.buckets, h1.trans hwf.table_length, h2.trans hwf.spinlock_length, ?_⟩
    intro c1 hc1
    obtain ⟨b, hb⟩ := List.getElem?_of_mem hc1
    rcases getElem?_set_cases _ _ _ _ _ hb with ⟨_, rfl⟩ | ⟨_, hold⟩
    · rw [(insert_step_args B s.globals c r hr).1]
      exact hwf.keys c (List.getElem?_mem hc)
    · exact hwf.keys c1 (List.getElem?_mem hold)
  next =>
    simp only [Outcome.ok.injEq] at h
    subst h
    exact hwf

/-- Every statement of every thread is defined in a state reached by the calls. -/
theorem conc_step_defined (B : Nat) (t0 : Table) (ops : List (Int × Int)) (s : Conc)
    (log : List Nat) (tid : Nat) (hinv : ConcInv B t0 ops s log) (hwf : ConcWf B s) :
    ∃ s1, conc_step B s tid = .ok s1 := by
  unfold conc_step
  cases hc : s.calls[tid]? with
  | none => exact ⟨s, rfl⟩
  | some c =>
    have hl := hinv.local_inv tid c hc
    obtain ⟨r, hr, _⟩ := insert_step_defined B s.globals c hwf.buckets hl.malloc
      (fun h => (hl.index h).2) (hwf.keys c (List.getElem?_mem hc))
      hwf.table_length hwf.spinlock_length
    exact ⟨{ globals := r.1, calls := s.calls.set tid r.2.1 }, by simp only [hr, Outcome.bind]⟩

/-- While a call has not returned, some thread can execute a statement: a call inside the
locked section never waits, and when no call is inside one every lock is free. -/
theorem conc_step_enabled (B : Nat) (t0 : Table) (ops : List (Int × Int)) (s : Conc)
    (log : List Nat) (hinv : ConcInv B t0 ops s log) (hwf : ConcWf B s)
    (hnot : all_returned s = false) :
    ∃ (tid : Nat) (s1 : Conc), conc_step B s tid = .ok s1 ∧
      remaining_total s1 + 1 = remaining_total s := by
  have hmove : ∀ (tid : Nat) (c : Call), s.calls[tid]? = some c → c.pc ≠ .returned →
      (c.pc = .allocated → s.globals.spinlock[c.i.toNat]? ≠ some true) →
      ∃ s1 : Conc, conc_step B s tid = .ok s1 ∧
        remaining_total s1 + 1 = remaining_total s := by
    intro tid c hc hret hfree
    have hl := hinv.local_inv tid c hc
    obtain ⟨r, hr, hcase⟩ := insert_step_defined B s.globals c hwf.buckets hl.malloc
      (fun h => (hl.index h).2) (hwf.keys c (List.getElem?_mem hc))
      hwf.table_length hwf.spinlock_length
    refine ⟨{ globals := r.1, calls := s.calls.set tid r.2.1 }, ?_, ?_⟩
    · unfold conc_step
      simp only [hc, hr, Outcome.bind]
    · rcases hcase with h | ⟨_, hpc, hheld⟩ | ⟨_, hpc⟩
      · have := sum_map_set (fun c => c.pc.remaining) s.calls tid c r.2.1 hc
        simp only [remaining_total] at this ⊢
        omega
      · exact absurd hheld (hfree hpc)
      · exact absurd hpc hret
  by_cases hcs : ∃ (tid : Nat) (c : Call), s.calls[tid]? = some c ∧ c.pc.in_cs = true
  · obtain ⟨tid, c, hc, hin⟩ := hcs
    obtain ⟨s1, h1, h2⟩ := hmove tid c hc
      (by intro h; rw [h] at hin; simp [Pc.in_cs] at hin)
      (by intro h; rw [h] at hin; simp [Pc.in_cs] at hin)
    exact ⟨tid, s1, h1, h2⟩
  · have hsome : ∃ c ∈ s.calls, c.pc ≠ .returned := by
      unfold all_returned at hnot
      by_contra hall
      have : s.calls.all (fun c => decide (c.pc = .returned)) = true := by
        rw [List.all_eq_true]
        intro c hc
        by_contra hne
        exact hall ⟨c, hc, by simpa using hne⟩
      rw [this] at hnot
      cases hnot
    obtain ⟨c, hmem, hret⟩ := hsome
    obtain ⟨tid, hc⟩ := List.getElem?_of_mem hmem
    obtain ⟨s1, h1, h2⟩ := hmove tid c hc hret (by
      intro _ hheld
      obtain ⟨b, cb, hcb, hin, _⟩ := hinv.owner _ hheld
      exact hcs ⟨b, cb, hcb, hin⟩)
    exact ⟨tid, s1, h1, h2⟩

theorem conc_run_append (B : Nat) (sched more : List Nat) :
    ∀ (s s1 : Conc), conc_run B s sched = (s1, .ok ()) →
      conc_run B s (sched ++ more) = conc_run B s1 more := by
  induction sched with
  | nil =>
    intro s s1 h
    simp only [conc_run, Prod.mk.injEq] at h
    rw [← h.1]
    rfl
  | cons tid rest ih =>
    intro s s1 h
    simp only [conc_run, List.cons_append] at h ⊢
    split at h
    next s2 hstep => exact ih s2 s1 h
    all_goals
      simp only [Prod.mk.injEq] at h
      cases h.2

/-- Every schedule of the threads is defined, and keeps the invariant. -/
theorem conc_run_defined (B : Nat) (t0 : Table) (ops : List (Int × Int)) (sched : List Nat) :
    ∀ (s : Conc) (log : List Nat), ConcInv B t0 ops s log → ConcWf B s →
      ∃ (s1 : Conc) (log1 : List Nat), conc_run B s sched = (s1, .ok ()) ∧
        ConcInv B t0 ops s1 log1 ∧ ConcWf B s1 := by
  induction sched with
  | nil =>
    intro s log hinv hwf
    exact ⟨s, log, rfl, hinv, hwf⟩
  | cons tid rest ih =>
    intro s log hinv hwf
    obtain ⟨s2, hstep⟩ := conc_step_defined B t0 ops s log tid hinv hwf
    obtain ⟨log2, hinv2⟩ := conc_inv_step B t0 ops s s2 log tid hinv hstep
    obtain ⟨s1, log1, hrun, hinv1, hwf1⟩ := ih s2 log2 hinv2 (conc_wf_step B s s2 tid hwf hstep)
    exact ⟨s1, log1, by simp only [conc_run, hstep]; exact hrun, hinv1, hwf1⟩

/-- From every state reached by the calls, some continuation of the schedule lets every call
return, in as many statements as are left to execute. -/
theorem conc_completes (B : Nat) (t0 : Table) (ops : List (Int × Int)) :
    ∀ (n : Nat) (s : Conc) (log : List Nat), ConcInv B t0 ops s log → ConcWf B s →
      remaining_total s = n →
      ∃ (more : List Nat) (s1 : Conc), conc_run B s more = (s1, .ok ()) ∧
        all_returned s1 = true ∧ more.length ≤ n := by
  intro n
  induction n with
  | zero =>
    intro s log hinv hwf hn
    cases hall : all_returned s with
    | true => exact ⟨[], s, rfl, hall, Nat.le_refl _⟩
    | false =>
      obtain ⟨tid, s1, _, h2⟩ := conc_step_enabled B t0 ops s log hinv hwf hall
      omega
  | succ n ih =>
    intro s log hinv hwf hn
    cases hall : all_returned s with
    | true => exact ⟨[], s, rfl, hall, Nat.zero_le _⟩
    | false =>
      obtain ⟨tid, s2, hstep, h2⟩ := conc_step_enabled B t0 ops s log hinv hwf hall
      obtain ⟨log2, hinv2⟩ := conc_inv_step B t0 ops s s2 log tid hinv hstep
      obtain ⟨more, s1, hrun, hdone, hlen⟩ := ih s2 log2 hinv2
        (conc_wf_step B s s2 tid hwf hstep) (by omega)
      exact ⟨tid :: more, s1, by simp only [conc_run, hstep]; exact hrun, hdone,
        by simp only [List.length_cons]; omega⟩

theorem conc_wf_init (B : Nat) (g0 : Globals) (ops : List (Int × Int))
    (hB : 0 < B) (hlenT : g0.table.length = B) (hlenS : g0.spinlock.length = B)
    (hkeys : ∀ op ∈ ops, 0 ≤ bucket_index B op.1) :
    ConcWf B { globals := g0, calls := start_calls ops } := by
  refine ⟨hB, hlenT, hlenS, ?_⟩
  intro c hc
  obtain ⟨tid, htid⟩ := List.getElem?_of_mem hc
  obtain ⟨op, hop, rfl⟩ := start_calls_getElem? ops tid c htid
  exact hkeys op (List.getElem?_mem hop)

/-- Progress: every schedule of the calls is defined, and from the state it reaches some
continuation, of at most as many statements as are left to execute, lets every call return. -/
theorem conc_progress (B : Nat) (g0 : Globals) (ops : List (Int × Int))
    (hfree : ∀ b ∈ g0.spinlock, b = false)
    (hB : 0 < B) (hlenT : g0.table.length = B) (hlenS : g0.spinlock.length = B)
    (hkeys : ∀ op ∈ ops, 0 ≤ bucket_index B op.1) (sched : List Nat) :
    ∃ (s : Conc) (more : List Nat) (s1 : Conc),
      conc_run B { globals := g0, calls := start_calls ops } sched = (s, .ok ()) ∧
      more.length ≤ remaining_total s ∧
      conc_run B { globals := g0, calls := start_calls ops } (sched ++ more) = (s1, .ok ()) ∧
      all_returned s1 = true := by
  obtain ⟨s, log, hrun, hinv, hwf⟩ := conc_run_defined B g0.table ops sched _ []
    (conc_inv_init B g0 ops hfree) (conc_wf_init B g0 ops hB hlenT hlenS hkeys)
  obtain ⟨more, s1, hmore, hdone, hlen⟩ := conc_completes B g0.table ops _ s log hinv hwf rfl
  refine ⟨s, more, s1, hrun, hlen, ?_, hdone⟩
  rw [conc_run_append B sched more _ s hrun]
  exact hmore

/-- Result: when all calls have returned, all locks are free and the table is the one a
sequential execution of the same inserts in some order gives. -/
theorem conc_result (B : Nat) (g0 : Globals) (ops : List (Int × Int))
    (hfree : ∀ b ∈ g0.spinlock, b = false) (sched : List Nat) (s : Conc)
    (hrun : conc_run B { globals := g0, calls := start_calls ops } sched = (s, .ok ()))
    (hdone : all_returned s = true) :
    (∀ b ∈ s.globals.spinlock, b = false) ∧
    ∃ order : List (Int × Int), order.Perm ops ∧
      insert_seq B g0.table order = .ok s.globals.table ∧
      ∀ i : Nat, (∀ op ∈ ops, bucket_index B op.1 = (i : Int)) →
        (∀ j : Nat, j ≠ i → s.globals.table[j]? = g0.table[j]?) ∧
        ∃ fresh : Chain,
          fresh.Perm (ops.map fun op => ({ key := op.1, val := op.2 } : bucket_entry)) ∧
          fresh.length = ops.length ∧
          ∀ old : Chain, g0.table[i]? = some old →
            s.globals.table[i]? = some (fresh ++ old) := by
  obtain ⟨log, hinv⟩ := conc_inv_run B g0.table ops sched _ s [] _
    (conc_inv_init B g0 ops hfree) hrun
  have hret : ∀ (tid : Nat) (c : Call), s.calls[tid]? = some c → c.pc = .returned := by
    intro tid c hc
    unfold all_returned at hdone
    rw [List.all_eq_true] at hdone
    simpa using hdone c (List.getElem?_mem hc)
  have hmem : ∀ tid : Nat, tid ∈ log ↔ tid < ops.length := by
    intro tid
    rw [hinv.mem_log, ← hinv.calls_length]
    constructor
    · rintro ⟨c, hc, _⟩
      exact in_bounds_of_getElem? _ _ _ hc
    · intro hlt
      refine ⟨s.calls[tid], List.getElem?_eq_getElem hlt, ?_⟩
      rw [hret tid _ (List.getElem?_eq_getElem hlt)]
      rfl
  have hperm : log.Perm (List.range ops.length) := by
    rw [List.perm_ext_iff_of_nodup hinv.log_nodup (List.nodup_range _)]
    intro tid
    rw [hmem, List.mem_range]
  have hrange : (List.range ops.length).map (fun tid => ops.getD tid (0, 0)) = ops := by
    apply List.ext_getElem
    · simp
    · intro n h1 h2
      simp [List.getD_eq_getElem?_getD, List.getElem?_eq_getElem h2]
  have horder : (log.map fun tid => ops.getD tid (0, 0)).Perm ops := by
    have := hperm.map (fun tid => ops.getD tid (0, 0))
    rw [hrange] at this
    exact this
  constructor
  · intro b hb
    cases b with
    | false => rfl
    | true =>
      obtain ⟨j, hj⟩ := List.getElem?_of_mem hb
      obtain ⟨tid, c, hc, hcs, _⟩ := hinv.owner j hj
      rw [hret tid c hc] at hcs
      simp [Pc.in_cs] at hcs
  · refine ⟨_, horder, hinv.table_eq, ?_⟩
    intro i hsame
    have hsame2 : ∀ op ∈ log.map (fun tid => ops.getD tid (0, 0)),
        bucket_index B op.1 = (i : Int) := fun op hop => hsame op (horder.mem_iff.mp hop)
    have hchain := insert_seq_chain B _ _ _ hinv.table_eq
    constructor
    · intro j hj
      rw [hchain j, bucket_log_other B i j _ hsame2 hj]
      cases g0.table[j]? <;> simp
    · refine ⟨bucket_log B i (log.map fun tid => ops.getD tid (0, 0)), ?_, ?_, ?_⟩
      · rw [bucket_log_same B i _ hsame2]
        exact (List.reverse_perm _).trans (horder.map _)
      · rw [bucket_log_same B i _ hsame2, List.length_reverse, List.length_map,
          horder.length_eq]
      · intro old hold
        rw [hchain i, hold]
        rfl

/-- C14: calls `insert(key, val)` for the pairs of `ops`, one thread each, run statement by
statement under any schedule from a state with all locks free. First, when the arrays have
`B > 0` elements and the bucket index of every key is within them (as when all calls target
one bucket), every schedule is defined, and from the state it reaches some continuation, of
at most as many statements as are left to execute, lets every call return: a lock that is
held is released, and a free lock is granted. Second, when all calls have returned, all locks
are free again and the table is the one that the same inserts give when executed one after
the other in some order; so when all keys have bucket index `i`, every other bucket is
unchanged and the chain of bucket `i` is its old chain behind exactly one new entry per call:
the new part is a rearrangement of the inserted pairs, of length the number of calls. Third,
both together: `M` calls that target one bucket `i < B`, interleaved in any way so far, can
be run to the return of all, and the chain of bucket `i` is then its old chain behind `M` new
entries, one per inserted pair, every other bucket being unchanged. -/
theorem per_bucket_serializable (B : Nat) (g0 : Globals) (ops : List (Int × Int))
    (hfree : ∀ b ∈ g0.spinlock, b = false) :
    (0 < B → g0.table.length = B → g0.spinlock.length = B →
      (∀ op ∈ ops, 0 ≤ bucket_index B op.1) →
      ∀ sched : List Nat, ∃ (s : Conc) (more : List Nat) (s1 : Conc),
        conc_run B { globals := g0, calls := start_calls ops } sched = (s, .ok ()) ∧
        more.length ≤ remaining_total s ∧
        conc_run B { globals := g0, calls := start_calls ops } (sched ++ more) = (s1, .ok ()) ∧
        all_returned s1 = true) ∧
    (∀ (sched : List Nat) (s : Conc),
      conc_run B { globals := g0, calls := start_calls ops } sched = (s, .ok ()) →
      all_returned s = true →
      (∀ b ∈ s.globals.spinlock, b = false) ∧
      ∃ order : List (Int × Int), order.Perm ops ∧
        insert_seq B g0.table order = .ok s.globals.table ∧
        ∀ i : Nat, (∀ op ∈ ops, bucket_index B op.1 = (i : Int)) →
          (∀ j : Nat, j ≠ i → s.globals.table[j]? = g0.table[j]?) ∧
          ∃ fresh : Chain,
            fresh.Perm (ops.map fun op => ({ key := op.1, val := op.2 } : bucket_entry)) ∧
            fresh.length = ops.length ∧
            ∀ old : Chain, g0.table[i]? = some old →
              s.globals.table[i]? = some (fresh ++ old)) ∧
    (∀ i : Nat, i < B → g0.table.length = B → g0.spinlock.length = B →
      (∀ op ∈ ops, bucket_index B op.1 = (i : Int)) →
      ∀ sched : List Nat, ∃ (more : List Nat) (s1 : Conc) (fresh : Chain),
        conc_run B { globals := g0, calls := start_calls ops } (sched ++ more) = (s1, .ok ()) ∧
        all_returned s1 = true ∧
        fresh.Perm (ops.map fun op => ({ key := op.1, val := op.2 } : bucket_entry)) ∧
        fresh.length = ops.length ∧
        (∀ old : Chain, g0.table[i]? = some old →
          s1.globals.table[i]? = some (fresh ++ old)) ∧
        ∀ j : Nat, j ≠ i → s1.globals.table[j]? = g0.table[j]?) := by
  refine ⟨fun hB hlenT hlenS hkeys sched =>
      conc_progress B g0 ops hfree hB hlenT hlenS hkeys sched,
    fun sched s hrun hdone => conc_result B g0 ops hfree sched s hrun hdone, ?_⟩
  intro i hi hlenT hlenS hsame sched
  obtain ⟨s, more, s1, _, _, hrun, hdone⟩ := conc_progress B g0 ops hfree (by omega) hlenT hlenS
    (fun op hop => by rw [hsame op hop]; omega) sched
  obtain ⟨_, order, _, _, h⟩ := conc_result B g0 ops hfree (sched ++ more) s1 hrun hdone
  obtain ⟨hother, fresh, hperm, hlen, hchain⟩ := h i hsame
  exact ⟨more, s1, fresh, hrun, hdone, hperm, hlen, hchain, hother⟩

/-- Witness of C14: `insert(7, 0)`, `insert(12, 1)` and `insert(2, 2)` in three threads, the
second taking the lock first while the others poll. The first seven statements of the
schedule can be continued to the return of all three calls with three new entries on the
chain of bucket 2, and the schedule of 27 statements is such a run. -/
theorem per_bucket_serializable_witness :
    (∃ (more : List Nat) (s1 : Conc) (fresh : Chain),
      conc_run 5 { globals := init_globals 5, calls := start_calls [(7, 0), (12, 1), (2, 2)] }
        ([0, 1, 2, 1, 0, 2, 1] ++ more) = (s1, .ok ()) ∧
      all_returned s1 = true ∧
      fresh.Perm ([(7, 0), (12, 1), (2, 2)].map fun (op : Int × Int) =>
        ({ key := op.1, val := op.2 } : bucket_entry)) ∧
      fresh.length = 3 ∧
      (∀ old : Chain, (init_globals 5).table[2]? = some old →
        s1.globals.table[2]? = some (fresh ++ old)) ∧
      ∀ j : Nat, j ≠ 2 → s1.globals.table[j]? = (init_globals 5).table[j]?) ∧
    conc_run 5 { globals := init_globals 5, calls := start_calls [(7, 0), (12, 1), (2, 2)] }
      [0, 1, 2, 1, 0, 2, 1, 1, 0, 1, 1, 1, 0, 2, 0, 0, 0, 2, 0, 0, 0, 2, 2, 2, 2, 2, 2] =
      (⟨⟨[[], [], [⟨2, 2⟩, ⟨7, 0⟩, ⟨12, 1⟩], [], []], [false, false, false, false, false]⟩,
        [⟨7, 0, true, .returned, 2, 7, 0, [⟨12, 1⟩]⟩, ⟨12, 1, true, .returned, 2, 12, 1, []⟩,
          ⟨2, 2, true, .returned, 2, 2, 2, [⟨7, 0⟩, ⟨12, 1⟩]⟩]⟩, .ok ()) ∧
    ∃ fresh : Chain,
      fresh.Perm ([(7, 0), (12, 1), (2, 2)].map fun (op : Int × Int) =>
        ({ key := op.1, val := op.2 } : bucket_entry)) ∧
      fresh.length = 3 ∧
      ∀ old : Chain, (init_globals 5).table[2]? = some old →
        ([[], [], [⟨2, 2⟩, ⟨7, 0⟩, ⟨12, 1⟩], [], []] : Table)[2]? = some (fresh ++ old) := by
  have hthm := per_bucket_serializable 5 (init_globals 5) [(7, 0), (12, 1), (2, 2)] (by decide)
  refine ⟨hthm.2.2 2 (by decide) (by decide) (by decide) (by decide) [0, 1, 2, 1, 0, 2, 1],
    by decide, ?_⟩
  obtain ⟨_, order, _, _, h⟩ := hthm.2.1
    [0, 1, 2, 1, 0, 2, 1, 1, 0, 1, 1, 1, 0, 2, 0, 0, 0, 2, 0, 0, 0, 2, 2, 2, 2, 2, 2]
    ⟨⟨[[], [], [⟨2, 2⟩, ⟨7, 0⟩, ⟨12, 1⟩], [], []], [false, false, false, false, false]⟩,
      [⟨7, 0, true, .returned, 2, 7, 0, [⟨12, 1⟩]⟩, ⟨12, 1, true, .returned, 2, 12, 1, []⟩,
        ⟨2, 2, true, .returned, 2, 2, 2, [⟨7, 0⟩, ⟨12, 1⟩]⟩]⟩
    (by decide) (by decide)
  exact (h 2 (by decide)).2

/-! ## Termination of `retrieve` on the linked entries (C18) -/

theorem linked_append (cells extra : List Cell) (p : Option Nat) (chain : Chain)
    (h : Linked cells p chain) : Linked (cells ++ extra) p chain := by
  induction h with
  | null => exact Linked.null
  | cell a c rest hc _ ih =>
    refine Linked.cell a c rest ?_ ih
    have hlt : a < cells.length := in_bounds_of_getElem? _ _ _ hc
    rw [List.getElem?_append_left hlt]
    exact hc

theorem represents_empty (B : Nat) : Represents (empty_memory B) (empty_table B) := by
  refine ⟨by simp [empty_memory, empty_table], ?_⟩
  intro i chain h
  simp only [empty_table, List.getElem?_replicate] at h
  split at h
  next hi =>
    cases h
    exact ⟨none, by simp [empty_memory, List.getElem?_replicate, hi], Linked.null⟩
  · cases h

/-- `insert` on memory does what `insert` on the chains does: it links one new entry in
front of the old head. -/
theorem represents_insert (B : Nat) (m : Memory) (t t1 : Table) (key val : Int)
    (hrep : Represents m t) (hins : insert B true t key val = .ok t1) :
    ∃ m1, insert_mem B m key val = .ok m1 ∧ Represents m1 t1 ∧
      m1.cells.length = m.cells.length + 1 := by
  obtain ⟨hB, _, h0, chain, hchain, rfl⟩ := (insert_eq_ok B true t t1 key val).mp hins
  obtain ⟨p, hp, hlinked⟩ := hrep.2 _ chain hchain
  have hlt : (bucket_index B key).toNat < m.heads.length := in_bounds_of_getElem? _ _ _ hp
  refine ⟨{ cells := m.cells ++ [{ key := key, val := val, next := p }],
            heads := m.heads.set (bucket_index B key).toNat (some m.cells.length) }, ?_, ?_, ?_⟩
  · unfold insert_mem
    simp only [hB, if_false, array_read_of_getElem? m.heads _ p h0 hp, Outcome.bind]
  · refine ⟨by simp [hrep.1], ?_⟩
    intro i chain1 h1
    by_cases hi : (bucket_index B key).toNat = i
    · subst hi
      rw [List.getElem?_set_self (by rw [← hrep.1]; exact hlt)] at h1
      cases h1
      refine ⟨some m.cells.length, List.getElem?_set_self hlt, ?_⟩
      exact Linked.cell m.cells.length { key := key, val := val, next := p } chain
        (by simp) (linked_append _ _ _ _ hlinked)
    · rw [List.getElem?_set_ne hi] at h1
      obtain ⟨q, hq, hl⟩ := hrep.2 i chain1 h1
      exact ⟨q, by simp only [List.getElem?_set_ne hi]; exact hq, linked_append _ _ _ _ hl⟩
  · simp

theorem represents_insert_seq (B : Nat) (ops : List (Int × Int)) :
    ∀ (m : Memory) (t t1 : Table), Represents m t → insert_seq B t ops = .ok t1 →
      ∃ m1, insert_mem_seq B m ops = .ok m1 ∧ Represents m1 t1 ∧
        m1.cells.length = m.cells.length + ops.length := by
  induction ops with
  | nil =>
    intro m t t1 hrep h
    simp only [insert_seq, Outcome.ok.injEq] at h
    subst h
    exact ⟨m, rfl, hrep, rfl⟩
  | cons op ops ih =>
    intro m t t1 hrep h
    simp only [insert_seq, bind_eq_ok] at h
    obtain ⟨t2, h1, h2⟩ := h
    obtain ⟨m2, hm2, hrep2, hlen2⟩ := represents_insert B m t t2 op.1 op.2 hrep h1
    obtain ⟨m1, hm1, hrep1, hlen1⟩ := ih m2 t2 t1 hrep2 h2
    refine ⟨m1, by simp only [insert_mem_seq, hm2, Outcome.bind]; exact hm1, hrep1, ?_⟩
    rw [hlen1, hlen2, List.length_cons]
    omega

theorem inspected_le (key : Int) (chain : Chain) : inspected key chain ≤ chain.length := by
  induction chain with
  | nil => simp [inspected]
  | cons b rest ih =>
    simp only [inspected, List.length_cons]
    split <;> omega

theorem inspected_of_none (key : Int) (chain : Chain) (h : scan key chain = none) :
    inspected key chain = chain.length := by
  induction chain with
  | nil => rfl
  | cons b rest ih =>
    by_cases hb : b.key = key
    · simp [scan, hb] at h
    · simp only [scan, hb, if_false] at h
      simp [inspected, hb, ih h]

theorem inspected_of_some (key : Int) (chain : Chain) (e : bucket_entry)
    (h : scan key chain = some e) :
    ∃ front back, chain = front ++ e :: back ∧ (∀ b ∈ front, b.key ≠ key) ∧ e.key = key ∧
      inspected key chain = front.length + 1 := by
  induction chain with
  | nil => simp [scan] at h
  | cons b rest ih =>
    by_cases hb : b.key = key
    · simp only [scan, hb, if_true, Option.some.injEq] at h
      subst h
      exact ⟨[], rest, by simp, by simp, hb, by simp [inspected, hb]⟩
    · simp only [scan, hb, if_false] at h
      obtain ⟨front, back, h1, h2, h3, h4⟩ := ih h
      refine ⟨b :: front, back, by simp [h1], ?_, h3, by simp [inspected, hb, h4]⟩
      intro x hx
      rcases List.mem_cons.mp hx with rfl | hx
      · exact hb
      · exact h2 x hx

/-- On a pointer that leads through a finite chain, the loop of `retrieve` ends within as
many passes as the chain has entries, at the entry the scan of the chain finds. -/
theorem scan_mem_linked (cells : List Cell) (key : Int) (p : Option Nat) (chain : Chain)
    (h : Linked cells p chain) :
    ∀ (fuel n : Nat), chain.length ≤ fuel →
      ∃ ptr, scan_mem cells key fuel p n = .ok (ptr, n + inspected key chain) ∧
        ((ptr = none ∧ scan key chain = none) ∨
          ∃ (a : Nat) (c : Cell), ptr = some a ∧ cells[a]? = some c ∧ c.key = key ∧
            scan key chain = some { key := c.key, val := c.val }) := by
  induction h with
  | null =>
    intro fuel n _
    refine ⟨none, ?_, Or.inl ⟨rfl, rfl⟩⟩
    cases fuel <;> simp [scan_mem, inspected]
  | cell a c rest hc _ ih =>
    intro fuel n hfuel
    cases fuel with
    | zero => simp at hfuel
    | succ fuel =>
      simp only [List.length_cons, Nat.add_le_add_iff_right] at hfuel
      by_cases hk : c.key = key
      · refine ⟨some a, ?_, Or.inr ⟨a, c, rfl, hc, hk, by simp [scan, hk]⟩⟩
        simp [scan_mem, hc, hk, inspected]
      · obtain ⟨ptr, hscan, hres⟩ := ih fuel (n + 1) hfuel
        refine ⟨ptr, ?_, ?_⟩
        · simp only [scan_mem, hc, hk, if_false, hscan, inspected]
          congr 2
          omega
        · simpa [scan, hk] using hres

/-- C18: in every table state `t` reached from the empty table by a sequence of inserts
(`B > 0`), the memory reached by the same inserts holds, for the bucket of a non-negative key
`k`, a head pointer that leads through a finite chain (the chain of `t`); on it `retrieve(k)`
returns within as many passes of its loop as the chain has entries, whatever larger bound is
allowed; it has then inspected at most that many entries: all of them when no entry has key
`k` (the result is `NULL`), otherwise those up to and including the first entry with key `k`,
which is the result. -/
theorem retrieve_terminates (B : Nat) (ops : List (Int × Int)) (t : Table) (k : Int)
    (hB : 0 < B) (hreach : insert_seq B (empty_table B) ops = .ok t) (hk : 0 ≤ k) :
    ∃ (m : Memory) (chain : Chain) (p : Option Nat),
      insert_mem_seq B (empty_memory B) ops = .ok m ∧
      t[(k % (B : Int)).toNat]? = some chain ∧
      m.heads[(k % (B : Int)).toNat]? = some p ∧ Linked m.cells p chain ∧
      retrieve B t k = .ok (scan k chain) ∧
      ∀ fuel : Nat, chain.length ≤ fuel →
        ∃ (ptr : Option Nat) (n : Nat),
          retrieve_mem B m k fuel = .ok (ptr, n) ∧ n ≤ chain.length ∧
          ((ptr = none ∧ scan k chain = none ∧ n = chain.length ∧ ∀ b ∈ chain, b.key ≠ k) ∨
            ∃ (a : Nat) (c : Cell) (front back : Chain),
              ptr = some a ∧ m.cells[a]? = some c ∧ c.key = k ∧
              scan k chain = some { key := c.key, val := c.val } ∧
              chain = front ++ { key := c.key, val := c.val } :: back ∧
              (∀ b ∈ front, b.key ≠ k) ∧ n = front.length + 1) := by
  obtain ⟨m, hm, hrep, _⟩ := represents_insert_seq B ops _ _ t (represents_empty B) hreach
  have hidx := bucket_index_of_nonneg B k hk
  obtain ⟨h0, hlt⟩ := bucket_index_bounds B k hB hk
  have hchain := insert_seq_empty_chain B ops t hreach _ hlt
  obtain ⟨p, hp, hlinked⟩ := hrep.2 _ _ hchain
  rw [hidx] at hchain hp hlinked
  refine ⟨m, _, p, hm, hchain, hp, hlinked, ?_, ?_⟩
  · rw [retrieve_eq_ok]
    exact ⟨by omega, h0, _, by rw [hidx]; exact hchain, rfl⟩
  · intro fuel hfuel
    obtain ⟨ptr, hscan, hres⟩ := scan_mem_linked m.cells k p _ hlinked fuel 0 hfuel
    have hB0 : B ≠ 0 := by omega
    have hread : array_read m.heads (bucket_index B k) = .ok p :=
      array_read_of_getElem? _ _ _ h0 (by rw [hidx]; exact hp)
    refine ⟨ptr, 0 + inspected k (bucket_log B (k % (B : Int)).toNat ops), ?_, ?_, ?_⟩
    · unfold retrieve_mem
      simp only [hB0, if_false, hread, Outcome.bind]
      exact hscan
    · simpa using inspected_le k _
    · rcases hres with ⟨h1, h2⟩ | ⟨a, c, h1, h2, h3, h4⟩
      · left
        exact ⟨h1, h2, by simpa using inspected_of_none k _ h2, (scan_eq_none k _).mp h2⟩
      · right
        obtain ⟨front, back, h5, h6, _, h8⟩ := inspected_of_some k _ _ h4
        exact ⟨a, c, front, back, h1, h2, h3, h4, h5, h6, by simpa using h8⟩

/-- Witness of C18: after `insert(7,0); insert(-5,1); insert(12,0); insert(2,1)` the lookup
of key 12 in the memory reached returns within the three passes that bucket 2 allows. -/
theorem retrieve_terminates_witness :
    ∃ (ptr : Option Nat) (n : Nat),
      retrieve_mem 5 ⟨[⟨7, 0, none⟩, ⟨-5, 1, none⟩, ⟨12, 0, some 0⟩, ⟨2, 1, some 2⟩],
        [some 1, none, some 3, none, none]⟩ 12 3 = .ok (ptr, n) ∧ n ≤ 3 := by
  obtain ⟨m, chain, p, hm, hchain, _, _, _, h⟩ :=
    retrieve_terminates 5 [(7, 0), (-5, 1), (12, 0), (2, 1)]
      [[⟨-5, 1⟩], [], [⟨2, 1⟩, ⟨12, 0⟩, ⟨7, 0⟩], [], []] 12 (by decide) (by decide) (by decide)
  have hm2 : insert_mem_seq 5 (empty_memory 5) [(7, 0), (-5, 1), (12, 0), (2, 1)] =
      .ok ⟨[⟨7, 0, none⟩, ⟨-5, 1, none⟩, ⟨12, 0, some 0⟩, ⟨2, 1, some 2⟩],
        [some 1, none, some 3, none, none]⟩ := by decide
  rw [hm2] at hm
  cases hm
  have hc : chain = [⟨2, 1⟩, ⟨12, 0⟩, ⟨7, 0⟩] := by
    have h2 : ([[⟨-5, 1⟩], [], [⟨2, 1⟩, ⟨12, 0⟩, ⟨7, 0⟩], [], []] : Table)[
        ((12 : Int) % ((5 : Nat) : Int)).toNat]? = some [⟨2, 1⟩, ⟨12, 0⟩, ⟨7, 0⟩] := by decide
    rw [h2] at hchain
    cases hchain
    rfl
  subst hc
  obtain ⟨ptr, n, hr, hn, _⟩ := h 3 (by decide)
  exact ⟨ptr, n, hr, hn⟩

end ParallelSpin
